import Mathlib

/-!
Shallow embedding of `src/mambler.py` (the mambler Markdown→AMB compiler).

Modelling conventions:
* Python `str` values become `Str := List Char`; bytes become `Nat` values < 256.
* Python exceptions become `Except MamblerError`; the unbounded `while` loops of
  the source are driven by an explicit fuel argument, with `none` meaning the
  loop has not finished within the given fuel.
* The host Python `codecs` registry and the filesystem are external
  collaborators (spec §1); they are modelled as explicit parameters
  (`CodecTable`, `FileSys`).  `struct.pack` overflow on values that do not fit
  the field is not modelled (fields are reduced mod 2^16 / 2^32); no claim
  depends on it.
* `str.isalnum` / case mapping are modelled on the ASCII range via
  `Char.isAlphanum` / `Char.toUpper`; all names handled by the claims are ASCII.
-/

namespace Mambler

/-- Bytes are modelled as natural numbers (understood to be < 256). -/
abbrev Byte := Nat

/-- Python strings are modelled as lists of characters. -/
abbrev Str := List Char

/-- Convert a Lean string literal into the model type. -/
def str (s : String) : Str := s.data

/-- The newline character. -/
def nl : Char := '\n'

/-- `AMA_MAX_BYTES = 65_535` from mambler.py. -/
def AMA_MAX_BYTES : Nat := 65535

/-- `LINK_CONTINUE_LABEL = "Continue"` from mambler.py. -/
def LINK_CONTINUE_LABEL : Str := str "Continue"

/-- `AMB_MAGIC = b"AMB1"` from mambler.py. -/
def AMB_MAGIC : List Byte := [65, 77, 66, 49]

/-- The error conditions mambler.py can raise.  `unicodeEncodeErr` models a bare
Python `UnicodeEncodeError` (carrying the codec name and the failing character
index); the remaining constructors model the various `ValueError` /
`FileNotFoundError` / `KeyError` raises of the source, with the data their
messages carry. -/
inductive MamblerError where
  | unicodeEncodeErr (encoding : Str) (pos : Nat)
  | unsupportedCodepage (name : Str)
  | nonSingleByteCodepage (name : Str)
  | articleUnencodable (article : Str) (lineNo : Nat)
  | lineTooLarge (article : Str)
  | splitInfeasible (name : Str)
  | inconsistentWordLength (bucket : Nat)
  | tooManyFilesPerWord (word : Str)
  | dictionaryTooLarge
  | fileNotFound (path : Str)
  | keyErr (key : Str)
  | tabInArticle (name : Str)
  | encodeUnencodable (name : Str)
  | articleTooLarge (name : Str)
  | invalidFilename (name : Str)
  deriving DecidableEq, Repr

/-- `CodepageInfo` from mambler.py: canonical name, single-byte encoder
(modelled per character, as `_encode_with_map` is written and as the host
single-byte codecs behave), and the 128-entry unicode map. -/
structure CodepageInfo where
  canonical : Str
  encodeChar : Char → Option Byte
  unicode_map : List Nat

/-- Strict encoding of a text, reporting the index of the first unencodable
character like Python's `UnicodeEncodeError`. -/
def encodeFrom (cp : CodepageInfo) : Nat → Str → Except MamblerError (List Byte)
  | _, [] => .ok []
  | i, c :: cs =>
    match cp.encodeChar c with
    | none => .error (.unicodeEncodeErr cp.canonical i)
    | some b =>
      match encodeFrom cp (i + 1) cs with
      | .error e => .error e
      | .ok bs => .ok (b :: bs)

/-- `CodepageInfo.encode` from mambler.py. -/
def CodepageInfo.encode (cp : CodepageInfo) (s : Str) : Except MamblerError (List Byte) :=
  encodeFrom cp 0 s

/-- Modelled from the spec: an entry of "the host's 8-bit single-byte codec
table" (§4.A).  A codec has a strict per-character encoder and a per-byte
decoder; the presence check of `_build_codepage` decodes bytes 0x80..0xFF. -/
structure Codec where
  encodeChar : Char → Option Byte
  decodeByte : Byte → Option Char

/-- Modelled from the spec: the host codec registry (`codecs.lookup`), which is
not part of this repository. -/
abbrev CodecTable := Str → Option Codec

/-- `_build_encode_map` from mambler.py: invert a 128-entry unicode map,
first-write (lower byte position) wins, ASCII codepoints are skipped. -/
def buildEncodeMapGo : List Nat → Nat → List (Nat × Nat) → List (Nat × Nat)
  | [], _, acc => acc
  | cp :: rest, idx, acc =>
    if 128 ≤ cp then
      if (acc.lookup cp).isSome then buildEncodeMapGo rest (idx + 1) acc
      else buildEncodeMapGo rest (idx + 1) (acc ++ [(cp, idx)])
    else buildEncodeMapGo rest (idx + 1) acc

/-- `_build_encode_map` from mambler.py. -/
def _build_encode_map (mapping : List Nat) : List (Nat × Nat) :=
  buildEncodeMapGo mapping 128 []

/-- `_encode_with_map` from mambler.py, per character: ASCII passes through,
high codepoints go through the inverted map. -/
def mapEncodeChar (encode_map : List (Nat × Nat)) (c : Char) : Option Byte :=
  if c.toNat < 128 then some c.toNat else encode_map.lookup c.toNat

/-- Strict decode of a byte sequence under a codec (`bytes.decode(..., "strict")`). -/
def decodeAll (codec : Codec) : List Nat → Option (List Char)
  | [] => some []
  | b :: rest =>
    match codec.decodeByte b with
    | none => none
    | some c =>
      match decodeAll codec rest with
      | none => none
      | some cs => some (c :: cs)

/-- The non-synthetic branch of `_build_codepage`: look the canonical name up
in the host codec table, check that bytes 0x80..0xFF decode, and derive the
unicode map from that decode. -/
def hostCodepage (table : CodecTable) (canonical : Str) : Except MamblerError CodepageInfo :=
  match table canonical with
  | none => .error (.unsupportedCodepage canonical)
  | some codec =>
    match decodeAll codec ((List.range 128).map (fun i => 128 + i)) with
    | none => .error (.nonSingleByteCodepage canonical)
    | some chars => .ok ⟨canonical, codec.encodeChar, chars.map Char.toNat⟩

/-- The override table of `_build_kam` from mambler.py. -/
def kamOverrides : List (Nat × Nat) :=
  [(128, 0x010C), (131, 0x010F), (133, 0x010E), (134, 0x0164), (135, 0x010D),
   (136, 0x011B), (137, 0x011A), (138, 0x0139), (139, 0x00CD), (140, 0x013E),
   (141, 0x013A), (143, 0x00C1), (145, 0x017E), (146, 0x017D), (149, 0x00D3),
   (150, 0x016F), (151, 0x00DA), (152, 0x00FD), (155, 0x0160), (156, 0x013D),
   (157, 0x00DD), (158, 0x0158), (159, 0x0165), (164, 0x0148), (165, 0x0147),
   (166, 0x016E), (167, 0x00D4), (168, 0x0161), (169, 0x0159), (170, 0x0155),
   (171, 0x0154), (173, 0x00A7)]

/-- The override table of `_build_maz` from mambler.py. -/
def mazOverrides : List (Nat × Nat) :=
  [(134, 0x0105), (141, 0x0107), (143, 0x0104), (144, 0x0118), (145, 0x0119),
   (146, 0x0142), (149, 0x0106), (152, 0x015A), (156, 0x0141), (158, 0x015B),
   (160, 0x0179), (161, 0x017B), (163, 0x00D3), (164, 0x0144), (165, 0x0143),
   (166, 0x017A), (167, 0x017C)]

/-- Apply a byte-position → codepoint override table to a 128-entry map. -/
def applyOverrides (mapping : List Nat) (overrides : List (Nat × Nat)) : List Nat :=
  overrides.foldl (fun m p => m.set (p.1 - 128) p.2) mapping

/-- `_build_cp808` from mambler.py: cp866's map with byte 0xFD remapped to the
euro sign. -/
def _build_cp808 (table : CodecTable) : Except MamblerError CodepageInfo :=
  match hostCodepage table (str "cp866") with
  | .error e => .error e
  | .ok base =>
    let mapping := base.unicode_map.set (0xFD - 0x80) 0x20AC
    .ok ⟨str "cp808", mapEncodeChar (_build_encode_map mapping), mapping⟩

/-- `_build_kam` from mambler.py. -/
def _build_kam (table : CodecTable) : Except MamblerError CodepageInfo :=
  match hostCodepage table (str "cp437") with
  | .error e => .error e
  | .ok base =>
    let mapping := applyOverrides base.unicode_map kamOverrides
    .ok ⟨str "kam", mapEncodeChar (_build_encode_map mapping), mapping⟩

/-- `_build_maz` from mambler.py. -/
def _build_maz (table : CodecTable) : Except MamblerError CodepageInfo :=
  match hostCodepage table (str "cp437") with
  | .error e => .error e
  | .ok base =>
    let mapping := applyOverrides base.unicode_map mazOverrides
    .ok ⟨str "maz", mapEncodeChar (_build_encode_map mapping), mapping⟩

/-- `_build_codepage` from mambler.py. -/
def _build_codepage (table : CodecTable) (canonical : Str) : Except MamblerError CodepageInfo :=
  if canonical = str "cp808" then _build_cp808 table
  else if canonical = str "kam" then _build_kam table
  else if canonical = str "maz" then _build_maz table
  else hostCodepage table canonical

/-- The `CODEPAGE_ALIASES` table from mambler.py. -/
def CODEPAGE_ALIASES : List (Str × Str) :=
  [(str "cp437", str "cp437"), (str "ibm437", str "cp437"), (str "dos437", str "cp437"),
   (str "437", str "cp437"), (str "cp775", str "cp775"), (str "775", str "cp775"),
   (str "cp808", str "cp808"), (str "808", str "cp808"), (str "cp850", str "cp850"),
   (str "850", str "cp850"), (str "cp852", str "cp852"), (str "852", str "cp852"),
   (str "cp857", str "cp857"), (str "857", str "cp857"), (str "cp858", str "cp858"),
   (str "858", str "cp858"), (str "cp866", str "cp866"), (str "866", str "cp866"),
   (str "cp1250", str "cp1250"), (str "1250", str "cp1250"),
   (str "windows1250", str "cp1250"), (str "win1250", str "cp1250"),
   (str "cp1252", str "cp1252"), (str "1252", str "cp1252"),
   (str "windows1252", str "cp1252"), (str "win1252", str "cp1252"),
   (str "kam", str "kam"), (str "kamenicky", str "kam"),
   (str "kamenickyencoding", str "kam"), (str "maz", str "maz"),
   (str "mazovia", str "maz")]

/-- Python `str.strip()` (whitespace trim). -/
def strStrip (s : Str) : Str :=
  ((s.dropWhile Char.isWhitespace).reverse.dropWhile Char.isWhitespace).reverse

/-- Python `str.lower()`, on the ASCII range. -/
def strLower (s : Str) : Str := s.map Char.toLower

/-- Python `str.upper()`, on the ASCII range. -/
def strUpper (s : Str) : Str := s.map Char.toUpper

/-- Python `str.isdigit()` (nonempty and all digits). -/
def isDigits (s : Str) : Bool := !s.isEmpty && s.all Char.isDigit

/-- `_normalize_codepage_name` from mambler.py. -/
def _normalize_codepage_name (raw : Str) : Str :=
  let token := (strLower (strStrip raw)).filter (fun c => c ≠ '-' && c ≠ '_')
  match CODEPAGE_ALIASES.lookup token with
  | some v => v
  | none =>
    if (str "ibm").isPrefixOf token && isDigits (token.drop 3) then str "cp" ++ token.drop 3
    else if (str "dos").isPrefixOf token && isDigits (token.drop 3) then str "cp" ++ token.drop 3
    else if (str "windows").isPrefixOf token && isDigits (token.drop 7) then str "cp" ++ token.drop 7
    else if (str "win").isPrefixOf token && isDigits (token.drop 3) then str "cp" ++ token.drop 3
    else if isDigits token then str "cp" ++ token
    else token

/-- `resolve_codepage` from mambler.py (the memo cache is behaviourally the
identity, so it is not modelled). -/
def resolve_codepage (table : CodecTable) (name : Str) : Except MamblerError CodepageInfo :=
  _build_codepage table (_normalize_codepage_name name)

/-- Little-endian 16-bit serialization (`struct.pack("<H", ·)`). -/
def pack16 (n : Nat) : List Byte := [n % 256, n / 256 % 256]

/-- Little-endian 32-bit serialization (`struct.pack("<I", ·)`). -/
def pack32 (n : Nat) : List Byte :=
  [n % 256, n / 256 % 256, n / 65536 % 256, n / 16777216 % 256]

/-- `_unicode_map_bytes` from mambler.py. -/
def _unicode_map_bytes (cp : CodepageInfo) : List Byte :=
  (cp.unicode_map.map pack16).flatten

/-- `_has_high_bit` from mambler.py. -/
def _has_high_bit (data : List Byte) : Bool := data.any (fun b => decide (128 ≤ b))

/-- Python dict assignment `m[k] = v` on an insertion-ordered association
list: update in place if present, else append. -/
def assocSet {κ β : Type} [BEq κ] (m : List (κ × β)) (k : κ) (v : β) : List (κ × β) :=
  if (m.lookup k).isSome then m.map (fun p => if p.1 == k then (k, v) else p)
  else m ++ [(k, v)]

/-- `compute_file_offsets` from mambler.py (worker loop). -/
def computeOffsetsGo : List (Str × List Byte) → Nat → List (Str × Nat) → List (Str × Nat)
  | [], _, m => m
  | (name, data) :: rest, off, m =>
    computeOffsetsGo rest (off + data.length) (assocSet m (strUpper name) off)

/-- `compute_file_offsets` from mambler.py. -/
def compute_file_offsets (files : List (Str × List Byte)) (include_dict : Bool) : List (Str × Nat) :=
  computeOffsetsGo files (6 + 20 * (files.length + if include_dict then 1 else 0)) []

/-- `compute_word_hash` from mambler.py. -/
def compute_word_hash (encoded_word : List Byte) : Nat :=
  ((encoded_word.length - 2) <<< 4) |||
    ((encoded_word.foldl (fun c b => c ^^^ (b &&& 15)) 0) &&& 15)

/-- A decimal digit character. -/
def decChar (d : Nat) : Char := Char.ofNat (48 + d)

/-- Decimal digits of a natural number, most significant first (fuel-driven;
fuel ≥ n suffices). -/
def decDigitsAux : Nat → Nat → List Nat
  | 0, _ => []
  | _, 0 => []
  | fuel + 1, n + 1 => decDigitsAux fuel ((n + 1) / 10) ++ [(n + 1) % 10]

/-- Python `str(n)` for a natural number. -/
def pyRepr (n : Nat) : Str :=
  if n = 0 then ['0'] else (decDigitsAux n n).map decChar

/-- Python `f"{n:02d}"`: decimal, zero-padded to at least two characters. -/
def fmt02 (n : Nat) : Str :=
  let s := pyRepr n
  if s.length < 2 then '0' :: s else s

/-- `Article` from mambler.py. -/
structure Article where
  source : Str
  ama_name : Str
  deriving DecidableEq, Repr

/-- The stem-sanitizing part of `assign_ama_name`: uppercase, non-alphanumerics
to `_`, empty becomes `ARTICLE`, leading digit gets a `_`, truncate to 8. -/
def sanitizeStem (stem : Str) : Str :=
  let base := (strUpper stem).map (fun c => if c.isAlphanum then c else '_')
  let base := if base = [] then str "ARTICLE" else base
  let base :=
    match base with
    | c :: _ => if c.isDigit then '_' :: base else base
    | [] => base
  base.take 8

/-- The collision `while` loop of `assign_ama_name` (fuel-driven). -/
def assignLoop (base : Str) (existing : List Str) : Nat → Nat → Str → Option Str
  | 0, _, _ => none
  | fuel + 1, counter, name =>
    if name ∈ existing then
      let sfx := fmt02 counter
      assignLoop base existing fuel (counter + 1)
        (base.take (max 1 (8 - sfx.length)) ++ sfx ++ str ".AMA")
    else some name

/-- `assign_ama_name` from mambler.py. -/
def assign_ama_name (fuel : Nat) (stem : Str) (existing : List Str) : Option Str :=
  let base := sanitizeStem stem
  assignLoop base existing fuel 1 (base ++ str ".AMA")

/-- Modelled from the spec: the filesystem (out-of-scope collaborator, §1).
`resolvePath` models `pathlib.Path.resolve`, `pathExists` models
`Path.exists`, and `linksOf` models `find_local_markdown_links` (file reading
plus the link regex), returning the resolved link targets of a file. -/
structure FileSys where
  resolvePath : Str → Str
  pathExists : Str → Bool
  linksOf : Str → List Str

/-- The final path component (after the last `/`). -/
def lastComponent (p : Str) : Str :=
  (p.reverse.takeWhile (fun c => c ≠ '/')).reverse

/-- `pathlib.PurePath.stem`: the final component without its suffix; the
suffix is nonempty only when the last dot is neither first nor last. -/
def pathStem (p : Str) : Str :=
  let nm := lastComponent p
  let ext := nm.reverse.takeWhile (fun c => c ≠ '.')
  if ext.length < nm.length ∧ 0 < ext.length ∧ ext.length + 1 < nm.length then
    nm.take (nm.length - ext.length - 1)
  else nm

/-- The BFS loop of `collect_articles` from mambler.py (fuel-driven).
State: queue, visited (insertion-ordered path → Article), assigned names. -/
def collectLoop (fs : FileSys) (root : Str) :
    Nat → List Str → List (Str × Article) → List Str →
    Option (Except MamblerError (List (Str × Article)))
  | 0, _, _, _ => none
  | _ + 1, [], visited, _ => some (.ok visited)
  | fuel + 1, cur0 :: rest, visited, assigned =>
    let cur := fs.resolvePath cur0
    if (visited.lookup cur).isSome then collectLoop fs root fuel rest visited assigned
    else if fs.pathExists cur = false then some (.error (.fileNotFound cur))
    else
      let nameOpt :=
        if cur = root then some (str "INDEX.AMA")
        else assign_ama_name (fuel + 1) (pathStem cur) assigned
      match nameOpt with
      | none => none
      | some nm =>
        collectLoop fs root fuel (rest ++ fs.linksOf cur)
          (visited ++ [(cur, ⟨cur, nm⟩)]) (assigned ++ [nm])

/-- `collect_articles` from mambler.py. -/
def collect_articles (fs : FileSys) (fuel : Nat) (root : Str) :
    Option (Except MamblerError (List (Str × Article))) :=
  collectLoop fs root fuel [root] [] []

/-- An AMA line paired with its encoding (`encoded_lines` entries). -/
abbrev EncLine := Str × List Byte

/-- `_encode_line` from mambler.py. -/
def _encode_line (cp : CodepageInfo) (line : Str) : Except MamblerError (List Byte) :=
  cp.encode (line ++ [nl])

/-- Python `s.rstrip("\n")`. -/
def rstripNl (s : Str) : Str :=
  (s.reverse.dropWhile (fun c => c = nl)).reverse

/-- The serialized article body: lines joined by `\n`, trailing newlines
stripped, one final `\n` appended. -/
def joinedContent (lines : List Str) : Str :=
  rstripNl (List.intercalate [nl] lines) ++ [nl]

/-- `_encoded_size` from mambler.py. -/
def _encoded_size (cp : CodepageInfo) (lines : List Str) : Except MamblerError Nat :=
  match cp.encode (joinedContent lines) with
  | .error e => .error e
  | .ok bs => .ok bs.length

/-- The per-line pre-encoding pass of `split_article` (lines 535-546): encode
each line, wrap encode failures with the article name and 1-based line number,
reject single lines over the limit. -/
def encodeLinesGo (cp : CodepageInfo) (filename : Str) :
    Nat → List Str → Except MamblerError (List EncLine)
  | _, [] => .ok []
  | idx, line :: rest =>
    match _encode_line cp line with
    | .error _ => .error (.articleUnencodable filename (idx + 1))
    | .ok bs =>
      if AMA_MAX_BYTES < bs.length then .error (.lineTooLarge filename)
      else
        match encodeLinesGo cp filename (idx + 1) rest with
        | .error e => .error e
        | .ok ls => .ok ((line, bs) :: ls)

/-- The 12-character placeholder continuation target of `split_article`. -/
def placeholderTarget : Str := str "XXXXXXXX.XXX"

/-- A continuation trailer line `%l<target>:Continue%t`. -/
def trailerLine (target : Str) : Str :=
  str "%l" ++ target ++ [':'] ++ LINK_CONTINUE_LABEL ++ str "%t"

/-- `continue_overhead` of `split_article`: encoded blank line plus encoded
placeholder trailer line. -/
def continueOverhead (cp : CodepageInfo) : Except MamblerError Nat :=
  match _encode_line cp [] with
  | .error e => .error e
  | .ok e1 =>
    match _encode_line cp (trailerLine placeholderTarget) with
    | .error e => .error e
    | .ok e2 => .ok (e1.length + e2.length)

/-- The pop-back inner `while` of `split_article` (lines 569-572).  `current`
is kept in reverse (most recent first); popped lines are pushed back onto the
front of the pending list, preserving their order.  Returns the remaining
current (still reversed), its size, and the new pending list. -/
def popLoop (ov : Nat) : List EncLine → Nat → List EncLine → List EncLine × Nat × List EncLine
  | [], size, rest => ([], size, rest)
  | l :: t, size, rest =>
    if AMA_MAX_BYTES < size + ov then popLoop ov t (size - l.2.length) (l :: rest)
    else (l :: t, size, rest)

/-- The main segmentation `while` of `split_article` (lines 558-579),
fuel-driven.  `curRev` is the current segment in reverse order. -/
def splitLoop (filename : Str) (ov : Nat) :
    Nat → List EncLine → List EncLine → Nat → List (List EncLine) →
    Option (Except MamblerError (List (List EncLine)))
  | 0, _, _, _, _ => none
  | _ + 1, [], curRev, _, segs =>
    some (.ok (if curRev = [] then segs else segs ++ [curRev.reverse]))
  | fuel + 1, l :: rest, curRev, size, segs =>
    if size + l.2.length ≤ AMA_MAX_BYTES then
      splitLoop filename ov fuel rest (l :: curRev) (size + l.2.length) segs
    else if curRev = [] then some (.error (.lineTooLarge filename))
    else
      match popLoop ov curRev size (l :: rest) with
      | (cur2, _, rest2) => splitLoop filename ov fuel rest2 [] 0 (segs ++ [cur2.reverse])

/-- A continuation-name candidate: trimmed stem plus suffix plus `.AMA`
(lines 593-595 / 598-599). -/
def segCandidate (stem sfx : Str) : Str :=
  stem.take (max 1 (8 - sfx.length)) ++ sfx ++ str ".AMA"

/-- The collision `while` of the continuation-naming loop (lines 596-601),
fuel-driven. -/
def segNameLoop (stem : Str) (idx : Nat) (existing : List Str) :
    Nat → Nat → Str → Option Str
  | 0, _, _ => none
  | fuel + 1, counter, name =>
    if name ∈ existing then
      segNameLoop stem idx existing fuel (counter + 1)
        (segCandidate stem (fmt02 idx ++ pyRepr counter))
    else some name

/-- The continuation-naming loop of `split_article` (lines 589-603): the first
segment keeps the original filename, later ones get numbered names checked
against the names generated so far in this split. -/
def genNamesGo (filename stem : Str) (fuel : Nat) :
    Nat → Nat → List Str → Option (List Str)
  | 0, _, _ => some []
  | remaining + 1, idx, existing =>
    let nameOpt :=
      if idx = 0 then some filename
      else segNameLoop stem idx existing fuel 1 (segCandidate stem (fmt02 idx))
    match nameOpt with
    | none => none
    | some nm =>
      match genNamesGo filename stem fuel remaining (idx + 1) (existing ++ [nm]) with
      | none => none
      | some rest => some (nm :: rest)

/-- Generate the segment names for a split into `count` segments. -/
def genSegNames (filename : Str) (fuel count : Nat) : Option (List Str) :=
  genNamesGo filename (pathStem filename) fuel count 0 []

/-- The trailer-appending result loop of `split_article` (lines 605-613):
every non-terminal segment gets a blank line and a `%l<next>:Continue%t`
trailer, then is size-checked. -/
def buildSegResult (cp : CodepageInfo) :
    List (Str × List Str) → Except MamblerError (List (Str × List Str))
  | [] => .ok []
  | [(nm, seg)] => .ok [(nm, seg)]
  | (nm, seg) :: next :: rest =>
    let seg2 := seg ++ [[], trailerLine next.1]
    match _encoded_size cp seg2 with
    | .error e => .error e
    | .ok sz =>
      if AMA_MAX_BYTES < sz then .error (.splitInfeasible nm)
      else
        match buildSegResult cp (next :: rest) with
        | .error e => .error e
        | .ok tail => .ok ((nm, seg2) :: tail)

/-- `split_article` from mambler.py (fuel-driven; `none` means the
segmentation loop did not finish within the fuel). -/
def split_article (fuel : Nat) (filename : Str) (lines : List Str) (cp : CodepageInfo) :
    Option (Except MamblerError (List (Str × List Str))) :=
  match _encoded_size cp lines with
  | .error e => some (.error e)
  | .ok sz =>
    if sz ≤ AMA_MAX_BYTES then some (.ok [(filename, lines)])
    else
      match encodeLinesGo cp filename 0 lines with
      | .error e => some (.error e)
      | .ok encLines =>
        match continueOverhead cp with
        | .error e => some (.error e)
        | .ok ov =>
          match splitLoop filename ov fuel encLines [] 0 [] with
          | none => none
          | some (.error e) => some (.error e)
          | some (.ok segs0) =>
            let segs := segs0.filter (fun s => s ≠ [])
            if segs = [] then some (.ok [(filename, lines)])
            else
              match genSegNames filename fuel segs.length with
              | none => none
              | some names =>
                some (buildSegResult cp (names.zip (segs.map (fun s => s.map Prod.fst))))

/-- `encode_ama` from mambler.py. -/
def encode_ama (name : Str) (lines : List Str) (cp : CodepageInfo) :
    Except MamblerError (List Byte) :=
  if lines.any (fun l => '\t' ∈ l) then .error (.tabInArticle name)
  else
    match cp.encode (joinedContent lines) with
    | .error _ => .error (.encodeUnencodable name)
    | .ok data =>
      if AMA_MAX_BYTES < data.length then .error (.articleTooLarge name)
      else .ok data

/-- Python `"ascii"` encoding with the `"ignore"` error policy. -/
def asciiIgnore (s : Str) : List Byte :=
  s.filterMap (fun c => if c.toNat < 128 then some c.toNat else none)

/-- Lexicographic comparison of strings by code point (Python `<=` on str,
restricted to what sorting needs). -/
def strLe : Str → Str → Bool
  | [], _ => true
  | _ :: _, [] => false
  | x :: xs, y :: ys =>
    if x = y then strLe xs ys else decide (x.toNat < y.toNat)

/-- Remove the (first) entry with the given key (`dict.pop`). -/
def eraseKey {β : Type} (m : List (Str × β)) (k : Str) : List (Str × β) :=
  match m with
  | [] => []
  | (k', v) :: rest => if k' = k then rest else (k', v) :: eraseKey rest k

/-- Encode a list of named articles in order (`for name, lines in sorted(...)`). -/
def encodeAll (cp : CodepageInfo) : List (Str × List Str) → Except MamblerError (List (Str × List Byte))
  | [] => .ok []
  | (nm, lines) :: rest =>
    match encode_ama nm lines cp with
    | .error e => .error e
    | .ok d =>
      match encodeAll cp rest with
      | .error e => .error e
      | .ok ds => .ok ((nm, d) :: ds)

/-- `assemble_files` from mambler.py: optional TITLE, INDEX.AMA, the remaining
articles sorted by name, optional UNICODE.MAP.  A missing INDEX.AMA key is the
source's uncaught `KeyError` from `articles.pop("INDEX.AMA")`. -/
def assemble_files (ama_contents : List (Str × List Str)) (title : Option Str)
    (cp : CodepageInfo) : Except MamblerError (List (Str × List Byte)) :=
  let files0 : List (Str × List Byte) :=
    match title with
    | some t => if t ≠ [] then [(str "TITLE", (asciiIgnore t).take 64)] else []
    | none => []
  match ama_contents.lookup (str "INDEX.AMA") with
  | none => .error (.keyErr (str "INDEX.AMA"))
  | some index_lines =>
    let articles := eraseKey ama_contents (str "INDEX.AMA")
    match encode_ama (str "INDEX.AMA") index_lines cp with
    | .error e => .error e
    | .ok index_bytes =>
      match encodeAll cp (List.insertionSort (fun p q => strLe p.1 q.1 = true) articles) with
      | .error e => .error e
      | .ok encoded =>
        let amaFiles := (str "INDEX.AMA", index_bytes) :: encoded
        let files := files0 ++ amaFiles
        .ok (if amaFiles.any (fun p => _has_high_bit p.2) then
              files ++ [(str "UNICODE.MAP", _unicode_map_bytes cp)]
            else files)

/-- `bsd_checksum` from mambler.py: rotate right within 16 bits, then add the
byte mod 2^16. -/
def bsd_checksum (data : List Byte) : Nat :=
  data.foldl (fun c b => (((c >>> 1) ||| ((c &&& 1) <<< 15)) + b) &&& 65535) 0

/-- The directory-entry pass of `pack_amb` (lines 660-671): canonical
uppercase names, 8.3 length check, cumulative payload offsets, checksums. -/
def packEntriesGo : List (Str × List Byte) → Nat → Except MamblerError (List (Str × Nat × Nat × Nat))
  | [], _ => .ok []
  | (filename, data) :: rest, off =>
    let canonical := strUpper filename
    if 12 < canonical.length then .error (.invalidFilename canonical)
    else
      match packEntriesGo rest (off + data.length) with
      | .error e => .error e
      | .ok es => .ok ((canonical, off, data.length, bsd_checksum data) :: es)

/-- The directory entries `pack_amb` computes for a file list. -/
def packEntries (files : List (Str × List Byte)) : Except MamblerError (List (Str × Nat × Nat × Nat)) :=
  packEntriesGo files (6 + 20 * files.length)

/-- Serialize one 20-byte directory entry. -/
def packDirEntry (e : Str × Nat × Nat × Nat) : List Byte :=
  let padded := asciiIgnore e.1
  (padded ++ List.replicate (12 - padded.length) 0) ++
    pack32 e.2.1 ++ pack16 e.2.2.1 ++ pack16 e.2.2.2

/-- `pack_amb` from mambler.py. -/
def pack_amb (files : List (Str × List Byte)) : Except MamblerError (List Byte) :=
  match packEntries files with
  | .error e => .error e
  | .ok entries =>
    .ok (AMB_MAGIC ++ pack16 entries.length ++ (entries.map packDirEntry).flatten ++
      (files.map Prod.snd).flatten)

/-- Bucket-id → (word → (encoded word, file ids)) association, insertion
ordered, as `build_dict_index` builds it. -/
abbrev BucketMap := List (Nat × List (Str × (List Byte × List Nat)))

/-- Ascending sort of a list of naturals (Python `sorted`). -/
def natSortAsc (l : List Nat) : List Nat :=
  List.insertionSort (fun a b => a ≤ b) l

/-- `bucket_words.setdefault(bucket, {})[word] = v`. -/
def bucketInsert (bm : BucketMap) (bucket : Nat) (word : Str)
    (v : List Byte × List Nat) : BucketMap :=
  if (bm.lookup bucket).isSome then
    bm.map (fun p => if p.1 = bucket then (p.1, assocSet p.2 word v) else p)
  else bm ++ [(bucket, [(word, v)])]

/-- The bucket-building pass of `build_dict_index` (lines 268-282): encode
each word (skipping unencodable ones and out-of-range lengths), collect the
deduplicated ascending file offsets, skip words with no known file. -/
def buildBuckets (cp : CodepageInfo) (file_offsets : List (Str × Nat)) :
    List (Str × List Str) → BucketMap → BucketMap
  | [], bm => bm
  | (word, filenames) :: rest, bm =>
    match cp.encode word with
    | .error _ => buildBuckets cp file_offsets rest bm
    | .ok encoded_word =>
      if 2 ≤ encoded_word.length ∧ encoded_word.length ≤ 17 then
        let bucket := compute_word_hash encoded_word
        let file_ids := natSortAsc
          (List.dedup (filenames.filterMap (fun n => file_offsets.lookup (strUpper n))))
        if file_ids = [] then buildBuckets cp file_offsets rest bm
        else buildBuckets cp file_offsets rest (bucketInsert bm bucket word (encoded_word, file_ids))
      else buildBuckets cp file_offsets rest bm

/-- Sort a bucket's entries lexicographically by word (line 297). -/
def sortEntries (entries : List (Str × (List Byte × List Nat))) :
    List (Str × (List Byte × List Nat)) :=
  List.insertionSort (fun a b => strLe a.1 b.1 = true) entries

/-- Serialize a bucket's entries (lines 300-308): encoded word, file count,
little-endian uint32 file ids; mismatched word lengths and over-255 file
lists are errors. -/
def emitEntries (bucket word_length : Nat) :
    List (Str × (List Byte × List Nat)) → Except MamblerError (List Byte)
  | [] => .ok []
  | (word, (ew, ids)) :: rest =>
    if ew.length ≠ word_length then .error (.inconsistentWordLength bucket)
    else if 255 < ids.length then .error (.tooManyFilesPerWord word)
    else
      match emitEntries bucket word_length rest with
      | .error e => .error e
      | .ok bs => .ok (ew ++ [ids.length] ++ (ids.map pack32).flatten ++ bs)

/-- The 256-bucket emission loop of `build_dict_index` (lines 290-308). -/
def emitBucketsGo (bm : BucketMap) :
    List Nat → List Byte → List Nat → Except MamblerError (List Byte × List Nat)
  | [], lows, offs => .ok (lows, offs)
  | b :: rest, lows, offs =>
    let offs := offs ++ [lows.length]
    match bm.lookup b with
    | none => emitBucketsGo bm rest (lows ++ pack16 0) offs
    | some entries =>
      match sortEntries entries with
      | [] => emitBucketsGo bm rest (lows ++ pack16 0) offs
      | e0 :: es =>
        let word_length := e0.2.1.length
        match emitEntries b word_length (e0 :: es) with
        | .error err => .error err
        | .ok body =>
          emitBucketsGo bm rest (lows ++ pack16 (e0 :: es).length ++ body) offs

/-- `build_dict_index` from mambler.py. -/
def build_dict_index (word_index : List (Str × List Str))
    (file_offsets : List (Str × Nat)) (cp : CodepageInfo) :
    Except MamblerError (Option (List Byte)) :=
  let bm := buildBuckets cp file_offsets word_index []
  if bm = [] then .ok none
  else
    match emitBucketsGo bm (List.range 256) [] [] with
    | .error e => .error e
    | .ok (lows, offs) =>
      if 65536 ≤ lows.length then .error .dictionaryTooLarge
      else .ok (some (lows ++ (offs.map pack16).flatten))

/-- The post-render body of `build_amb` (lines 402-424): pass 1 offsets, try
the index, pass 2 offsets and re-emission, with dictionary failures caught and
the archive emitted without DICT.IDX. -/
def build_amb_post (base_files : List (Str × List Byte))
    (word_index : List (Str × List Str)) (cp : CodepageInfo) :
    Except MamblerError (List Byte) :=
  let offs1 := compute_file_offsets base_files false
  match build_dict_index word_index offs1 cp with
  | .error _ => pack_amb base_files
  | .ok none => pack_amb base_files
  | .ok (some _) =>
    let offs2 := compute_file_offsets base_files true
    match build_dict_index word_index offs2 cp with
    | .error _ => pack_amb base_files
    | .ok none => pack_amb base_files
    | .ok (some d) => pack_amb (base_files ++ [(str "DICT.IDX", d)])

/-- The per-article body of `render_articles` restricted to the produced AMA
filenames: every article's rendered lines are split, and the names of all
produced articles (continuations included) are collected in order.  The
Markdown reading / link rewriting / external rendering chain is the abstract
`render` collaborator. -/
def renderNamesLoop (render : Str → List Str) (cp : CodepageInfo) (fuel : Nat) :
    List (Str × Article) → Option (Except MamblerError (List Str))
  | [] => some (.ok [])
  | (path, art) :: rest =>
    match split_article fuel art.ama_name (render path) cp with
    | none => none
    | some (.error e) => some (.error e)
    | some (.ok parts) =>
      match renderNamesLoop render cp fuel rest with
      | none => none
      | some (.error e) => some (.error e)
      | some (.ok names) => some (.ok (parts.map Prod.fst ++ names))

/-- All AMA filenames the pipeline produces for an input tree: collect the
articles, render and split each, list every produced name. -/
def producedNames (fs : FileSys) (render : Str → List Str) (cp : CodepageInfo)
    (fuel : Nat) (root : Str) : Option (Except MamblerError (List Str)) :=
  match collect_articles fs fuel root with
  | none => none
  | some (.error e) => some (.error e)
  | some (.ok arts) => renderNamesLoop render cp fuel arts

/-- Pairwise distinctness of filenames under case-insensitive comparison
(the claim's uniqueness invariant). -/
def caselessNodup (names : List Str) : Prop :=
  (names.map strUpper).Nodup

/-- The segment name the splitter assigns to index `idx` when no collision
occurs (first segment keeps the filename). -/
def specSegmentName (filename : Str) (idx : Nat) : Str :=
  if idx = 0 then filename else segCandidate (pathStem filename) (fmt02 idx)

/-- Modelled from the spec (§4.D and claim C4): a valid split of `lines` into
ordered segments — the segments concatenate to the lines, each non-terminal
segment still fits `AMA_MAX_BYTES` after appending a blank line and the
`%l<next>:Continue%t` trailer naming the next segment, and the terminal
segment fits without a trailer. -/
def specValidPartition (cp : CodepageInfo) (filename : Str) (lines : List Str)
    (parts : List (List Str)) : Prop :=
  parts.flatten = lines ∧ parts ≠ [] ∧
  (∀ i, i + 1 < parts.length →
    ∃ sz, _encoded_size cp (parts.getD i [] ++ [[], trailerLine (specSegmentName filename (i + 1))]) = .ok sz ∧
      sz ≤ AMA_MAX_BYTES) ∧
  (∀ last, parts.getLast? = some last →
    ∃ sz, _encoded_size cp last = .ok sz ∧ sz ≤ AMA_MAX_BYTES)

/-- The modelled latin-1 host codec: every byte decodes to the same code
point, every code point below 256 encodes to itself.  (Modelled from the
spec: a representative entry of the host's 8-bit single-byte codec table.) -/
def latin1Codec : Codec where
  encodeChar := fun c => if c.toNat < 256 then some c.toNat else none
  decodeByte := fun b => some (Char.ofNat b)

/-- A modelled host codec table containing latin-1 (and nothing else; the
claims using a concrete codepage only need one). -/
def hostTable : CodecTable := fun name =>
  if name = str "latin1" then some latin1Codec else none

/-- The `CodepageInfo` the program builds for `latin1` over the modelled
table. -/
def cpLatin1 : CodepageInfo where
  canonical := str "latin1"
  encodeChar := latin1Codec.encodeChar
  unicode_map := ((List.range 128).map (fun i => Char.ofNat (128 + i))).map Char.toNat

/-- A filesystem whose root is given by an unresolved alias of its real path
(stem `index`): `/r/./index.md` resolves to `/r/index.md`. -/
def fsAliasedIndexRoot : FileSys where
  resolvePath := fun p => if p = str "/r/./index.md" then str "/r/index.md" else p
  pathExists := fun _ => true
  linksOf := fun _ => []

/-- A filesystem whose root is given by an unresolved alias of its real path
(stem `a`): `/r/./a.md` resolves to `/r/a.md`. -/
def fsAliasedPlainRoot : FileSys where
  resolvePath := fun p => if p = str "/r/./a.md" then str "/r/a.md" else p
  pathExists := fun _ => true
  linksOf := fun _ => []

/-- A three-file tree: the root links to `x.md` and `x01.md`. -/
def fsLinkedTree : FileSys where
  resolvePath := id
  pathExists := fun _ => true
  linksOf := fun p =>
    if p = str "/r/index.md" then [str "/r/x.md", str "/r/x01.md"] else []

/-- A renderer collaborator producing an oversize article for `x.md` (two
40,000-character lines) and a one-line article for everything else. -/
def renderBigX : Str → List Str := fun p =>
  if p = str "/r/x.md" then [List.replicate 40000 'a', List.replicate 40000 'a']
  else [str "hi"]

/-- The number denoted by a most-significant-first decimal digit list (the
reading direction of `decDigitsAux`; used to prove the printers injective). -/
def decVal (ds : List Nat) : Nat := ds.foldl (fun a d => 10 * a + d) 0

/-- The per-word work of `build_dict_index`'s first pass (lines 269-282),
restricted to one bucket `b`: `some` exactly when the word encodes, has an
in-range length, hashes to `b` and has at least one known file. -/
def bucketEntryFn (cp : CodepageInfo) (file_offsets : List (Str × Nat)) (b : Nat)
    (e : Str × List Str) : Option (Str × (List Byte × List Nat)) :=
  match cp.encode e.1 with
  | .error _ => none
  | .ok encoded_word =>
    if 2 ≤ encoded_word.length ∧ encoded_word.length ≤ 17 then
      let file_ids := natSortAsc
        (List.dedup (e.2.filterMap (fun n => file_offsets.lookup (strUpper n))))
      if file_ids = [] then none
      else if compute_word_hash encoded_word = b then some (e.1, (encoded_word, file_ids))
      else none
    else none

/-- The entries `build_dict_index` accumulates for bucket `b`, in word-index
order. -/
def bucketEntries (cp : CodepageInfo) (file_offsets : List (Str × Nat))
    (wi : List (Str × List Str)) (b : Nat) : List (Str × (List Byte × List Nat)) :=
  wi.filterMap (bucketEntryFn cp file_offsets b)

/-- Two word-index entries for the same word whose filename lists differ only
in order (a Python `set` iterated in two different orders). -/
def entryEquiv (e1 e2 : Str × List Str) : Prop := e1.1 = e2.1 ∧ e1.2.Perm e2.2

/-- Two word indexes equal up to entry order and per-entry filename order:
exactly the variation Python's hash-randomized `set` iteration can introduce
between two runs over the same inputs. -/
def wordIndexEquiv (wi1 wi2 : List (Str × List Str)) : Prop :=
  ∃ wi, List.Forall₂ entryEquiv wi1 wi ∧ wi.Perm wi2

/-!  Theorems.  -/

theorem cpLatin1_eq_build : hostCodepage hostTable (str "latin1") = .ok cpLatin1 := by
  rfl

/-- Disjoint-or recovery: shifting the padded length back out of a bucket id. -/
theorem or16_shiftRight (a c : Nat) (h : c < 16) : ((a <<< 4) ||| c) >>> 4 = a := by
  apply Nat.eq_of_testBit_eq
  intro i
  rw [Nat.testBit_shiftRight, Nat.testBit_lor, Nat.testBit_shiftLeft]
  have hc : c.testBit (4 + i) = false := by
    apply Nat.testBit_eq_false_of_lt
    calc c < 16 := h
    _ ≤ 2 ^ (4 + i) := by
      have h16 : (16 : Nat) = 2 ^ 4 := by norm_num
      rw [h16]
      exact Nat.pow_le_pow_right (by norm_num) (by omega)
  rw [hc]
  simp [Nat.add_comm 4 i]

/-- The low nybble of a bucket id stays below 16, so the upper nybble is the
length part. -/
theorem compute_word_hash_shiftRight (w : List Byte) :
    compute_word_hash w >>> 4 = w.length - 2 := by
  apply or16_shiftRight
  exact Nat.lt_succ_of_le Nat.and_le_right

theorem decodeAll_length (codec : Codec) :
    ∀ (l : List Nat) (cs : List Char), decodeAll codec l = some cs → cs.length = l.length := by
  intro l
  induction l with
  | nil => intro cs h; simp [decodeAll] at h; simp [← h]
  | cons b rest ih =>
    intro cs h
    simp only [decodeAll] at h
    cases hb : codec.decodeByte b with
    | none => simp only [hb] at h; exact absurd h (by simp)
    | some c =>
      simp only [hb] at h
      cases hr : decodeAll codec rest with
      | none => rw [hr] at h; exact absurd h (by simp)
      | some cs' =>
        rw [hr] at h
        simp at h
        subst h
        simp [ih cs' hr]

theorem hostCodepage_map_length (table : CodecTable) (canonical : Str)
    (info : CodepageInfo) (h : hostCodepage table canonical = .ok info) :
    info.unicode_map.length = 128 := by
  unfold hostCodepage at h
  cases ht : table canonical with
  | none => simp only [ht] at h; exact absurd h (by simp)
  | some codec =>
    simp only [ht] at h
    cases hd : decodeAll codec ((List.range 128).map (fun i => 128 + i)) with
    | none => simp only [hd] at h; exact absurd h (by simp)
    | some chars =>
      simp only [hd] at h
      simp at h
      have := decodeAll_length codec _ _ hd
      simp at this
      rw [← h]
      simp [this]

theorem applyOverrides_length (ov : List (Nat × Nat)) :
    ∀ (mapping : List Nat), (applyOverrides mapping ov).length = mapping.length := by
  induction ov with
  | nil => intro m; rfl
  | cons p rest ih =>
    intro m
    show (applyOverrides (m.set (p.1 - 128) p.2) rest).length = m.length
    rw [ih]
    simp

theorem pack16_flatten_length (l : List Nat) :
    ((l.map pack16).flatten).length = 2 * l.length := by
  induction l with
  | nil => rfl
  | cons x rest ih => simp [pack16] at ih ⊢; omega

theorem build_codepage_map_length (table : CodecTable) (canonical : Str)
    (info : CodepageInfo) (h : _build_codepage table canonical = .ok info) :
    info.unicode_map.length = 128 := by
  unfold _build_codepage at h
  by_cases h8 : canonical = str "cp808"
  · rw [if_pos h8] at h
    unfold _build_cp808 at h
    cases hb : hostCodepage table (str "cp866") with
    | error e => simp only [hb] at h; exact absurd h (by simp)
    | ok base =>
      simp only [hb] at h
      simp at h
      rw [← h]
      simpa using hostCodepage_map_length table _ base hb
  · rw [if_neg h8] at h
    by_cases hk : canonical = str "kam"
    · rw [if_pos hk] at h
      unfold _build_kam at h
      cases hb : hostCodepage table (str "cp437") with
      | error e => simp only [hb] at h; exact absurd h (by simp)
      | ok base =>
        simp only [hb] at h
        simp at h
        rw [← h]
        simp [applyOverrides_length]
        exact hostCodepage_map_length table _ base hb
    · rw [if_neg hk] at h
      by_cases hm : canonical = str "maz"
      · rw [if_pos hm] at h
        unfold _build_maz at h
        cases hb : hostCodepage table (str "cp437") with
        | error e => simp only [hb] at h; exact absurd h (by simp)
        | ok base =>
          simp only [hb] at h
          simp at h
          rw [← h]
          simp [applyOverrides_length]
          exact hostCodepage_map_length table _ base hb
      · rw [if_neg hm] at h
        exact hostCodepage_map_length table canonical info h

/-- Claim C6: whenever `resolve_codepage` accepts a codepage name (lookup and
the 0x80..0xFF decode presence check succeed), the resulting `CodepageInfo`'s
`unicode_map` has exactly 128 entries and its UNICODE.MAP serialization is
exactly 256 bytes (128 little-endian uint16 values); and a codec whose
0x80..0xFF presence check fails (a non-single-byte decode) is rejected with
an error. -/
theorem C6_unicode_map_shape :
    (∀ (table : CodecTable) (name : Str) (info : CodepageInfo),
      resolve_codepage table name = .ok info →
      info.unicode_map.length = 128 ∧ (_unicode_map_bytes info).length = 256) ∧
    (∀ (table : CodecTable) (canonical : Str) (codec : Codec),
      table canonical = some codec →
      decodeAll codec ((List.range 128).map (fun i => 128 + i)) = none →
      hostCodepage table canonical = .error (.nonSingleByteCodepage canonical)) := by
  constructor
  · intro table name info h
    have hlen : info.unicode_map.length = 128 := build_codepage_map_length table _ info h
    refine ⟨hlen, ?_⟩
    unfold _unicode_map_bytes
    rw [pack16_flatten_length, hlen]
  · intro table canonical codec ht hd
    unfold hostCodepage
    simp only [ht, hd]

/-- Claim C6 witness: the modelled latin-1 codepage resolves and has the
claimed shape, and a decode-refusing codec is rejected. -/
theorem C6_unicode_map_shape_witness :
    (cpLatin1.unicode_map.length = 128 ∧ (_unicode_map_bytes cpLatin1).length = 256) ∧
    hostCodepage (fun _ => some ⟨fun _ => none, fun _ => none⟩) (str "x") =
      .error (.nonSingleByteCodepage (str "x")) :=
  ⟨C6_unicode_map_shape.1 hostTable (str "latin1") cpLatin1 (by rfl),
   C6_unicode_map_shape.2 (fun _ => some ⟨fun _ => none, fun _ => none⟩) (str "x")
     ⟨fun _ => none, fun _ => none⟩ rfl rfl⟩

theorem lookup_mem {κ β : Type} [BEq κ] [LawfulBEq κ] {k : κ} {v : β} :
    ∀ {l : List (κ × β)}, l.lookup k = some v → (k, v) ∈ l := by
  intro l
  induction l with
  | nil => intro h; simp [List.lookup] at h
  | cons p rest ih =>
    intro h
    cases p with
    | mk k' v' =>
      rw [List.lookup_cons] at h
      cases hbeq : (k == k') with
      | true =>
        simp only [hbeq] at h
        simp only [Option.some.injEq] at h
        have hk : k = k' := eq_of_beq hbeq
        simp [hk, h]
      | false =>
        simp only [hbeq] at h
        simp [ih h]

theorem assocSet_mem {κ β : Type} [BEq κ] [LawfulBEq κ] {m : List (κ × β)} {k : κ} {v : β}
    {e : κ × β} (h : e ∈ assocSet m k v) : e = (k, v) ∨ e ∈ m := by
  unfold assocSet at h
  by_cases hs : (m.lookup k).isSome
  · rw [if_pos hs] at h
    rcases List.mem_map.1 h with ⟨p, hp, he⟩
    cases hpk : (p.1 == k) with
    | true =>
      rw [hpk] at he
      simp only [if_pos] at he
      left
      exact he.symm
    | false =>
      rw [hpk] at he
      simp only [Bool.false_eq_true, if_false] at he
      right
      rw [← he]
      exact hp
  · rw [if_neg hs] at h
    rcases List.mem_append.1 h with h1 | h2
    · exact Or.inr h1
    · left
      simpa using h2

theorem bucketInsert_inv {bm : BucketMap} {bucket : Nat} {word : Str}
    {ew : List Byte} {ids : List Nat}
    (hinv : ∀ p ∈ bm, ∀ e ∈ p.2, e.2.1.length = (p.1 >>> 4) + 2)
    (hlen : ew.length = (bucket >>> 4) + 2) :
    ∀ p ∈ bucketInsert bm bucket word (ew, ids), ∀ e ∈ p.2, e.2.1.length = (p.1 >>> 4) + 2 := by
  intro p hp e he
  unfold bucketInsert at hp
  by_cases hs : (bm.lookup bucket).isSome
  · rw [if_pos hs] at hp
    rcases List.mem_map.1 hp with ⟨q, hq, hqe⟩
    by_cases hqb : q.1 = bucket
    · rw [if_pos hqb] at hqe
      rw [← hqe] at he ⊢
      rcases assocSet_mem he with h1 | h2
      · rw [h1]
        simpa [hqb] using hlen
      · exact hinv q hq e h2
    · rw [if_neg hqb] at hqe
      rw [← hqe] at he ⊢
      exact hinv q hq e he
  · rw [if_neg hs] at hp
    rcases List.mem_append.1 hp with h1 | h2
    · exact hinv p h1 e he
    · simp at h2
      rw [h2] at he ⊢
      simp at he
      rw [he]
      simpa using hlen

theorem buildBuckets_inv (cp : CodepageInfo) (fo : List (Str × Nat)) :
    ∀ (wi : List (Str × List Str)) (bm : BucketMap),
    (∀ p ∈ bm, ∀ e ∈ p.2, e.2.1.length = (p.1 >>> 4) + 2) →
    ∀ p ∈ buildBuckets cp fo wi bm, ∀ e ∈ p.2, e.2.1.length = (p.1 >>> 4) + 2 := by
  intro wi
  induction wi with
  | nil => intro bm h; exact h
  | cons entry rest ih =>
    intro bm h
    cases entry with
    | mk word filenames =>
      simp only [buildBuckets]
      cases henc : cp.encode word with
      | error e => exact ih bm h
      | ok ew =>
        dsimp only
        by_cases hrange : 2 ≤ ew.length ∧ ew.length ≤ 17
        · rw [if_pos hrange]
          by_cases hids : natSortAsc (List.dedup
              (filenames.filterMap (fun n => fo.lookup (strUpper n)))) = []
          · rw [if_pos hids]
            exact ih bm h
          · rw [if_neg hids]
            apply ih
            apply bucketInsert_inv h
            rw [compute_word_hash_shiftRight ew]
            omega
        · rw [if_neg hrange]
          exact ih bm h

theorem emitEntries_ne_incons (bucket wl : Nat) :
    ∀ (entries : List (Str × (List Byte × List Nat))),
    (∀ e ∈ entries, e.2.1.length = wl) →
    ∀ b', emitEntries bucket wl entries ≠ .error (.inconsistentWordLength b') := by
  intro entries
  induction entries with
  | nil => intro h b'; simp [emitEntries]
  | cons e rest ih =>
    intro h b'
    obtain ⟨word, ew, ids⟩ := e
    simp only [emitEntries]
    have hlen : ew.length = wl := h (word, ew, ids) (by simp)
    rw [if_neg (by omega : ¬ ew.length ≠ wl)]
    by_cases hids : 255 < ids.length
    · rw [if_pos hids]
      simp
    · rw [if_neg hids]
      cases hrec : emitEntries bucket wl rest with
      | error err =>
        have := ih (fun x hx => h x (List.mem_cons_of_mem _ hx)) b'
        rw [hrec] at this
        exact this
      | ok bs => simp

theorem emitBucketsGo_ne_incons (bm : BucketMap)
    (hinv : ∀ p ∈ bm, ∀ e ∈ p.2, e.2.1.length = (p.1 >>> 4) + 2) :
    ∀ (bs : List Nat) (lows : List Byte) (offs : List Nat) (b' : Nat),
    emitBucketsGo bm bs lows offs ≠ .error (.inconsistentWordLength b') := by
  intro bs
  induction bs with
  | nil => intro lows offs b'; simp [emitBucketsGo]
  | cons b rest ih =>
    intro lows offs b'
    simp only [emitBucketsGo]
    cases hlk : bm.lookup b with
    | none =>
      dsimp only
      exact ih _ _ b'
    | some entries =>
      dsimp only
      cases hse : sortEntries entries with
      | nil =>
        dsimp only
        exact ih _ _ b'
      | cons e0 es =>
        dsimp only
        have hperm : List.Perm (sortEntries entries) entries := List.perm_insertionSort _ entries
        have hmem : (b, entries) ∈ bm := lookup_mem hlk
        have hlen : ∀ e ∈ e0 :: es, e.2.1.length = (b >>> 4) + 2 := by
          intro e he
          have hmm : e ∈ entries := hperm.mem_iff.1 (hse ▸ he)
          exact hinv (b, entries) hmem e hmm
        have h0 : e0.2.1.length = (b >>> 4) + 2 := hlen e0 (by simp)
        cases hee : emitEntries b e0.2.1.length (e0 :: es) with
        | error err =>
          dsimp only
          have hne := emitEntries_ne_incons b e0.2.1.length (e0 :: es)
            (fun e he => (hlen e he).trans h0.symm) b'
          rw [hee] at hne
          intro hc
          injection hc with hc2
          exact hne (by rw [hc2])
        | ok body =>
          dsimp only
          exact ih _ _ b'

/-- Claim C7: `compute_word_hash` is exactly `((L − 2) << 4) | XOR(byte & 0x0F)`;
for words of encoded length 2..17 the bucket id determines the length, and
`build_dict_index` can never fail with its "Inconsistent word length" error. -/
theorem C7_word_hash_buckets :
    (∀ w : List Byte,
      compute_word_hash w =
        ((w.length - 2) <<< 4) ||| ((w.foldl (fun c b => c ^^^ (b &&& 15)) 0) &&& 15)) ∧
    (∀ w₁ w₂ : List Byte, 2 ≤ w₁.length → w₁.length ≤ 17 → 2 ≤ w₂.length → w₂.length ≤ 17 →
      compute_word_hash w₁ = compute_word_hash w₂ → w₁.length = w₂.length) ∧
    (∀ (wi : List (Str × List Str)) (fo : List (Str × Nat)) (cp : CodepageInfo) (b : Nat),
      build_dict_index wi fo cp ≠ .error (.inconsistentWordLength b)) := by
  refine ⟨fun w => rfl, ?_, ?_⟩
  · intro w₁ w₂ h1 h1' h2 h2' heq
    have e1 := compute_word_hash_shiftRight w₁
    have e2 := compute_word_hash_shiftRight w₂
    rw [heq] at e1
    omega
  · intro wi fo cp b
    unfold build_dict_index
    by_cases hbm : buildBuckets cp fo wi [] = []
    · rw [if_pos hbm]
      simp
    · rw [if_neg hbm]
      have hinv : ∀ p ∈ buildBuckets cp fo wi [], ∀ e ∈ p.2, e.2.1.length = (p.1 >>> 4) + 2 :=
        buildBuckets_inv cp fo wi [] (by simp)
      cases hgo : emitBucketsGo (buildBuckets cp fo wi []) (List.range 256) [] [] with
      | error err =>
        dsimp only
        have hne := emitBucketsGo_ne_incons _ hinv (List.range 256) [] [] b
        rw [hgo] at hne
        intro hc
        injection hc with hc2
        exact hne (by rw [hc2])
      | ok pr =>
        obtain ⟨lows, offs⟩ := pr
        dsimp only
        by_cases hlarge : 65536 ≤ lows.length
        · rw [if_pos hlarge]
          simp
        · rw [if_neg hlarge]
          simp

/-- Claim C7 witness: two concrete same-bucket words have equal length, and a
concrete dictionary build does not raise the inconsistent-length error. -/
theorem C7_word_hash_buckets_witness :
    ((([104, 105] : List Byte).length = ([105, 104] : List Byte).length) ∧
      build_dict_index [(str "hi", [str "INDEX.AMA"])] [(str "INDEX.AMA", 26)] cpLatin1 ≠
        .error (.inconsistentWordLength 1)) ∧
    compute_word_hash [104, 105] =
      ((([104, 105] : List Byte).length - 2) <<< 4) |||
        ((([104, 105] : List Byte).foldl (fun c b => c ^^^ (b &&& 15)) 0) &&& 15) :=
  ⟨⟨C7_word_hash_buckets.2.1 [104, 105] [105, 104] (by decide) (by decide) (by decide)
      (by decide) (by decide),
    C7_word_hash_buckets.2.2 [(str "hi", [str "INDEX.AMA"])] [(str "INDEX.AMA", 26)] cpLatin1 1⟩,
   C7_word_hash_buckets.1 [104, 105]⟩

/-- Claim C5 (code side): the first statement of `split_article` encodes the
whole joined article, so an unencodable character surfaces as the bare encode
error — not as the wrapped per-line error with article name and line number;
concretely, a latin-1 article containing `€` yields the bare
`UnicodeEncodeError`-shaped error, which is a different error from
`UnencodableCharacter{article, line_no}`. -/
theorem C5_bare_unicode_error :
    (∀ (fuel : Nat) (filename : Str) (lines : List Str) (cp : CodepageInfo) (e : MamblerError),
      cp.encode (joinedContent lines) = .error e →
      split_article fuel filename lines cp = some (.error e)) ∧
    split_article 1000 (str "INDEX.AMA") [str "a€"] cpLatin1 =
      some (.error (.unicodeEncodeErr (str "latin1") 1)) ∧
    (∀ (article : Str) (lineNo : Nat) (enc : Str) (pos : Nat),
      (MamblerError.unicodeEncodeErr enc pos) ≠ .articleUnencodable article lineNo) := by
  refine ⟨?_, by rfl, ?_⟩
  · intro fuel filename lines cp e h
    unfold split_article _encoded_size
    simp only [h]
  · intro article lineNo enc pos hc
    cases hc

/-- Claim C5 witness: the general bare-error statement applied at the concrete
failing article. -/
theorem C5_bare_unicode_error_witness :
    split_article 7 (str "X.AMA") [str "€"] cpLatin1 =
      some (.error (.unicodeEncodeErr (str "latin1") 0)) :=
  C5_bare_unicode_error.1 7 (str "X.AMA") [str "€"] cpLatin1
    (.unicodeEncodeErr (str "latin1") 0) (by rfl)

theorem pyRepr_ne_nil (n : Nat) : pyRepr n ≠ [] := by
  unfold pyRepr
  by_cases h0 : n = 0
  · simp [h0]
  · rw [if_neg h0]
    cases n with
    | zero => exact absurd rfl h0
    | succ m =>
      show (decDigitsAux (m + 1) (m + 1)).map decChar ≠ []
      rw [decDigitsAux]
      simp

theorem decDigitsAux_getLast (fuel n : Nat) (hf : 0 < fuel) (hn : 0 < n) :
    (decDigitsAux fuel n).getLast? = some (n % 10) := by
  cases fuel with
  | zero => omega
  | succ f =>
    cases n with
    | zero => omega
    | succ m =>
      rw [decDigitsAux]
      exact List.getLast?_concat _

theorem pyRepr_getLast_digit (n : Nat) :
    ∃ d, d < 10 ∧ (pyRepr n).getLast? = some (decChar d) := by
  unfold pyRepr
  by_cases h0 : n = 0
  · exact ⟨0, by omega, by subst h0; decide⟩
  · rw [if_neg h0]
    refine ⟨n % 10, Nat.mod_lt n (by omega), ?_⟩
    rw [List.getLast?_map, decDigitsAux_getLast n n (by omega) (by omega)]
    rfl

theorem fmt02_getLast_digit (n : Nat) :
    ∃ d, d < 10 ∧ (fmt02 n).getLast? = some (decChar d) := by
  obtain ⟨d, hd, hlast⟩ := pyRepr_getLast_digit n
  refine ⟨d, hd, ?_⟩
  unfold fmt02
  by_cases hlen : (pyRepr n).length < 2
  · rw [if_pos hlen]
    show (['0'] ++ pyRepr n).getLast? = some (decChar d)
    rw [List.getLast?_append, hlast]
    rfl
  · rw [if_neg hlen]
    exact hlast

theorem fmt02_ne_nil (n : Nat) : fmt02 n ≠ [] := by
  obtain ⟨d, _, hlast⟩ := fmt02_getLast_digit n
  intro hc
  rw [hc] at hlast
  simp at hlast

theorem assignLoop_shape (base : Str) (existing : List Str) :
    ∀ (fuel counter : Nat) (name nm : Str),
    assignLoop base existing fuel counter name = some nm →
    nm = name ∨ ∃ k c, nm = base.take k ++ fmt02 c ++ str ".AMA" := by
  intro fuel
  induction fuel with
  | zero => intro counter name nm h; simp [assignLoop] at h
  | succ f ih =>
    intro counter name nm h
    simp only [assignLoop] at h
    by_cases hmem : name ∈ existing
    · rw [if_pos hmem] at h
      rcases ih (counter + 1) _ nm h with h1 | h2
      · right
        exact ⟨max 1 (8 - (fmt02 counter).length), counter, h1⟩
      · right
        exact h2
    · rw [if_neg hmem] at h
      left
      exact (Option.some.injEq _ _ ▸ h).symm

theorem append_AMA_cancel {a b : Str} (h : a ++ str ".AMA" = b ++ str ".AMA") : a = b :=
  List.append_cancel_right h

theorem assign_not_index (fuel : Nat) (stem : Str) (existing : List Str) (nm : Str)
    (hstem : sanitizeStem stem ≠ str "INDEX")
    (h : assign_ama_name fuel stem existing = some nm) : nm ≠ str "INDEX.AMA" := by
  unfold assign_ama_name at h
  rcases assignLoop_shape _ _ fuel 1 _ nm h with h1 | ⟨k, c, h2⟩
  · intro hc
    rw [h1] at hc
    have hsplit : str "INDEX.AMA" = str "INDEX" ++ str ".AMA" := by rfl
    rw [hsplit] at hc
    exact hstem (append_AMA_cancel hc)
  · intro hc
    rw [h2] at hc
    have hsplit : str "INDEX.AMA" = str "INDEX" ++ str ".AMA" := by rfl
    rw [hsplit] at hc
    have heq : (sanitizeStem stem).take k ++ fmt02 c = str "INDEX" :=
      List.append_cancel_right hc
    obtain ⟨d, hd, hlast⟩ := fmt02_getLast_digit c
    have hl : ((sanitizeStem stem).take k ++ fmt02 c).getLast? = some (decChar d) := by
      rw [List.getLast?_append, hlast]
      rfl
    rw [heq] at hl
    have hx : decChar d = 'X' := by
      have : (str "INDEX").getLast? = some 'X' := by rfl
      rw [this] at hl
      exact (Option.some.injEq _ _ ▸ hl).symm
    interval_cases d <;> simp [decChar] at hx

theorem collectLoop_no_index (fs : FileSys) (root : Str)
    (hid : ∀ p, fs.resolvePath (fs.resolvePath p) = fs.resolvePath p)
    (hroot : fs.resolvePath root ≠ root) :
    ∀ (fuel : Nat) (queue : List Str) (visited : List (Str × Article)) (assigned : List Str)
      (arts : List (Str × Article)),
    (∀ pa ∈ visited, sanitizeStem (pathStem pa.1) ≠ str "INDEX" →
      pa.2.ama_name ≠ str "INDEX.AMA") →
    collectLoop fs root fuel queue visited assigned = some (.ok arts) →
    ∀ pa ∈ arts, sanitizeStem (pathStem pa.1) ≠ str "INDEX" →
      pa.2.ama_name ≠ str "INDEX.AMA" := by
  intro fuel
  induction fuel with
  | zero => intro queue visited assigned arts hv h; simp [collectLoop] at h
  | succ f ih =>
    intro queue visited assigned arts hv h
    cases queue with
    | nil =>
      simp [collectLoop] at h
      rw [← h]
      exact hv
    | cons cur0 rest =>
      simp only [collectLoop] at h
      by_cases hvis : (visited.lookup (fs.resolvePath cur0)).isSome
      · rw [if_pos hvis] at h
        exact ih rest visited assigned arts hv h
      · rw [if_neg hvis] at h
        by_cases hex : fs.pathExists (fs.resolvePath cur0) = false
        · rw [if_pos hex] at h
          simp at h
        · rw [if_neg hex] at h
          have hne : fs.resolvePath cur0 ≠ root := by
            intro hc
            apply hroot
            have h1 : fs.resolvePath root = fs.resolvePath (fs.resolvePath cur0) := by rw [hc]
            rw [h1, hid cur0, hc]
          rw [if_neg hne] at h
          cases hassign : assign_ama_name (f + 1) (pathStem (fs.resolvePath cur0)) assigned with
          | none => simp only [hassign] at h; exact absurd h (by simp)
          | some nm =>
            simp only [hassign] at h
            apply ih _ _ _ _ _ h
            intro pa hpa hps
            rcases List.mem_append.1 hpa with h1 | h2
            · exact hv pa h1 hps
            · simp at h2
              rw [h2]
              rw [h2] at hps
              exact assign_not_index _ _ _ _ hps hassign

/-- Claim C10 counterexample: a root given through an unresolved alias of its
real path whose stem is `index` — `collect_articles` still assigns the name
INDEX.AMA (through `assign_ama_name`, not through the root branch), and
`assemble_files` succeeds rather than raising the KeyError. -/
theorem C10_counterexample :
    fsAliasedIndexRoot.resolvePath (str "/r/./index.md") ≠ str "/r/./index.md" ∧
    collect_articles fsAliasedIndexRoot 10 (str "/r/./index.md") =
      some (.ok [(str "/r/index.md", ⟨str "/r/index.md", str "INDEX.AMA"⟩)]) ∧
    assemble_files [(str "INDEX.AMA", [str "hi"])] none cpLatin1 =
      .ok [(str "INDEX.AMA", [104, 105, 10])] :=
  ⟨by decide, by rfl, by rfl⟩

/-- Claim C10 (amended): when the root argument differs from its own resolved
path (resolution being idempotent), the root branch of `collect_articles`
never fires; provided no article stem sanitizes to `INDEX`, no article is
named INDEX.AMA, and `assemble_files` on contents without an INDEX.AMA key
fails with the KeyError (not one of the specified error kinds). -/
theorem C10_unresolved_root :
    (∀ (fs : FileSys) (root : Str) (fuel : Nat) (arts : List (Str × Article)),
      (∀ p, fs.resolvePath (fs.resolvePath p) = fs.resolvePath p) →
      fs.resolvePath root ≠ root →
      collect_articles fs fuel root = some (.ok arts) →
      ∀ pa ∈ arts, sanitizeStem (pathStem pa.1) ≠ str "INDEX" →
        pa.2.ama_name ≠ str "INDEX.AMA") ∧
    (∀ (contents : List (Str × List Str)) (title : Option Str) (cp : CodepageInfo),
      contents.lookup (str "INDEX.AMA") = none →
      assemble_files contents title cp = .error (.keyErr (str "INDEX.AMA"))) := by
  constructor
  · intro fs root fuel arts hid hroot h
    exact collectLoop_no_index fs root hid hroot fuel [root] [] [] arts (by simp) h
  · intro contents title cp h
    unfold assemble_files
    simp only [h]

/-- Claim C10 witness: the amended statement applied at a concrete aliased
root with stem `a`, and at concrete contents without INDEX.AMA. -/
theorem C10_unresolved_root_witness :
    ((str "/r/a.md", (⟨str "/r/a.md", str "A.AMA"⟩ : Article)).2.ama_name ≠
      str "INDEX.AMA") ∧
    assemble_files [(str "B.AMA", [str "hi"])] none cpLatin1 =
      .error (.keyErr (str "INDEX.AMA")) :=
  ⟨C10_unresolved_root.1 fsAliasedPlainRoot (str "/r/./a.md") 10
      [(str "/r/a.md", ⟨str "/r/a.md", str "A.AMA"⟩)]
      (by
        intro p
        show fsAliasedPlainRoot.resolvePath _ = _
        unfold fsAliasedPlainRoot
        dsimp only
        by_cases hp : p = str "/r/./a.md"
        · rw [hp]; decide
        · simp only [if_neg hp])
      (by decide) (by rfl)
      (str "/r/a.md", ⟨str "/r/a.md", str "A.AMA"⟩) (by simp) (by decide),
   C10_unresolved_root.2 [(str "B.AMA", [str "hi"])] none cpLatin1 (by rfl)⟩

theorem latin1_encodeChar_lt (c : Char) (h : c.toNat < 256) :
    cpLatin1.encodeChar c = some c.toNat := by
  show (if c.toNat < 256 then some c.toNat else none) = some c.toNat
  rw [if_pos h]

theorem latin1_encodeFrom (s : Str) (h : ∀ c ∈ s, c.toNat < 256) :
    ∀ i, encodeFrom cpLatin1 i s = .ok (s.map Char.toNat) := by
  induction s with
  | nil => intro i; rfl
  | cons c cs ih =>
    intro i
    have hc : cpLatin1.encodeChar c = some c.toNat := latin1_encodeChar_lt c (h c (by simp))
    simp only [encodeFrom, hc]
    rw [ih (fun x hx => h x (by simp [hx])) (i + 1)]
    rfl

theorem latin1_encode (s : Str) (h : ∀ c ∈ s, c.toNat < 256) :
    cpLatin1.encode s = .ok (s.map Char.toNat) :=
  latin1_encodeFrom s h 0

theorem rstripNl_append_ne (xs : Str) (c : Char) (h : c ≠ nl) :
    rstripNl (xs ++ [c]) = xs ++ [c] := by
  unfold rstripNl
  rw [List.reverse_append]
  simp only [List.reverse_cons, List.reverse_nil, List.nil_append, List.singleton_append]
  rw [List.dropWhile_cons]
  simp [h]

theorem intercalate_two (l1 l2 : Str) : List.intercalate [nl] [l1, l2] = l1 ++ [nl] ++ l2 := by
  simp [List.intercalate, List.intersperse]

/-- The encoded blank-plus-placeholder-trailer overhead is 27 bytes under the
modelled latin-1 page. -/
theorem latin1_overhead : continueOverhead cpLatin1 = .ok 27 := by rfl

theorem encoded_size_ok (cp : CodepageInfo) (lines : List Str) (bs : List Byte)
    (h : cp.encode (joinedContent lines) = .ok bs) :
    _encoded_size cp lines = .ok bs.length := by
  unfold _encoded_size
  rw [h]

theorem encodeLinesGo_cons (cp : CodepageInfo) (filename line : Str) (idx : Nat)
    (rest : List Str) (bs : List Byte) (ls : List EncLine)
    (h1 : _encode_line cp line = .ok bs) (h2 : ¬ AMA_MAX_BYTES < bs.length)
    (h3 : encodeLinesGo cp filename (idx + 1) rest = .ok ls) :
    encodeLinesGo cp filename idx (line :: rest) = .ok ((line, bs) :: ls) := by
  simp only [encodeLinesGo, h1, h3]
  rw [if_neg h2]

theorem split_article_none (fuel : Nat) (filename : Str) (lines : List Str)
    (cp : CodepageInfo) (sz : Nat) (encLines : List EncLine) (ov : Nat)
    (h1 : _encoded_size cp lines = .ok sz) (h2 : ¬ sz ≤ AMA_MAX_BYTES)
    (h3 : encodeLinesGo cp filename 0 lines = .ok encLines)
    (h4 : continueOverhead cp = .ok ov)
    (h5 : splitLoop filename ov fuel encLines [] 0 [] = none) :
    split_article fuel filename lines cp = none := by
  unfold split_article
  rw [h1]
  dsimp only
  rw [if_neg h2, h3]
  dsimp only
  rw [h4]
  dsimp only
  rw [h5]

theorem splitLoop_poison (nm : Str) (a b : EncLine)
    (ha : a.2.length = 65535) (hb : b.2.length = 29) :
    ∀ fuel : Nat,
      (∀ segs, splitLoop nm 27 fuel [a, b] [] 0 segs = none) ∧
      (∀ segs, splitLoop nm 27 fuel [b] [a] 65535 segs = none) := by
  intro fuel
  induction fuel with
  | zero => exact ⟨fun _ => rfl, fun _ => rfl⟩
  | succ f ih =>
    constructor
    · intro segs
      simp only [splitLoop]
      rw [if_pos (by rw [ha]; norm_num [AMA_MAX_BYTES])]
      have hsize : 0 + a.2.length = 65535 := by rw [ha]
      rw [hsize]
      exact ih.2 segs
    · intro segs
      simp only [splitLoop]
      rw [if_neg (by rw [hb]; norm_num [AMA_MAX_BYTES])]
      rw [if_neg (by simp : ¬ ([a] : List EncLine) = [])]
      have hpop : popLoop 27 [a] 65535 [b] = ([], 0, [a, b]) := by
        simp only [popLoop]
        rw [if_pos (by norm_num [AMA_MAX_BYTES])]
        rw [ha]
      rw [hpop]
      exact ih.1 (segs ++ [List.reverse []])

/-- Claim C2 (refuted): `split_article` loops forever on a two-line article
whose first line encodes to exactly 65,535 bytes — every line encodes, every
line is within the limit, yet no amount of fuel completes the loop (the
pop-back empties the segment, reinserts the line, and the loop repeats). -/
theorem replicate_a_encodeLine (n : Nat) :
    _encode_line cpLatin1 (List.replicate n 'a') =
      .ok (List.replicate n (97 : Nat) ++ [10]) := by
  unfold _encode_line
  rw [latin1_encode _ (by
    intro c hc
    simp only [List.mem_append, List.mem_replicate, List.mem_singleton] at hc
    rcases hc with h1 | h2
    · rw [h1.2]; decide
    · rw [h2]; decide)]
  rw [List.map_append, List.map_replicate]
  rw [show Char.toNat 'a' = 97 from rfl]
  rw [show (List.map Char.toNat [nl] : List Nat) = [10] from rfl]

theorem joinedContent_two_a (m n : Nat) (hn : n ≠ 0) :
    joinedContent [List.replicate m 'a', List.replicate n 'a'] =
      ((List.replicate m 'a' ++ [nl]) ++ List.replicate n 'a') ++ [nl] := by
  obtain ⟨k, rfl⟩ : ∃ k, n = k + 1 := ⟨n - 1, by omega⟩
  unfold joinedContent
  rw [intercalate_two]
  rw [List.replicate_succ' k, ← List.append_assoc]
  rw [rstripNl_append_ne _ 'a' (by decide)]

theorem C2_split_article_nonterminating (fuel : Nat) :
    split_article fuel (str "A.AMA")
      [List.replicate 65534 'a', List.replicate 28 'a'] cpLatin1 = none := by
  have hall : ∀ c ∈ ((List.replicate 65534 'a' ++ [nl]) ++ List.replicate 28 'a') ++ [nl],
      c.toNat < 256 := by
    intro c hc
    simp only [List.mem_append, List.mem_replicate, List.mem_singleton] at hc
    rcases hc with ((h1 | h2) | h3) | h4
    · rw [h1.2]; decide
    · rw [h2]; decide
    · rw [h3.2]; decide
    · rw [h4]; decide
  have hcontent := joinedContent_two_a 65534 28 (by norm_num)
  have henc := latin1_encode _ hall
  have hsize : _encoded_size cpLatin1 [List.replicate 65534 'a', List.replicate 28 'a'] =
      .ok 65564 := by
    have h0 := encoded_size_ok cpLatin1 [List.replicate 65534 'a', List.replicate 28 'a']
      ((((List.replicate 65534 'a' ++ [nl]) ++ List.replicate 28 'a') ++ [nl]).map Char.toNat)
      (by rw [hcontent]; exact henc)
    rw [h0, List.length_map]
    rw [List.length_append, List.length_append, List.length_append]
    rw [List.length_replicate, List.length_replicate]
    norm_num
  have hels : encodeLinesGo cpLatin1 (str "A.AMA") 0
      [List.replicate 65534 'a', List.replicate 28 'a'] =
      .ok [(List.replicate 65534 'a', List.replicate 65534 (97 : Nat) ++ [10]),
           (List.replicate 28 'a', List.replicate 28 (97 : Nat) ++ [10])] := by
    apply encodeLinesGo_cons _ _ _ _ _ _ _ (replicate_a_encodeLine 65534)
      (by rw [List.length_append, List.length_replicate]; norm_num [AMA_MAX_BYTES])
    apply encodeLinesGo_cons _ _ _ _ _ _ _ (replicate_a_encodeLine 28)
      (by rw [List.length_append, List.length_replicate]; norm_num [AMA_MAX_BYTES])
    rfl
  have hloop := (splitLoop_poison (str "A.AMA")
    (List.replicate 65534 'a', List.replicate 65534 (97 : Nat) ++ [10])
    (List.replicate 28 'a', List.replicate 28 (97 : Nat) ++ [10])
    (by rw [List.length_append, List.length_replicate]; norm_num)
    (by rw [List.length_append, List.length_replicate]; norm_num) fuel).1 []
  exact split_article_none fuel _ _ _ 65564 _ 27 hsize (by norm_num [AMA_MAX_BYTES])
    hels latin1_overhead hloop

theorem lookup_append_of_none {κ β : Type} [BEq κ] {a : List (κ × β)}
    (b : List (κ × β)) (k : κ) (h : a.lookup k = none) :
    (a ++ b).lookup k = b.lookup k := by
  induction a with
  | nil => simp
  | cons p rest ih =>
    rw [List.cons_append]
    rw [List.lookup_cons] at h ⊢
    cases hbeq : (k == p.1) with
    | true =>
      simp only [hbeq] at h
      exact Option.noConfusion h
    | false =>
      simp only [hbeq] at h ⊢
      exact ih h

theorem lookup_append_left {κ β : Type} [BEq κ] {a : List (κ × β)} {v : β}
    (b : List (κ × β)) (k : κ) (h : a.lookup k = some v) :
    (a ++ b).lookup k = some v := by
  induction a with
  | nil => simp at h
  | cons p rest ih =>
    rw [List.cons_append]
    rw [List.lookup_cons] at h ⊢
    cases hbeq : (k == p.1) with
    | true =>
      simp only [hbeq] at h ⊢
      exact h
    | false =>
      simp only [hbeq] at h ⊢
      exact ih h

theorem assocSet_of_none {κ β : Type} [BEq κ] {m : List (κ × β)} {k : κ} (v : β)
    (h : m.lookup k = none) : assocSet m k v = m ++ [(k, v)] := by
  unfold assocSet
  rw [h]
  rfl

theorem packEntries_offsets (extra : List (Str × List Byte)) :
    ∀ (files : List (Str × List Byte)) (o : Nat) (m : List (Str × Nat))
      (entries : List (Str × Nat × Nat × Nat)),
    (files.map (fun f => strUpper f.1)).Nodup →
    (∀ f ∈ files, m.lookup (strUpper f.1) = none) →
    packEntriesGo (files ++ extra) o = .ok entries →
    ∀ nm off, (computeOffsetsGo files o m).lookup nm = some off →
      m.lookup nm = some off ∨ ∃ len chk, (nm, off, len, chk) ∈ entries := by
  intro files
  induction files with
  | nil =>
    intro o m entries _ _ _ nm off hlk
    exact Or.inl hlk
  | cons f rest ih =>
    intro o m entries hnd hdisj hpack nm off hlk
    obtain ⟨name, data⟩ := f
    simp only [List.cons_append, packEntriesGo] at hpack
    by_cases hlen : 12 < (strUpper name).length
    · rw [if_pos hlen] at hpack
      exact absurd hpack (by simp)
    · rw [if_neg hlen] at hpack
      split at hpack
      · exact absurd hpack (by simp)
      · rename_i es hrec
        simp only [Except.ok.injEq] at hpack
        have hm0 : m.lookup (strUpper name) = none := hdisj (name, data) (by simp)
        simp only [computeOffsetsGo] at hlk
        rw [assocSet_of_none o hm0] at hlk
        have hnd' : (rest.map (fun f => strUpper f.1)).Nodup := by
          simp only [List.map_cons, List.nodup_cons] at hnd
          exact hnd.2
        have hdisj' : ∀ f ∈ rest, (m ++ [(strUpper name, o)]).lookup (strUpper f.1) = none := by
          intro g hg
          have h1 : m.lookup (strUpper g.1) = none := hdisj g (by simp [hg])
          rw [lookup_append_of_none _ _ h1]
          have hne : strUpper g.1 ≠ strUpper name := by
            simp only [List.map_cons, List.nodup_cons] at hnd
            intro hc
            exact hnd.1 (hc ▸ List.mem_map.2 ⟨g, hg, rfl⟩)
          rw [List.lookup_cons]
          rw [show ((strUpper g.1 == strUpper name)) = false from beq_eq_false_iff_ne.2 hne]
          rfl
        rcases ih (o + data.length) (m ++ [(strUpper name, o)]) es hnd' hdisj' hrec nm off hlk
          with h1 | ⟨len, chk, h2⟩
        · rcases hm : m.lookup nm with _ | v
          · rw [lookup_append_of_none _ _ hm] at h1
            rw [List.lookup_cons] at h1
            cases hbeq : (nm == strUpper name) with
            | true =>
              rw [hbeq] at h1
              simp at h1
              right
              refine ⟨data.length, bsd_checksum data, ?_⟩
              rw [← hpack]
              have : nm = strUpper name := eq_of_beq hbeq
              simp [this, ← h1]
            | false => rw [hbeq] at h1; simp at h1
          · left
            rw [lookup_append_left _ _ hm] at h1
            exact h1
        · right
          refine ⟨len, chk, ?_⟩
          rw [← hpack]
          exact List.mem_cons_of_mem _ h2

theorem bucketInsert_mem {bm : BucketMap} {bucket : Nat} {word : Str}
    {v : List Byte × List Nat} {p : Nat × List (Str × (List Byte × List Nat))}
    (hp : p ∈ bucketInsert bm bucket word v)
    {e : Str × (List Byte × List Nat)} (he : e ∈ p.2) :
    e = (word, v) ∨ ∃ q ∈ bm, e ∈ q.2 := by
  unfold bucketInsert at hp
  by_cases hs : (bm.lookup bucket).isSome
  · rw [if_pos hs] at hp
    rcases List.mem_map.1 hp with ⟨q, hq, hqe⟩
    by_cases hqb : q.1 = bucket
    · rw [if_pos hqb] at hqe
      rw [← hqe] at he
      rcases assocSet_mem he with h1 | h2
      · exact Or.inl h1
      · exact Or.inr ⟨q, hq, h2⟩
    · rw [if_neg hqb] at hqe
      rw [← hqe] at he
      exact Or.inr ⟨q, hq, he⟩
  · rw [if_neg hs] at hp
    rcases List.mem_append.1 hp with h1 | h2
    · exact Or.inr ⟨p, h1, he⟩
    · simp at h2
      rw [h2] at he
      simp at he
      exact Or.inl he

theorem buildBuckets_ids (cp : CodepageInfo) (offs : List (Str × Nat)) :
    ∀ (wi : List (Str × List Str)) (bm : BucketMap),
    (∀ p ∈ bm, ∀ e ∈ p.2, ∀ id ∈ e.2.2, ∃ nm, offs.lookup nm = some id) →
    ∀ p ∈ buildBuckets cp offs wi bm, ∀ e ∈ p.2, ∀ id ∈ e.2.2,
      ∃ nm, offs.lookup nm = some id := by
  intro wi
  induction wi with
  | nil => intro bm h; exact h
  | cons entry rest ih =>
    intro bm h
    obtain ⟨word, filenames⟩ := entry
    simp only [buildBuckets]
    cases henc : cp.encode word with
    | error e => exact ih bm h
    | ok ew =>
      dsimp only
      by_cases hrange : 2 ≤ ew.length ∧ ew.length ≤ 17
      · rw [if_pos hrange]
        by_cases hids : natSortAsc (List.dedup
            (filenames.filterMap (fun n => offs.lookup (strUpper n)))) = []
        · rw [if_pos hids]
          exact ih bm h
        · rw [if_neg hids]
          apply ih
          intro p hp e he id hid
          rcases bucketInsert_mem hp he with hnew | ⟨q, hq, hold⟩
          · rw [hnew] at hid
            have hid2 : id ∈ List.dedup
                (filenames.filterMap (fun n => offs.lookup (strUpper n))) := by
              have hperm : List.Perm (natSortAsc (List.dedup
                  (filenames.filterMap (fun n => offs.lookup (strUpper n)))))
                  (List.dedup (filenames.filterMap (fun n => offs.lookup (strUpper n)))) :=
                List.perm_insertionSort _ _
              exact hperm.mem_iff.1 hid
            rw [List.mem_dedup] at hid2
            rcases List.mem_filterMap.1 hid2 with ⟨n, _, hn2⟩
            exact ⟨strUpper n, hn2⟩
          · exact h q hq e hold id hid
      · rw [if_neg hrange]
        exact ih bm h

/-- Claim C8: when DICT.IDX is appended as the final file of the archive,
every 32-bit file-id stored in the dictionary structure built from the
second-pass offsets (`compute_file_offsets base true`) is exactly the payload
offset `pack_amb` writes into the directory for a file of the same archive. -/
theorem C8_dict_ids_are_archive_offsets :
    ∀ (base : List (Str × List Byte)) (d : List Byte) (wi : List (Str × List Str))
      (cp : CodepageInfo) (entries : List (Str × Nat × Nat × Nat)),
    (base.map (fun f => strUpper f.1)).Nodup →
    packEntries (base ++ [(str "DICT.IDX", d)]) = .ok entries →
    ∀ p ∈ buildBuckets cp (compute_file_offsets base true) wi [],
      ∀ e ∈ p.2, ∀ id ∈ e.2.2,
      ∃ nm len chk, (nm, id, len, chk) ∈ entries := by
  intro base d wi cp entries hnd hpack p hp e he id hid
  obtain ⟨nm, hnm⟩ := buildBuckets_ids cp (compute_file_offsets base true) wi []
    (by simp) p hp e he id hid
  have hpack' : packEntriesGo (base ++ [(str "DICT.IDX", d)])
      (6 + 20 * (base.length + 1)) = .ok entries := by
    unfold packEntries at hpack
    rw [show (base ++ [(str "DICT.IDX", d)]).length = base.length + 1 by simp] at hpack
    exact hpack
  have hco : compute_file_offsets base true =
      computeOffsetsGo base (6 + 20 * (base.length + 1)) [] := rfl
  rw [hco] at hnm
  rcases packEntries_offsets [(str "DICT.IDX", d)] base (6 + 20 * (base.length + 1)) []
      entries hnd (by simp) hpack' nm id hnm with h1 | h2
  · simp at h1
  · exact ⟨nm, h2⟩

/-- Claim C8 witness: in a one-article archive with DICT.IDX appended, the
single file-id stored for the word `hi` (46) is the INDEX.AMA directory
offset. -/
theorem C8_dict_ids_are_archive_offsets_witness :
    ∃ nm len chk, (nm, 46, len, chk) ∈
      [(str "INDEX.AMA", 46, 3, 16388), (str "DICT.IDX", 49, 1, 0)] :=
  C8_dict_ids_are_archive_offsets [(str "INDEX.AMA", [1, 2, 3])] [0]
    [(str "hi", [str "INDEX.AMA"])] cpLatin1
    [(str "INDEX.AMA", 46, 3, 16388), (str "DICT.IDX", 49, 1, 0)]
    (by decide) (by rfl)
    (1, [(str "hi", ([104, 105], [46]))]) (by decide)
    (str "hi", ([104, 105], [46])) (by decide) 46 (by decide)

theorem all256_append {s t : Str} (hs : ∀ c ∈ s, c.toNat < 256)
    (ht : ∀ c ∈ t, c.toNat < 256) : ∀ c ∈ s ++ t, c.toNat < 256 := by
  intro c hc
  rcases List.mem_append.1 hc with h | h
  · exact hs c h
  · exact ht c h

theorem all256_replicate (n : Nat) {c0 : Char} (h : c0.toNat < 256) :
    ∀ c ∈ List.replicate n c0, c.toNat < 256 := by
  intro c hc
  rw [List.eq_of_mem_replicate hc]
  exact h

theorem latin1_encoded_size_eq (lines : List Str) (content : Str)
    (hc : joinedContent lines = content) (h : ∀ c ∈ content, c.toNat < 256) :
    _encoded_size cpLatin1 lines = .ok content.length := by
  have h0 := encoded_size_ok cpLatin1 lines (content.map Char.toNat)
    (by rw [hc]; exact latin1_encode content h)
  rw [h0, List.length_map]

theorem intercalate_cons_cons (a b : Str) (t : List Str) :
    List.intercalate [nl] (a :: b :: t) = a ++ [nl] ++ List.intercalate [nl] (b :: t) := by
  simp [List.intercalate, List.intersperse]

theorem intercalate_one (a : Str) : List.intercalate [nl] [a] = a := by
  simp [List.intercalate, List.intersperse]

/-- A continuation trailer written with its final `t` split off, so that the
trailing-newline strip can be seen not to apply. -/
theorem trailer_decomp (t : Str) :
    trailerLine t = (str "%l" ++ t ++ [':'] ++ LINK_CONTINUE_LABEL ++ ['%']) ++ ['t'] := by
  unfold trailerLine LINK_CONTINUE_LABEL
  simp [str, List.append_assoc]

theorem rstripNl_trailer (xs t : Str) :
    rstripNl (xs ++ trailerLine t) = xs ++ trailerLine t := by
  rw [trailer_decomp, ← List.append_assoc]
  rw [rstripNl_append_ne _ 't' (by decide)]

/-- The success path of `split_article`, phrased symbolically so that it can
be instantiated at large concrete inputs without deep kernel reduction. -/
theorem split_article_run (fuel : Nat) (filename : Str) (lines : List Str)
    (cp : CodepageInfo) (sz ov : Nat) (encLines : List EncLine)
    (segs0 segs : List (List EncLine)) (names : List Str)
    (h1 : _encoded_size cp lines = .ok sz) (h2 : ¬ sz ≤ AMA_MAX_BYTES)
    (h3 : encodeLinesGo cp filename 0 lines = .ok encLines)
    (h4 : continueOverhead cp = .ok ov)
    (h5 : splitLoop filename ov fuel encLines [] 0 [] = some (.ok segs0))
    (h6 : segs0.filter (fun s => s ≠ []) = segs)
    (h7 : ¬ segs = [])
    (h8 : genSegNames filename fuel segs.length = some names) :
    split_article fuel filename lines cp =
      some (buildSegResult cp (names.zip (segs.map (fun s => s.map Prod.fst)))) := by
  unfold split_article
  rw [h1]
  dsimp only
  rw [if_neg h2, h3]
  dsimp only
  rw [h4]
  dsimp only
  rw [h5]
  dsimp only
  rw [h6]
  rw [if_neg h7, h8]

/-- The small-article path of `split_article`. -/
theorem split_article_small (fuel : Nat) (filename : Str) (lines : List Str)
    (cp : CodepageInfo) (sz : Nat)
    (h1 : _encoded_size cp lines = .ok sz) (h2 : sz ≤ AMA_MAX_BYTES) :
    split_article fuel filename lines cp = some (.ok [(filename, lines)]) := by
  unfold split_article
  rw [h1]
  dsimp only
  rw [if_pos h2]

theorem renderNamesLoop_cons (render : Str → List Str) (cp : CodepageInfo) (fuel : Nat)
    (path : Str) (art : Article) (rest : List (Str × Article))
    (parts : List (Str × List Str)) (names : List Str)
    (h1 : split_article fuel art.ama_name (render path) cp = some (.ok parts))
    (h2 : renderNamesLoop render cp fuel rest = some (.ok names)) :
    renderNamesLoop render cp fuel ((path, art) :: rest) =
      some (.ok (parts.map Prod.fst ++ names)) := by
  simp only [renderNamesLoop, h1, h2]

theorem producedNames_eq (fs : FileSys) (render : Str → List Str) (cp : CodepageInfo)
    (fuel : Nat) (root : Str) (arts : List (Str × Article)) (r : List Str)
    (h1 : collect_articles fs fuel root = some (.ok arts))
    (h2 : renderNamesLoop render cp fuel arts = some (.ok r)) :
    producedNames fs render cp fuel root = some (.ok r) := by
  unfold producedNames
  simp only [h1, h2]

theorem splitLoop_step_add (nm : Str) (ov fuel0 fuel : Nat) (l : EncLine)
    (rest curRev : List EncLine) (size n size' : Nat) (segs : List (List EncLine))
    (hfuel : fuel0 = fuel + 1)
    (hlen : l.2.length = n)
    (hfits : size + n ≤ AMA_MAX_BYTES)
    (hsize : size + n = size') :
    splitLoop nm ov fuel0 (l :: rest) curRev size segs =
      splitLoop nm ov fuel rest (l :: curRev) size' segs := by
  rw [hfuel]
  simp only [splitLoop]
  rw [hlen, if_pos hfits, hsize]

theorem splitLoop_step_flush (nm : Str) (ov fuel0 fuel : Nat) (l : EncLine)
    (rest curRev cur2 rest2 : List EncLine) (size n s2 : Nat)
    (segs segs' : List (List EncLine))
    (hfuel : fuel0 = fuel + 1)
    (hlen : l.2.length = n)
    (hover : ¬ size + n ≤ AMA_MAX_BYTES)
    (hcur : ¬ curRev = [])
    (hpop : popLoop ov curRev size (l :: rest) = (cur2, s2, rest2))
    (hsegs : segs ++ [cur2.reverse] = segs') :
    splitLoop nm ov fuel0 (l :: rest) curRev size segs =
      splitLoop nm ov fuel rest2 [] 0 segs' := by
  rw [hfuel]
  simp only [splitLoop]
  rw [hlen, if_neg hover, if_neg hcur, hpop, hsegs]

theorem splitLoop_done (nm : Str) (ov fuel0 fuel : Nat) (curRev : List EncLine)
    (size : Nat) (segs : List (List EncLine)) (hfuel : fuel0 = fuel + 1) :
    splitLoop nm ov fuel0 [] curRev size segs =
      some (.ok (if curRev = [] then segs else segs ++ [curRev.reverse])) := by
  rw [hfuel]
  simp only [splitLoop]

theorem popLoop_cons (ov : Nat) (l : EncLine) (t : List EncLine) (size : Nat)
    (rest : List EncLine) :
    popLoop ov (l :: t) size rest =
      if AMA_MAX_BYTES < size + ov then popLoop ov t (size - l.2.length) (l :: rest)
      else (l :: t, size, rest) := by
  simp only [popLoop]

theorem buildSegResult_cons (cp : CodepageInfo) (nm : Str) (seg : List Str)
    (next : Str × List Str) (rest : List (Str × List Str)) (sz : Nat)
    (tail : List (Str × List Str))
    (h1 : _encoded_size cp (seg ++ [[], trailerLine next.1]) = .ok sz)
    (h2 : ¬ AMA_MAX_BYTES < sz)
    (h3 : buildSegResult cp (next :: rest) = .ok tail) :
    buildSegResult cp ((nm, seg) :: next :: rest) =
      .ok ((nm, seg ++ [[], trailerLine next.1]) :: tail) := by
  simp only [buildSegResult, h1]
  rw [if_neg h2, h3]

theorem buildSegResult_single (cp : CodepageInfo) (nm : Str) (seg : List Str) :
    buildSegResult cp [(nm, seg)] = .ok [(nm, seg)] := by
  simp only [buildSegResult]

/-- The concrete split of the oversize two-line article: two segments, the
first gaining a blank line and a `%lX01.AMA:Continue%t` trailer. -/
theorem split_bigX :
    split_article 10 (str "X.AMA")
      [List.replicate 40000 'a', List.replicate 40000 'a'] cpLatin1 =
      some (.ok [(str "X.AMA",
          [List.replicate 40000 'a', [], trailerLine (str "X01.AMA")]),
        (str "X01.AMA", [List.replicate 40000 'a'])]) := by
  have halen : (List.replicate 40000 (97 : Nat) ++ [10]).length = 40001 := by
    rw [List.length_append, List.length_replicate]
    norm_num
  have hall : ∀ c ∈ ((List.replicate 40000 'a' ++ [nl]) ++ List.replicate 40000 'a') ++ [nl],
      c.toNat < 256 := by
    apply all256_append (all256_append (all256_append (all256_replicate _ (by decide))
      (by decide)) (all256_replicate _ (by decide))) (by decide)
  have hsize : _encoded_size cpLatin1
      [List.replicate 40000 'a', List.replicate 40000 'a'] = .ok 80002 := by
    have h0 := latin1_encoded_size_eq
      [List.replicate 40000 'a', List.replicate 40000 'a']
      (((List.replicate 40000 'a' ++ [nl]) ++ List.replicate 40000 'a') ++ [nl])
      (joinedContent_two_a 40000 40000 (by norm_num)) hall
    rw [h0]
    rw [List.length_append, List.length_append, List.length_append]
    rw [List.length_replicate]
    norm_num
  have hels : encodeLinesGo cpLatin1 (str "X.AMA") 0
      [List.replicate 40000 'a', List.replicate 40000 'a'] =
      .ok [(List.replicate 40000 'a', List.replicate 40000 (97 : Nat) ++ [10]),
           (List.replicate 40000 'a', List.replicate 40000 (97 : Nat) ++ [10])] := by
    apply encodeLinesGo_cons _ _ _ _ _ _ _ (replicate_a_encodeLine 40000)
      (by rw [halen]; norm_num [AMA_MAX_BYTES])
    apply encodeLinesGo_cons _ _ _ _ _ _ _ (replicate_a_encodeLine 40000)
      (by rw [halen]; norm_num [AMA_MAX_BYTES])
    rfl
  have hpop : popLoop 27
      [(List.replicate 40000 'a', List.replicate 40000 (97 : Nat) ++ [10])] 40001
      [(List.replicate 40000 'a', List.replicate 40000 (97 : Nat) ++ [10])] =
      ([(List.replicate 40000 'a', List.replicate 40000 (97 : Nat) ++ [10])], 40001,
       [(List.replicate 40000 'a', List.replicate 40000 (97 : Nat) ++ [10])]) := by
    rw [popLoop_cons]
    rw [if_neg (by norm_num [AMA_MAX_BYTES])]
  have hl2 : ((List.replicate 40000 'a', List.replicate 40000 (97 : Nat) ++ [10]) :
      EncLine).2.length = 40001 := halen
  have hloop : splitLoop (str "X.AMA") 27 10
      [(List.replicate 40000 'a', List.replicate 40000 (97 : Nat) ++ [10]),
       (List.replicate 40000 'a', List.replicate 40000 (97 : Nat) ++ [10])] [] 0 [] =
      some (.ok [[(List.replicate 40000 'a', List.replicate 40000 (97 : Nat) ++ [10])],
                 [(List.replicate 40000 'a', List.replicate 40000 (97 : Nat) ++ [10])]]) := by
    rw [splitLoop_step_add (str "X.AMA") 27 10 9 _ _ _ 0 40001 40001 _ (by norm_num) hl2
      (by norm_num [AMA_MAX_BYTES]) (by norm_num)]
    rw [splitLoop_step_flush (str "X.AMA") 27 9 8 _ _ _ _ _ 40001 40001 40001 _ _
      (by norm_num) hl2 (by norm_num [AMA_MAX_BYTES]) (List.cons_ne_nil _ _) hpop rfl]
    rw [splitLoop_step_add (str "X.AMA") 27 8 7 _ _ _ 0 40001 40001 _ (by norm_num) hl2
      (by norm_num [AMA_MAX_BYTES]) (by norm_num)]
    rw [splitLoop_done (str "X.AMA") 27 7 6 _ _ _ (by norm_num)]
    rw [if_neg (List.cons_ne_nil _ _)]
    rfl
  have htrail_all : ∀ c ∈ trailerLine (str "X01.AMA"), c.toNat < 256 := by decide
  have hsegsize : _encoded_size cpLatin1
      [List.replicate 40000 'a', [], trailerLine (str "X01.AMA")] = .ok 40023 := by
    have hjc : joinedContent [List.replicate 40000 'a', [], trailerLine (str "X01.AMA")] =
        (((List.replicate 40000 'a' ++ [nl]) ++ ([] ++ [nl])) ++
          trailerLine (str "X01.AMA")) ++ [nl] := by
      unfold joinedContent
      rw [intercalate_cons_cons, intercalate_cons_cons, intercalate_one]
      rw [← List.append_assoc]
      rw [rstripNl_trailer]
    have h0 := latin1_encoded_size_eq _ _ hjc
      (all256_append (all256_append (all256_append
        (all256_append (all256_replicate 40000 (by decide)) (by decide))
        (by decide)) htrail_all) (by decide))
    rw [h0]
    rw [List.length_append, List.length_append, List.length_append, List.length_append]
    rw [List.length_replicate]
    rw [show (trailerLine (str "X01.AMA")).length = 20 from rfl]
    norm_num
  have hbuild : buildSegResult cpLatin1
      [(str "X.AMA", [List.replicate 40000 'a']),
       (str "X01.AMA", [List.replicate 40000 'a'])] =
      .ok [(str "X.AMA", [List.replicate 40000 'a', [], trailerLine (str "X01.AMA")]),
           (str "X01.AMA", [List.replicate 40000 'a'])] := by
    have h := buildSegResult_cons cpLatin1 (str "X.AMA") [List.replicate 40000 'a']
      (str "X01.AMA", [List.replicate 40000 'a']) [] 40023
      [(str "X01.AMA", [List.replicate 40000 'a'])]
      hsegsize (by norm_num [AMA_MAX_BYTES])
      (buildSegResult_single cpLatin1 _ _)
    exact h
  have hrun := split_article_run 10 (str "X.AMA")
    [List.replicate 40000 'a', List.replicate 40000 'a'] cpLatin1 80002 27
    [(List.replicate 40000 'a', List.replicate 40000 (97 : Nat) ++ [10]),
     (List.replicate 40000 'a', List.replicate 40000 (97 : Nat) ++ [10])]
    [[(List.replicate 40000 'a', List.replicate 40000 (97 : Nat) ++ [10])],
     [(List.replicate 40000 'a', List.replicate 40000 (97 : Nat) ++ [10])]]
    [[(List.replicate 40000 'a', List.replicate 40000 (97 : Nat) ++ [10])],
     [(List.replicate 40000 'a', List.replicate 40000 (97 : Nat) ++ [10])]]
    [str "X.AMA", str "X01.AMA"]
    hsize (by norm_num [AMA_MAX_BYTES]) hels latin1_overhead hloop rfl
    (List.cons_ne_nil _ _) (by rfl)
  rw [hrun]
  rw [show ([str "X.AMA", str "X01.AMA"].zip
      ([[(List.replicate 40000 'a', List.replicate 40000 (97 : Nat) ++ [10])],
        [(List.replicate 40000 'a', List.replicate 40000 (97 : Nat) ++ [10])]].map
        (fun s => s.map Prod.fst))) =
      [(str "X.AMA", [List.replicate 40000 'a']),
       (str "X01.AMA", [List.replicate 40000 'a'])] from rfl]
  rw [hbuild]

theorem segNameLoop_not_mem (stem : Str) (idx : Nat) (existing : List Str) :
    ∀ (fuel counter : Nat) (name nm : Str),
      segNameLoop stem idx existing fuel counter name = some nm → nm ∉ existing := by
  intro fuel
  induction fuel with
  | zero =>
    intro counter name nm h
    simp [segNameLoop] at h
  | succ f ih =>
    intro counter name nm h
    simp only [segNameLoop] at h
    by_cases hmem : name ∈ existing
    · rw [if_pos hmem] at h
      exact ih _ _ nm h
    · rw [if_neg hmem] at h
      injection h with h1
      rw [← h1]
      exact hmem

theorem assignLoop_not_mem (base : Str) (existing : List Str) :
    ∀ (fuel counter : Nat) (name nm : Str),
      assignLoop base existing fuel counter name = some nm → nm ∉ existing := by
  intro fuel
  induction fuel with
  | zero =>
    intro counter name nm h
    simp [assignLoop] at h
  | succ f ih =>
    intro counter name nm h
    simp only [assignLoop] at h
    by_cases hmem : name ∈ existing
    · rw [if_pos hmem] at h
      exact ih _ _ nm h
    · rw [if_neg hmem] at h
      injection h with h1
      rw [← h1]
      exact hmem

theorem assign_ama_name_not_mem (fuel : Nat) (stem : Str) (existing : List Str)
    (nm : Str) (h : assign_ama_name fuel stem existing = some nm) : nm ∉ existing := by
  unfold assign_ama_name at h
  exact assignLoop_not_mem _ _ _ _ _ _ h

theorem genNamesGo_length (filename stem : Str) (fuel : Nat) :
    ∀ (n idx : Nat) (existing names : List Str),
      genNamesGo filename stem fuel n idx existing = some names →
      names.length = n := by
  intro n
  induction n with
  | zero =>
    intro idx existing names h
    simp only [genNamesGo] at h
    injection h with h1
    rw [← h1]
    rfl
  | succ m ih =>
    intro idx existing names h
    simp only [genNamesGo] at h
    rcases hname : (if idx = 0 then some filename
        else segNameLoop stem idx existing fuel 1 (segCandidate stem (fmt02 idx)))
      with _ | nm
    · rw [hname] at h
      dsimp only at h
      exact Option.noConfusion h
    · rw [hname] at h
      dsimp only at h
      rcases hrec : genNamesGo filename stem fuel m (idx + 1) (existing ++ [nm])
        with _ | rest
      · rw [hrec] at h
        dsimp only at h
        exact Option.noConfusion h
      · rw [hrec] at h
        dsimp only at h
        injection h with h1
        rw [← h1, List.length_cons, ih _ _ _ hrec]

theorem genNamesGo_nodup (filename stem : Str) (fuel : Nat) :
    ∀ (n idx : Nat) (existing names : List Str), idx ≠ 0 →
      genNamesGo filename stem fuel n idx existing = some names →
      (∀ nm ∈ names, nm ∉ existing) ∧ names.Nodup := by
  intro n
  induction n with
  | zero =>
    intro idx existing names _ h
    simp only [genNamesGo] at h
    injection h with h1
    rw [← h1]
    constructor
    · intro nm hm
      exact absurd hm (List.not_mem_nil nm)
    · exact List.nodup_nil
  | succ m ih =>
    intro idx existing names hidx h
    simp only [genNamesGo] at h
    rw [if_neg hidx] at h
    rcases hname : segNameLoop stem idx existing fuel 1 (segCandidate stem (fmt02 idx))
      with _ | nm
    · rw [hname] at h
      dsimp only at h
      exact Option.noConfusion h
    · rw [hname] at h
      dsimp only at h
      rcases hrec : genNamesGo filename stem fuel m (idx + 1) (existing ++ [nm])
        with _ | rest
      · rw [hrec] at h
        dsimp only at h
        exact Option.noConfusion h
      · rw [hrec] at h
        dsimp only at h
        injection h with h1
        obtain ⟨hfresh, hnd⟩ := ih (idx + 1) (existing ++ [nm]) rest (by omega) hrec
        have hnm : nm ∉ existing := segNameLoop_not_mem stem idx existing _ _ _ _ hname
        rw [← h1]
        constructor
        · intro x hx
          cases hx with
          | head => exact hnm
          | tail _ hx =>
            intro hxe
            exact hfresh x hx (List.mem_append.2 (Or.inl hxe))
        · refine List.nodup_cons.2 ⟨?_, hnd⟩
          intro hmem
          exact hfresh nm hmem (List.mem_append.2 (Or.inr (List.mem_singleton.2 rfl)))

theorem genSegNames_nodup (filename : Str) (fuel count : Nat) (names : List Str)
    (h : genSegNames filename fuel count = some names) : names.Nodup := by
  unfold genSegNames at h
  cases count with
  | zero =>
    simp only [genNamesGo] at h
    injection h with h1
    rw [← h1]
    exact List.nodup_nil
  | succ m =>
    simp only [genNamesGo] at h
    simp only [if_true] at h
    rcases hrec : genNamesGo filename (pathStem filename) fuel m 1 ([] ++ [filename])
      with _ | rest
    · rw [hrec] at h
      dsimp only at h
      exact Option.noConfusion h
    · rw [hrec] at h
      dsimp only at h
      injection h with h1
      obtain ⟨hfresh, hnd⟩ := genNamesGo_nodup filename (pathStem filename) fuel m 1
        ([] ++ [filename]) rest (by omega) hrec
      rw [← h1]
      refine List.nodup_cons.2 ⟨?_, hnd⟩
      intro hmem
      exact hfresh filename hmem (List.mem_append.2 (Or.inr (List.mem_singleton.2 rfl)))

theorem buildSegResult_names (cp : CodepageInfo) :
    ∀ (pairs out : List (Str × List Str)), buildSegResult cp pairs = .ok out →
      out.map Prod.fst = pairs.map Prod.fst := by
  intro pairs
  induction pairs with
  | nil =>
    intro out h
    simp only [buildSegResult] at h
    injection h with h1
    rw [← h1]
  | cons hd tl ih =>
    intro out h
    cases tl with
    | nil =>
      cases hd with
      | mk nm seg =>
      simp only [buildSegResult] at h
      injection h with h1
      rw [← h1]
    | cons next rest =>
      cases hd with
      | mk nm seg =>
      simp only [buildSegResult] at h
      rcases hs : _encoded_size cp (seg ++ [[], trailerLine next.1]) with e | sz
      · rw [hs] at h
        dsimp only at h
        exact Except.noConfusion h
      · rw [hs] at h
        dsimp only at h
        by_cases hlt : AMA_MAX_BYTES < sz
        · rw [if_pos hlt] at h
          exact Except.noConfusion h
        · rw [if_neg hlt] at h
          rcases hrec : buildSegResult cp (next :: rest) with e | tail
          · rw [hrec] at h
            dsimp only at h
            exact Except.noConfusion h
          · rw [hrec] at h
            dsimp only at h
            injection h with h1
            rw [← h1]
            simp only [List.map_cons]
            rw [ih tail hrec]
            rfl

theorem split_article_names_nodup (fuel : Nat) (filename : Str) (lines : List Str)
    (cp : CodepageInfo) (parts : List (Str × List Str))
    (h : split_article fuel filename lines cp = some (.ok parts)) :
    (parts.map Prod.fst).Nodup := by
  unfold split_article at h
  rcases hs : _encoded_size cp lines with e | sz
  · rw [hs] at h
    dsimp only at h
    injection h with h1
    exact Except.noConfusion h1
  · rw [hs] at h
    dsimp only at h
    by_cases hle : sz ≤ AMA_MAX_BYTES
    · rw [if_pos hle] at h
      injection h with h1
      injection h1 with h2
      rw [← h2]
      simp
    · rw [if_neg hle] at h
      rcases hel : encodeLinesGo cp filename 0 lines with e | encLines
      · rw [hel] at h
        dsimp only at h
        injection h with h1
        exact Except.noConfusion h1
      · rw [hel] at h
        dsimp only at h
        rcases hov : continueOverhead cp with e | ov
        · rw [hov] at h
          dsimp only at h
          injection h with h1
          exact Except.noConfusion h1
        · rw [hov] at h
          dsimp only at h
          rcases hsl : splitLoop filename ov fuel encLines [] 0 [] with _ | res
          · rw [hsl] at h
            dsimp only at h
            exact Option.noConfusion h
          · rw [hsl] at h
            rcases res with e | segs0
            · dsimp only at h
              injection h with h1
              exact Except.noConfusion h1
            · dsimp only at h
              by_cases hemp : segs0.filter (fun s => s ≠ []) = []
              · rw [if_pos hemp] at h
                injection h with h1
                injection h1 with h2
                rw [← h2]
                simp
              · rw [if_neg hemp] at h
                rcases hgen : genSegNames filename fuel
                    (segs0.filter (fun s => s ≠ [])).length with _ | names
                · rw [hgen] at h
                  dsimp only at h
                  exact Option.noConfusion h
                · rw [hgen] at h
                  dsimp only at h
                  injection h with h1
                  have hnames := genSegNames_nodup filename fuel _ names hgen
                  have hlen : names.length = (segs0.filter (fun s => s ≠ [])).length := by
                    unfold genSegNames at hgen
                    exact genNamesGo_length _ _ _ _ _ _ _ hgen
                  rw [buildSegResult_names cp _ parts h1]
                  rw [List.map_fst_zip]
                  · exact hnames
                  · rw [List.length_map, hlen]

theorem collectLoop_names_nodup (fs : FileSys) (root : Str) :
    ∀ (fuel : Nat) (queue : List Str) (visited : List (Str × Article))
      (assigned : List Str) (arts : List (Str × Article)),
      (visited.lookup root).isSome = true →
      visited.map (fun pa => pa.2.ama_name) = assigned →
      assigned.Nodup →
      collectLoop fs root fuel queue visited assigned = some (.ok arts) →
      (arts.map (fun pa => pa.2.ama_name)).Nodup := by
  intro fuel
  induction fuel with
  | zero =>
    intro queue visited assigned arts _ _ _ h
    simp [collectLoop] at h
  | succ f ih =>
    intro queue visited assigned arts hroot hmap hnd h
    cases queue with
    | nil =>
      simp only [collectLoop] at h
      injection h with h1
      injection h1 with h2
      rw [← h2, hmap]
      exact hnd
    | cons cur0 rest =>
      simp only [collectLoop] at h
      by_cases hvis : (visited.lookup (fs.resolvePath cur0)).isSome = true
      · rw [if_pos hvis] at h
        exact ih rest visited assigned arts hroot hmap hnd h
      · rw [if_neg hvis] at h
        by_cases hex : fs.pathExists (fs.resolvePath cur0) = false
        · rw [if_pos hex] at h
          injection h with h1
          exact Except.noConfusion h1
        · rw [if_neg hex] at h
          by_cases hcur : fs.resolvePath cur0 = root
          · exfalso
            rw [hcur] at hvis
            exact hvis hroot
          · rw [if_neg hcur] at h
            rcases hass : assign_ama_name (f + 1) (pathStem (fs.resolvePath cur0)) assigned
              with _ | nm
            · rw [hass] at h
              dsimp only at h
              exact Option.noConfusion h
            · rw [hass] at h
              dsimp only at h
              have hfresh : nm ∉ assigned := assign_ama_name_not_mem _ _ _ _ hass
              apply ih (rest ++ fs.linksOf (fs.resolvePath cur0))
                (visited ++ [(fs.resolvePath cur0, ⟨fs.resolvePath cur0, nm⟩)])
                (assigned ++ [nm]) arts ?hr ?hm ?hn h
              case hr =>
                obtain ⟨v, hv⟩ := Option.isSome_iff_exists.1 hroot
                rw [lookup_append_left _ root hv]
                rfl
              case hm =>
                rw [List.map_append, hmap]
                rfl
              case hn =>
                refine List.nodup_append.2 ⟨hnd, List.nodup_singleton nm, ?_⟩
                intro a ha hb
                rw [List.mem_singleton] at hb
                rw [hb] at ha
                exact hfresh ha

theorem collect_names_nodup (fs : FileSys) (fuel : Nat) (root : Str)
    (arts : List (Str × Article))
    (hroot : fs.resolvePath root = root)
    (h : collect_articles fs fuel root = some (.ok arts)) :
    (arts.map (fun pa => pa.2.ama_name)).Nodup := by
  unfold collect_articles at h
  cases fuel with
  | zero =>
    simp [collectLoop] at h
  | succ f =>
    simp only [collectLoop] at h
    rw [hroot] at h
    rw [if_neg (by simp [List.lookup])] at h
    by_cases hex : fs.pathExists root = false
    · rw [if_pos hex] at h
      injection h with h1
      exact Except.noConfusion h1
    · rw [if_neg hex] at h
      rw [if_pos rfl] at h
      dsimp only at h
      exact collectLoop_names_nodup fs root f ([] ++ fs.linksOf root)
        [(root, ⟨root, str "INDEX.AMA"⟩)] [str "INDEX.AMA"] arts
        (by simp [List.lookup]) rfl (List.nodup_singleton _) h

/-- Claim C1, counterexample: in the three-file tree whose root links to
`x.md` (rendered as an oversize two-line article) and `x01.md`, the pipeline
produces the AMA names `INDEX.AMA`, `X.AMA`, `X01.AMA` for the collected
articles, and splitting `X.AMA`'s article adds the continuation name
`X01.AMA` — a case-insensitive collision with the other article's assigned
name, so the claimed cross-article uniqueness fails. -/
theorem C1_counterexample :
    producedNames fsLinkedTree renderBigX cpLatin1 10 (str "/r/index.md") =
      some (.ok [str "INDEX.AMA", str "X.AMA", str "X01.AMA", str "X01.AMA"]) ∧
    ¬ caselessNodup [str "INDEX.AMA", str "X.AMA", str "X01.AMA", str "X01.AMA"] := by
  constructor
  · have hxl : renderNamesLoop renderBigX cpLatin1 10
        [(str "/r/x01.md", ⟨str "/r/x01.md", str "X01.AMA"⟩)] =
        some (.ok [str "X01.AMA"]) := by rfl
    have hx : renderNamesLoop renderBigX cpLatin1 10
        [(str "/r/x.md", ⟨str "/r/x.md", str "X.AMA"⟩),
         (str "/r/x01.md", ⟨str "/r/x01.md", str "X01.AMA"⟩)] =
        some (.ok [str "X.AMA", str "X01.AMA", str "X01.AMA"]) := by
      have h1 := renderNamesLoop_cons renderBigX cpLatin1 10 (str "/r/x.md")
        ⟨str "/r/x.md", str "X.AMA"⟩
        [(str "/r/x01.md", ⟨str "/r/x01.md", str "X01.AMA"⟩)]
        [(str "X.AMA",
            [List.replicate 40000 'a', [], trailerLine (str "X01.AMA")]),
         (str "X01.AMA", [List.replicate 40000 'a'])]
        [str "X01.AMA"] split_bigX hxl
      exact h1
    have hroot : renderNamesLoop renderBigX cpLatin1 10
        [(str "/r/index.md", ⟨str "/r/index.md", str "INDEX.AMA"⟩),
         (str "/r/x.md", ⟨str "/r/x.md", str "X.AMA"⟩),
         (str "/r/x01.md", ⟨str "/r/x01.md", str "X01.AMA"⟩)] =
        some (.ok [str "INDEX.AMA", str "X.AMA", str "X01.AMA", str "X01.AMA"]) := by
      have h0 := renderNamesLoop_cons renderBigX cpLatin1 10 (str "/r/index.md")
        ⟨str "/r/index.md", str "INDEX.AMA"⟩
        [(str "/r/x.md", ⟨str "/r/x.md", str "X.AMA"⟩),
         (str "/r/x01.md", ⟨str "/r/x01.md", str "X01.AMA"⟩)]
        [(str "INDEX.AMA", [str "hi"])]
        [str "X.AMA", str "X01.AMA", str "X01.AMA"] (by rfl) hx
      exact h0
    exact producedNames_eq fsLinkedTree renderBigX cpLatin1 10 (str "/r/index.md")
      [(str "/r/index.md", ⟨str "/r/index.md", str "INDEX.AMA"⟩),
       (str "/r/x.md", ⟨str "/r/x.md", str "X.AMA"⟩),
       (str "/r/x01.md", ⟨str "/r/x01.md", str "X01.AMA"⟩)]
      [str "INDEX.AMA", str "X.AMA", str "X01.AMA", str "X01.AMA"] (by rfl) hroot
  · intro h
    exact (by decide : ¬ (List.map strUpper
      [str "INDEX.AMA", str "X.AMA", str "X01.AMA", str "X01.AMA"]).Nodup) h

/-- Claim C1 (amended): AMA-filename uniqueness holds in two separate scopes
but not across them.  (1) Within one article's split, the names returned by
`split_article` are pairwise distinct: the continuation-naming loop checks
each candidate against the names generated so far in the same split.
(2) The names `collect_articles` assigns to distinct articles are pairwise
distinct (for a pre-resolved root): `assign_ama_name` checks candidates
against all names assigned so far, and the root branch fires exactly once.
However a continuation name generated in (1) is never checked against the
names of (2), so names of produced articles can collide across articles
(`C1_counterexample`). -/
theorem C1_unique_within_each_scope :
    (∀ (fuel : Nat) (filename : Str) (lines : List Str) (cp : CodepageInfo)
       (parts : List (Str × List Str)),
       split_article fuel filename lines cp = some (.ok parts) →
       (parts.map Prod.fst).Nodup) ∧
    (∀ (fs : FileSys) (fuel : Nat) (root : Str) (arts : List (Str × Article)),
       fs.resolvePath root = root →
       collect_articles fs fuel root = some (.ok arts) →
       (arts.map (fun pa => pa.2.ama_name)).Nodup) :=
  ⟨split_article_names_nodup, collect_names_nodup⟩

theorem C1_unique_within_each_scope_witness :
    (([(str "X.AMA", [List.replicate 40000 'a', [], trailerLine (str "X01.AMA")]),
       (str "X01.AMA", [List.replicate 40000 'a'])] :
        List (Str × List Str)).map Prod.fst).Nodup ∧
    (([(str "/r/index.md", ⟨str "/r/index.md", str "INDEX.AMA"⟩),
       (str "/r/x.md", ⟨str "/r/x.md", str "X.AMA"⟩),
       (str "/r/x01.md", ⟨str "/r/x01.md", str "X01.AMA"⟩)] :
        List (Str × Article)).map (fun pa => pa.2.ama_name)).Nodup :=
  ⟨C1_unique_within_each_scope.1 10 (str "X.AMA")
      [List.replicate 40000 'a', List.replicate 40000 'a'] cpLatin1
      [(str "X.AMA", [List.replicate 40000 'a', [], trailerLine (str "X01.AMA")]),
       (str "X01.AMA", [List.replicate 40000 'a'])] split_bigX,
   C1_unique_within_each_scope.2 fsLinkedTree 10 (str "/r/index.md")
      [(str "/r/index.md", ⟨str "/r/index.md", str "INDEX.AMA"⟩),
       (str "/r/x.md", ⟨str "/r/x.md", str "X.AMA"⟩),
       (str "/r/x01.md", ⟨str "/r/x01.md", str "X01.AMA"⟩)] rfl (by rfl)⟩

theorem decVal_concat (ds : List Nat) (d : Nat) :
    decVal (ds ++ [d]) = 10 * decVal ds + d := by
  unfold decVal
  rw [List.foldl_append]
  rfl

theorem decDigitsAux_zero (fuel : Nat) : decDigitsAux fuel 0 = [] := by
  cases fuel with
  | zero => rfl
  | succ f => rfl

theorem decDigitsAux_val : ∀ (fuel n : Nat), n ≤ fuel →
    decVal (decDigitsAux fuel n) = n := by
  intro fuel
  induction fuel with
  | zero =>
    intro n hn
    rw [Nat.le_zero.1 hn, decDigitsAux_zero]
    rfl
  | succ f ih =>
    intro n hn
    cases n with
    | zero =>
      rw [decDigitsAux_zero]
      rfl
    | succ m =>
      rw [decDigitsAux, decVal_concat]
      rw [ih ((m + 1) / 10) (by
        have := Nat.div_lt_self (Nat.succ_pos m) (by norm_num : (1:Nat) < 10)
        omega)]
      exact Nat.div_add_mod (m + 1) 10

theorem decDigitsAux_lt10 : ∀ (fuel n d : Nat), d ∈ decDigitsAux fuel n → d < 10 := by
  intro fuel
  induction fuel with
  | zero =>
    intro n d hd
    simp [decDigitsAux] at hd
  | succ f ih =>
    intro n d hd
    cases n with
    | zero =>
      rw [decDigitsAux_zero] at hd
      simp at hd
    | succ m =>
      rw [decDigitsAux] at hd
      rcases List.mem_append.1 hd with h1 | h2
      · exact ih _ _ h1
      · rw [List.mem_singleton] at h2
        rw [h2]
        exact Nat.mod_lt _ (by norm_num)

theorem decChar_toNat (d : Nat) (h : d < 10) : (decChar d).toNat = 48 + d := by
  interval_cases d <;> decide

theorem decChar_inj10 (d1 d2 : Nat) (h1 : d1 < 10) (h2 : d2 < 10)
    (h : decChar d1 = decChar d2) : d1 = d2 := by
  have := congrArg Char.toNat h
  rw [decChar_toNat d1 h1, decChar_toNat d2 h2] at this
  omega

theorem map_decChar_inj : ∀ (xs ys : List Nat), (∀ d ∈ xs, d < 10) →
    (∀ d ∈ ys, d < 10) → xs.map decChar = ys.map decChar → xs = ys := by
  intro xs
  induction xs with
  | nil =>
    intro ys _ _ h
    cases ys with
    | nil => rfl
    | cons y t => exact absurd h.symm (by simp)
  | cons x t ih =>
    intro ys hx hy h
    cases ys with
    | nil => exact absurd h (by simp)
    | cons y t2 =>
      simp only [List.map_cons, List.cons.injEq] at h
      have hd : x = y := decChar_inj10 x y (hx x (by simp)) (hy y (by simp)) h.1
      rw [hd, ih t2 (fun d hd2 => hx d (by simp [hd2])) (fun d hd2 => hy d (by simp [hd2])) h.2]

theorem pyRepr_inj (a b : Nat) (h : pyRepr a = pyRepr b) : a = b := by
  unfold pyRepr at h
  by_cases a0 : a = 0 <;> by_cases b0 : b = 0
  · rw [a0, b0]
  · rw [if_pos a0, if_neg b0] at h
    have h2 : ([0] : List Nat).map decChar = (decDigitsAux b b).map decChar := h
    have h3 := map_decChar_inj [0] (decDigitsAux b b) (by intro d hd; simp at hd; omega)
      (fun d hd => decDigitsAux_lt10 b b d hd) h2
    have h4 := decDigitsAux_val b b le_rfl
    rw [← h3] at h4
    exact absurd h4.symm b0
  · rw [if_neg a0, if_pos b0] at h
    have h2 : (decDigitsAux a a).map decChar = ([0] : List Nat).map decChar := h
    have h3 := map_decChar_inj (decDigitsAux a a) [0]
      (fun d hd => decDigitsAux_lt10 a a d hd) (by intro d hd; simp at hd; omega) h2
    have h4 := decDigitsAux_val a a le_rfl
    rw [h3] at h4
    exact absurd h4.symm a0
  · rw [if_neg a0, if_neg b0] at h
    have h3 := map_decChar_inj (decDigitsAux a a) (decDigitsAux b b)
      (fun d hd => decDigitsAux_lt10 a a d hd) (fun d hd => decDigitsAux_lt10 b b d hd) h
    have h4 := decDigitsAux_val a a le_rfl
    have h5 := decDigitsAux_val b b le_rfl
    rw [h3] at h4
    rw [h4] at h5
    exact h5

theorem decDigitsAux_ne_nil : ∀ (fuel n : Nat), 0 < n → n ≤ fuel →
    decDigitsAux fuel n ≠ [] := by
  intro fuel n hn hf
  cases fuel with
  | zero => omega
  | succ f =>
    cases n with
    | zero => omega
    | succ m =>
      rw [decDigitsAux]
      simp

theorem decDigitsAux_head_ne0 : ∀ (fuel n : Nat), 0 < n → n ≤ fuel →
    ∀ d, (decDigitsAux fuel n).head? = some d → d ≠ 0 := by
  intro fuel
  induction fuel with
  | zero => intro n hn hf; omega
  | succ f ih =>
    intro n hn hf d hd
    cases n with
    | zero => omega
    | succ m =>
      rw [decDigitsAux] at hd
      by_cases hq : (m + 1) / 10 = 0
      · rw [hq, decDigitsAux_zero, List.nil_append] at hd
        have hlt : m + 1 < 10 := (Nat.div_eq_zero_iff (by norm_num)).1 hq
        simp only [List.head?_cons, Option.some.injEq] at hd
        rw [← hd, Nat.mod_eq_of_lt hlt]
        omega
      · have hne := decDigitsAux_ne_nil f ((m + 1) / 10) (by omega) (by
          have := Nat.div_lt_self (Nat.succ_pos m) (by norm_num : (1:Nat) < 10)
          omega)
        rw [List.head?_append_of_ne_nil _ hne] at hd
        exact ih ((m + 1) / 10) (by omega) (by
          have := Nat.div_lt_self (Nat.succ_pos m) (by norm_num : (1:Nat) < 10)
          omega) d hd

theorem pyRepr_head_not_pad (b : Nat) (hb : b ≠ 0) :
    (pyRepr b).head? ≠ some '0' := by
  unfold pyRepr
  rw [if_neg hb]
  intro hc
  rw [List.head?_map] at hc
  rcases hmap : (decDigitsAux b b).head? with _ | d
  · rw [hmap] at hc
    exact Option.noConfusion hc
  · rw [hmap] at hc
    simp only [Option.map_some', Option.some.injEq] at hc
    have hmem : d ∈ decDigitsAux b b := by
      cases hl : decDigitsAux b b with
      | nil =>
        rw [hl] at hmap
        exact Option.noConfusion hmap
      | cons x t =>
        rw [hl] at hmap
        simp only [List.head?_cons, Option.some.injEq] at hmap
        rw [← hmap]
        simp
    have hd10 : d < 10 := decDigitsAux_lt10 b b d hmem
    have hdne := decDigitsAux_head_ne0 b b (by omega) le_rfl d hmap
    have := congrArg Char.toNat hc
    rw [decChar_toNat d hd10] at this
    have h48 : ('0' : Char).toNat = 48 := by decide
    omega

theorem fmt02_inj (a b : Nat) (h : fmt02 a = fmt02 b) : a = b := by
  unfold fmt02 at h
  by_cases la : (pyRepr a).length < 2 <;> by_cases lb : (pyRepr b).length < 2
  · rw [if_pos la, if_pos lb] at h
    exact pyRepr_inj a b (List.cons.injEq _ _ _ _ ▸ h).2
  · rw [if_pos la, if_neg lb] at h
    exfalso
    have hb0 : b ≠ 0 := by
      intro hb
      rw [hb] at lb
      exact lb (by unfold pyRepr; simp)
    apply pyRepr_head_not_pad b hb0
    rw [← h]
    rfl
  · rw [if_neg la, if_pos lb] at h
    exfalso
    have ha0 : a ≠ 0 := by
      intro ha
      rw [ha] at la
      exact la (by unfold pyRepr; simp)
    apply pyRepr_head_not_pad a ha0
    rw [h]
    rfl
  · rw [if_neg la, if_neg lb] at h
    exact pyRepr_inj a b h

theorem decDigitsAux_len_le : ∀ (k fuel n : Nat), n ≤ fuel → n < 10 ^ k →
    (decDigitsAux fuel n).length ≤ k := by
  intro k
  induction k with
  | zero =>
    intro fuel n hf hk
    have : n = 0 := by simpa using hk
    rw [this, decDigitsAux_zero]
    simp
  | succ k ih =>
    intro fuel n hf hk
    cases n with
    | zero =>
      rw [decDigitsAux_zero]
      simp
    | succ m =>
      cases fuel with
      | zero => omega
      | succ f =>
        rw [decDigitsAux, List.length_append]
        have h1 : (m + 1) / 10 ≤ f := by
          have := Nat.div_lt_self (Nat.succ_pos m) (by norm_num : (1:Nat) < 10)
          omega
        have h2 : (m + 1) / 10 < 10 ^ k := by
          rw [Nat.div_lt_iff_lt_mul (by norm_num : (0:Nat) < 10)]
          calc m + 1 < 10 ^ (k + 1) := hk
          _ = 10 ^ k * 10 := by ring
        have := ih f ((m + 1) / 10) h1 h2
        simp only [List.length_singleton]
        omega

theorem fmt02_len_le (m : Nat) (hm : m < 10 ^ 7) : (fmt02 m).length ≤ 7 := by
  unfold fmt02
  by_cases h2 : (pyRepr m).length < 2
  · rw [if_pos h2]
    rw [List.length_cons]
    omega
  · rw [if_neg h2]
    by_cases m0 : m = 0
    · exfalso
      rw [m0] at h2
      exact h2 (by unfold pyRepr; simp)
    · unfold pyRepr
      rw [if_neg m0, List.length_map]
      exact decDigitsAux_len_le 7 m m le_rfl hm

theorem trailerLine_length (t : Str) : (trailerLine t).length = t.length + 13 := by
  unfold trailerLine
  rw [List.length_append, List.length_append, List.length_append, List.length_append]
  rw [show (str "%l").length = 2 from rfl, show ([':'] : Str).length = 1 from rfl]
  rw [show LINK_CONTINUE_LABEL.length = 8 from rfl, show (str "%t").length = 2 from rfl]
  omega

theorem all256_trailer (t : Str) (ht : ∀ c ∈ t, c.toNat < 256) :
    ∀ c ∈ trailerLine t, c.toNat < 256 := by
  unfold trailerLine
  exact all256_append (all256_append (all256_append (all256_append
    (by decide) ht) (by decide)) (by decide)) (by decide)

theorem intercalate_length : ∀ (ls : List Str), ls ≠ [] →
    (List.intercalate [nl] ls).length + 1 = (ls.map List.length).sum + ls.length := by
  intro ls
  induction ls with
  | nil => intro h; exact absurd rfl h
  | cons a t ih =>
    intro _
    cases t with
    | nil =>
      rw [intercalate_one]
      simp
    | cons b t2 =>
      rw [intercalate_cons_cons]
      rw [List.length_append, List.length_append]
      rw [show ([nl] : Str).length = 1 from rfl]
      have := ih (List.cons_ne_nil b t2)
      simp only [List.map_cons, List.sum_cons, List.length_cons] at this ⊢
      omega

theorem all256_intercalate : ∀ (ls : List Str),
    (∀ li ∈ ls, ∀ c ∈ li, c.toNat < 256) →
    ∀ c ∈ List.intercalate [nl] ls, c.toNat < 256 := by
  intro ls
  induction ls with
  | nil =>
    intro _ c hc
    simp [List.intercalate] at hc
  | cons a t ih =>
    intro hall c hc
    cases t with
    | nil =>
      rw [intercalate_one] at hc
      exact hall a (by simp) c hc
    | cons b t2 =>
      rw [intercalate_cons_cons] at hc
      rcases List.mem_append.1 hc with h1 | h2
      · rcases List.mem_append.1 h1 with h3 | h4
        · exact hall a (by simp) c h3
        · rw [List.mem_singleton] at h4
          rw [h4]
          decide
      · exact ih (fun li hli => hall li (by simp [hli])) c h2

theorem intercalate_append_two : ∀ (ls : List Str) (a b : Str), ls ≠ [] →
    List.intercalate [nl] (ls ++ [a, b]) =
      List.intercalate [nl] ls ++ [nl] ++ a ++ [nl] ++ b := by
  intro ls
  induction ls with
  | nil => intro a b h; exact absurd rfl h
  | cons x t ih =>
    intro a b _
    cases t with
    | nil =>
      simp only [List.cons_append, List.nil_append]
      rw [intercalate_cons_cons, intercalate_cons_cons, intercalate_one, intercalate_one]
      simp [List.append_assoc]
    | cons y t2 =>
      simp only [List.cons_append]
      rw [intercalate_cons_cons]
      have hih := ih a b (List.cons_ne_nil y t2)
      simp only [List.cons_append] at hih
      rw [hih]
      rw [intercalate_cons_cons]
      simp [List.append_assoc]

theorem sum_map_add_one {α : Type} : ∀ (xs : List α) (f : α → Nat),
    (xs.map (fun x => f x + 1)).sum = (xs.map f).sum + xs.length := by
  intro xs f
  induction xs with
  | nil => rfl
  | cons x t ih =>
    simp only [List.map_cons, List.sum_cons, List.length_cons, ih]
    omega

theorem sum_replicate_nat : ∀ (n a : Nat), (List.replicate n a).sum = n * a := by
  intro n a
  induction n with
  | zero => simp
  | succ m ih =>
    rw [List.replicate_succ, List.sum_cons, ih]
    ring

/-- The encoded size of a segment with its blank line and continuation
trailer appended, in terms of the per-line encoded sizes the splitter sums:
exactly the summed sizes plus 15 plus the target name length. -/
theorem seg_encoded_size (seg : List EncLine) (hne : seg ≠ [])
    (hl : ∀ l ∈ seg, (∀ c ∈ l.1, c.toNat < 256) ∧ l.2.length = l.1.length + 1)
    (nm : Str) (hnm : ∀ c ∈ nm, c.toNat < 256) :
    _encoded_size cpLatin1 (seg.map Prod.fst ++ [[], trailerLine nm]) =
      .ok ((seg.map (fun l => l.2.length)).sum + 15 + nm.length) := by
  have hmapne : seg.map Prod.fst ≠ [] := by
    simpa using hne
  have hjc : joinedContent (seg.map Prod.fst ++ [[], trailerLine nm]) =
      (List.intercalate [nl] (seg.map Prod.fst) ++ [nl] ++ [] ++ [nl] ++ trailerLine nm)
        ++ [nl] := by
    unfold joinedContent
    rw [intercalate_append_two _ _ _ hmapne]
    rw [rstripNl_trailer]
  have hinterall : ∀ c ∈ List.intercalate [nl] (seg.map Prod.fst), c.toNat < 256 := by
    apply all256_intercalate
    intro li hli
    rcases List.mem_map.1 hli with ⟨l, hlmem, hfst⟩
    rw [← hfst]
    exact (hl l hlmem).1
  have hall : ∀ c ∈ (List.intercalate [nl] (seg.map Prod.fst) ++ [nl] ++ [] ++ [nl]
      ++ trailerLine nm) ++ [nl], c.toNat < 256 := by
    apply all256_append (all256_append (all256_append (all256_append (all256_append
      hinterall (by decide)) (by intro c hc; cases hc)) (by decide))
      (all256_trailer nm hnm)) (by decide)
  rw [latin1_encoded_size_eq _ _ hjc hall]
  congr 1
  rw [List.length_append, List.length_append, List.length_append, List.length_append,
    List.length_append]
  rw [trailerLine_length]
  have hint := intercalate_length (seg.map Prod.fst) hmapne
  have hsum1 : ((seg.map Prod.fst).map List.length).sum =
      (seg.map (fun l => l.1.length)).sum := by
    rw [List.map_map]
    rfl
  have hsum2 : (seg.map (fun l => l.2.length)).sum =
      (seg.map (fun l => l.1.length)).sum + seg.length := by
    have hcong : seg.map (fun l => l.2.length) = seg.map (fun l => l.1.length + 1) := by
      apply List.map_congr_left
      intro l hlm
      exact (hl l hlm).2
    rw [hcong, sum_map_add_one]
  rw [hsum1] at hint
  rw [List.length_map] at hint
  simp only [List.length_nil, List.length_cons, List.length_singleton]
  omega

theorem inter_rep_ends : ∀ (n : Nat), ∃ X,
    List.intercalate [nl] (List.replicate (n + 1) (List.replicate 65507 'a')) =
      X ++ List.replicate 65507 'a' := by
  intro n
  induction n with
  | zero =>
    refine ⟨[], ?_⟩
    rw [List.replicate_succ]
    simp only [List.replicate_zero]
    rw [intercalate_one, List.nil_append]
  | succ m ih =>
    obtain ⟨X, hX⟩ := ih
    refine ⟨List.replicate 65507 'a' ++ [nl] ++ X, ?_⟩
    rw [List.replicate_succ (List.replicate 65507 'a') (m + 1),
        List.replicate_succ (List.replicate 65507 'a') m]
    rw [intercalate_cons_cons]
    rw [← List.replicate_succ (List.replicate 65507 'a') m]
    rw [hX]
    rw [← List.append_assoc]

theorem encsize_repA (n : Nat) :
    _encoded_size cpLatin1 (List.replicate (n + 1) (List.replicate 65507 'a')) =
      .ok ((n + 1) * 65507 + n + 1) := by
  obtain ⟨X, hX⟩ := inter_rep_ends n
  have hjc : joinedContent (List.replicate (n + 1) (List.replicate 65507 'a')) =
      List.intercalate [nl] (List.replicate (n + 1) (List.replicate 65507 'a')) ++ [nl] := by
    unfold joinedContent
    rw [hX]
    rw [show (65507 : Nat) = 65506 + 1 from by norm_num]
    rw [List.replicate_succ']
    rw [← List.append_assoc]
    rw [rstripNl_append_ne _ 'a' (by decide)]
  have hrepall : ∀ li ∈ List.replicate (n + 1) (List.replicate 65507 'a'),
      ∀ c ∈ li, c.toNat < 256 := by
    intro li hli
    rw [List.eq_of_mem_replicate hli]
    exact all256_replicate 65507 (by decide)
  have hall : ∀ c ∈ List.intercalate [nl]
      (List.replicate (n + 1) (List.replicate 65507 'a')) ++ [nl], c.toNat < 256 :=
    all256_append (all256_intercalate _ hrepall) (by decide)
  rw [latin1_encoded_size_eq _ _ hjc hall]
  congr 1
  rw [List.length_append]
  have hint := intercalate_length (List.replicate (n + 1) (List.replicate 65507 'a'))
    (by
      intro h
      have h2 := congrArg List.length h
      rw [List.length_replicate, List.length_nil] at h2
      exact Nat.succ_ne_zero n h2)
  rw [List.map_replicate, List.length_replicate, List.length_replicate,
    sum_replicate_nat] at hint
  simp only [List.length_singleton]
  omega

theorem encodeLinesGo_repA : ∀ (n i : Nat) (fn : Str),
    encodeLinesGo cpLatin1 fn i (List.replicate n (List.replicate 65507 'a')) =
      .ok (List.replicate n
        (List.replicate 65507 'a', List.replicate 65507 (97 : Nat) ++ [10])) := by
  intro n
  induction n with
  | zero => intro i fn; rfl
  | succ m ih =>
    intro i fn
    rw [List.replicate_succ, List.replicate_succ]
    exact encodeLinesGo_cons _ _ _ _ _ _ _ (replicate_a_encodeLine 65507)
      (by rw [List.length_append, List.length_replicate]; norm_num [AMA_MAX_BYTES])
      (ih (i + 1) fn)

theorem splitLoop_unit (nm : Str) (l : EncLine) (hlen : l.2.length = 65508) :
    ∀ (n : Nat) (segs : List (List EncLine)) (fuel0 : Nat), fuel0 = 2 * n + 2 →
      splitLoop nm 27 fuel0 (List.replicate (n + 1) l) [] 0 segs =
        some (.ok (segs ++ List.replicate (n + 1) [l])) := by
  intro n
  induction n with
  | zero =>
    intro segs fuel0 hf
    rw [List.replicate_succ]
    simp only [List.replicate_zero]
    rw [splitLoop_step_add nm 27 fuel0 1 l [] [] 0 65508 65508 segs (by omega) hlen
      (by norm_num [AMA_MAX_BYTES]) (by norm_num)]
    rw [splitLoop_done nm 27 1 0 [l] 65508 segs rfl]
    rw [if_neg (List.cons_ne_nil l [])]
    rw [List.replicate_succ]
    simp only [List.replicate_zero]
    rfl
  | succ m ih =>
    intro segs fuel0 hf
    rw [List.replicate_succ]
    rw [splitLoop_step_add nm 27 fuel0 (2 * m + 3) l _ [] 0 65508 65508 segs (by omega)
      hlen (by norm_num [AMA_MAX_BYTES]) (by norm_num)]
    rw [List.replicate_succ]
    rw [splitLoop_step_flush nm 27 (2 * m + 3) (2 * m + 2) l _ [l] [l] _ 65508 65508 65508
      segs (segs ++ [[l]]) (by omega) hlen (by norm_num [AMA_MAX_BYTES])
      (List.cons_ne_nil l []) ?hp ?hs]
    case hp =>
      rw [popLoop_cons]
      rw [if_neg (by norm_num [AMA_MAX_BYTES])]
    case hs =>
      rw [show ([l] : List EncLine).reverse = [l] from rfl]
    rw [← List.replicate_succ]
    rw [ih (segs ++ [[l]]) (2 * m + 2) rfl]
    rw [List.append_assoc]
    rw [show ([[l]] : List (List EncLine)) ++ List.replicate (m + 1) [l] =
      List.replicate (m + 1 + 1) [l] from by
      rw [List.replicate_succ ([l] : List EncLine) (m + 1)]
      rfl]

theorem filter_ne_nil_replicate (k : Nat) (a : List EncLine) (ha : a ≠ []) :
    (List.replicate k a).filter (fun s => s ≠ []) = List.replicate k a := by
  rw [List.filter_eq_self]
  intro b hb
  rw [List.eq_of_mem_replicate hb]
  simpa using ha

theorem segNameLoop_first (stem : Str) (idx : Nat) (existing : List Str)
    (fuel counter : Nat) (name : Str) (hf : fuel ≠ 0) (h : name ∉ existing) :
    segNameLoop stem idx existing fuel counter name = some name := by
  cases fuel with
  | zero => exact absurd rfl hf
  | succ f =>
    simp only [segNameLoop]
    rw [if_neg h]

theorem specSegmentNameA (k : Nat) (hk : k ≠ 0) :
    specSegmentName (str "A.AMA") k = str "A" ++ fmt02 k ++ str ".AMA" := by
  unfold specSegmentName
  rw [if_neg hk]
  unfold segCandidate
  rw [show pathStem (str "A.AMA") = str "A" from rfl]
  rw [List.take_of_length_le (by
    rw [show (str "A").length = 1 from rfl]
    exact le_max_left 1 _)]

theorem nameA_ne_filename (k : Nat) (hk : k ≠ 0) :
    str "A" ++ fmt02 k ++ str ".AMA" ≠ str "A.AMA" := by
  intro h
  rw [show str "A.AMA" = (str "A" ++ ([] : Str)) ++ str ".AMA" from rfl] at h
  have h2 : str "A" ++ fmt02 k = str "A" ++ ([] : Str) :=
    List.append_cancel_right h
  have h3 : fmt02 k = [] := List.append_cancel_left h2
  exact fmt02_ne_nil k h3

theorem nameA_inj (k j : Nat) (hkj : k ≠ j) :
    str "A" ++ fmt02 k ++ str ".AMA" ≠ str "A" ++ fmt02 j ++ str ".AMA" := by
  intro h
  have h2 : str "A" ++ fmt02 k = str "A" ++ fmt02 j := List.append_cancel_right h
  have h3 : fmt02 k = fmt02 j := List.append_cancel_left h2
  exact hkj (fmt02_inj k j h3)

theorem notmemA (i : Nat) (hi : i ≠ 0) (js : List Nat)
    (hjs : ∀ j ∈ js, j ≠ 0 ∧ j ≠ i) :
    specSegmentName (str "A.AMA") i ∉
      str "A.AMA" :: js.map (specSegmentName (str "A.AMA")) := by
  intro hmem
  rcases List.mem_cons.1 hmem with h1 | h2
  · rw [specSegmentNameA i hi] at h1
    exact nameA_ne_filename i hi h1
  · rcases List.mem_map.1 h2 with ⟨j, hjmem, hje⟩
    obtain ⟨hj0, hji⟩ := hjs j hjmem
    rw [specSegmentNameA i hi, specSegmentNameA j hj0] at hje
    exact nameA_inj j i (fun he => hji he) hje

theorem genNamesA_run (fuel : Nat) (hf : fuel ≠ 0) : ∀ (cnt idx : Nat),
    genNamesGo (str "A.AMA") (str "A") fuel cnt (idx + 1)
      (str "A.AMA" :: (List.range' 1 idx).map (specSegmentName (str "A.AMA"))) =
      some ((List.range' (idx + 1) cnt).map (specSegmentName (str "A.AMA"))) := by
  intro cnt
  induction cnt with
  | zero =>
    intro idx
    simp only [genNamesGo]
    rfl
  | succ m ih =>
    intro idx
    simp only [genNamesGo]
    rw [if_neg (Nat.succ_ne_zero idx)]
    have hcand : segCandidate (str "A") (fmt02 (idx + 1)) =
        specSegmentName (str "A.AMA") (idx + 1) := by
      rw [specSegmentNameA (idx + 1) (Nat.succ_ne_zero idx)]
      unfold segCandidate
      rw [List.take_of_length_le (by
        rw [show (str "A").length = 1 from rfl]
        exact le_max_left 1 _)]
    rw [hcand]
    rw [segNameLoop_first (str "A") (idx + 1) _ fuel 1 _ hf
      (notmemA (idx + 1) (Nat.succ_ne_zero idx) (List.range' 1 idx) (by
        intro j hj
        rw [List.mem_range'_1] at hj
        omega))]
    dsimp only
    rw [show (str "A.AMA" :: (List.range' 1 idx).map (specSegmentName (str "A.AMA"))) ++
        [specSegmentName (str "A.AMA") (idx + 1)] =
        str "A.AMA" :: (List.range' 1 (idx + 1)).map (specSegmentName (str "A.AMA")) from by
      rw [List.cons_append]
      rw [List.range'_concat 1 idx]
      rw [List.map_append]
      rw [show (1 : Nat) + 1 * idx = idx + 1 from by ring]
      rfl]
    rw [ih (idx + 1)]
    dsimp only
    rw [List.range'_succ (idx + 1) m 1]
    rw [List.map_cons]

theorem genSegNamesA (fuel : Nat) (hf : fuel ≠ 0) (cnt : Nat) :
    genSegNames (str "A.AMA") fuel (cnt + 1) =
      some (str "A.AMA" :: (List.range' 1 cnt).map (specSegmentName (str "A.AMA"))) := by
  unfold genSegNames
  rw [show pathStem (str "A.AMA") = str "A" from rfl]
  simp only [genNamesGo]
  simp only [if_true]
  rw [show ([] : List Str) ++ [str "A.AMA"] =
    str "A.AMA" :: (List.range' 1 0).map (specSegmentName (str "A.AMA")) from rfl]
  rw [genNamesA_run fuel hf cnt 0]

theorem buildSegResult_cons_err (cp : CodepageInfo) (nm : Str) (seg : List Str)
    (next : Str × List Str) (rest : List (Str × List Str)) (sz : Nat) (e : MamblerError)
    (h1 : _encoded_size cp (seg ++ [[], trailerLine next.1]) = .ok sz)
    (h2 : ¬ AMA_MAX_BYTES < sz)
    (h3 : buildSegResult cp (next :: rest) = .error e) :
    buildSegResult cp ((nm, seg) :: next :: rest) = .error e := by
  simp only [buildSegResult, h1]
  rw [if_neg h2, h3]

theorem buildSegResult_cons_fail (cp : CodepageInfo) (nm : Str) (seg : List Str)
    (next : Str × List Str) (rest : List (Str × List Str)) (sz : Nat)
    (h1 : _encoded_size cp (seg ++ [[], trailerLine next.1]) = .ok sz)
    (h2 : AMA_MAX_BYTES < sz) :
    buildSegResult cp ((nm, seg) :: next :: rest) = .error (.splitInfeasible nm) := by
  simp only [buildSegResult, h1]
  rw [if_pos h2]

theorem encsizeA_one (nm : Str) (hnm : ∀ c ∈ nm, c.toNat < 256) :
    _encoded_size cpLatin1 [List.replicate 65507 'a', [], trailerLine nm] =
      .ok (65523 + nm.length) := by
  have hjc : joinedContent [List.replicate 65507 'a', [], trailerLine nm] =
      (((List.replicate 65507 'a' ++ [nl]) ++ ([] ++ [nl])) ++ trailerLine nm) ++ [nl] := by
    unfold joinedContent
    rw [intercalate_cons_cons, intercalate_cons_cons, intercalate_one]
    rw [← List.append_assoc]
    rw [rstripNl_trailer]
  have h0 := latin1_encoded_size_eq _ _ hjc
    (all256_append (all256_append (all256_append
      (all256_append (all256_replicate 65507 (by decide)) (by decide))
      (by decide)) (all256_trailer nm hnm)) (by decide))
  rw [h0]
  simp only [Except.ok.injEq]
  rw [List.length_append, List.length_append, List.length_append, List.length_append,
    List.length_append]
  rw [List.length_replicate, trailerLine_length]
  rw [show ([nl] : Str).length = 1 from rfl, show ([] : Str).length = 0 from rfl]
  omega

theorem all256_fmt02 (k : Nat) : ∀ c ∈ fmt02 k, c.toNat < 256 := by
  have hrep : ∀ c ∈ pyRepr k, c.toNat < 256 := by
    unfold pyRepr
    by_cases h0 : k = 0
    · rw [if_pos h0]
      decide
    · rw [if_neg h0]
      intro c hc
      rcases List.mem_map.1 hc with ⟨d, hd, he⟩
      rw [← he, decChar_toNat d (decDigitsAux_lt10 k k d hd)]
      have := decDigitsAux_lt10 k k d hd
      omega
  unfold fmt02
  by_cases hl : (pyRepr k).length < 2
  · rw [if_pos hl]
    intro c hc
    rcases List.mem_cons.1 hc with h1 | h2
    · rw [h1]; decide
    · exact hrep c h2
  · rw [if_neg hl]
    exact hrep

theorem specSegmentNameA_all256 (k : Nat) (hk : k ≠ 0) :
    ∀ c ∈ specSegmentName (str "A.AMA") k, c.toNat < 256 := by
  rw [specSegmentNameA k hk]
  exact all256_append (all256_append (by decide) (all256_fmt02 k)) (by decide)

theorem specSegmentNameA_length (k : Nat) (hk : k ≠ 0) :
    (specSegmentName (str "A.AMA") k).length = 5 + (fmt02 k).length := by
  rw [specSegmentNameA k hk]
  rw [List.length_append, List.length_append]
  rw [show (str "A").length = 1 from rfl, show (str ".AMA").length = 4 from rfl]
  omega

theorem buildSegA_err : ∀ (j k : Nat), 1 ≤ k → k + j = 9999999 →
    buildSegResult cpLatin1
      ((specSegmentName (str "A.AMA") k, [List.replicate 65507 'a']) ::
        (List.range' (k + 1) (j + 1)).map
          (fun i => (specSegmentName (str "A.AMA") i, [List.replicate 65507 'a']))) =
      .error (.splitInfeasible (specSegmentName (str "A.AMA") 9999999)) := by
  intro j
  induction j with
  | zero =>
    intro k hk1 hk
    have hk9 : k = 9999999 := by omega
    subst hk9
    rw [show (0 : Nat) + 1 = 1 from rfl]
    rw [List.range'_one]
    rw [List.map_cons, List.map_nil]
    have hlen : (specSegmentName (str "A.AMA") (9999999 + 1)).length = 13 := by
      rw [specSegmentNameA_length _ (by omega)]
      rw [show (fmt02 (9999999 + 1)).length = 8 from by rfl]
    exact buildSegResult_cons_fail cpLatin1 _ _ _ _
      (65523 + (specSegmentName (str "A.AMA") (9999999 + 1)).length)
      (encsizeA_one _ (specSegmentNameA_all256 (9999999 + 1) (by omega)))
      (by
        rw [hlen]
        norm_num [AMA_MAX_BYTES])
  | succ jj ih =>
    intro k hk1 hk
    rw [List.range'_succ (k + 1) (jj + 1) 1]
    rw [List.map_cons]
    refine buildSegResult_cons_err cpLatin1 _ _ _ _
      (65523 + (specSegmentName (str "A.AMA") (k + 1)).length) _
      (encsizeA_one _ (specSegmentNameA_all256 (k + 1) (by omega))) ?hb ?hrec
    case hb =>
      have h10 : (10 : Nat) ^ 7 = 10000000 := by norm_num
      have h7 : (fmt02 (k + 1)).length ≤ 7 := fmt02_len_le (k + 1) (by omega)
      rw [specSegmentNameA_length _ (by omega)]
      rw [show AMA_MAX_BYTES = 65535 from rfl]
      omega
    case hrec =>
      exact ih (k + 1) (by omega) (by omega)

theorem buildSegA_full :
    buildSegResult cpLatin1
      ((str "A.AMA", [List.replicate 65507 'a']) ::
        (List.range' 1 (10 ^ 7)).map
          (fun i => (specSegmentName (str "A.AMA") i, [List.replicate 65507 'a']))) =
      .error (.splitInfeasible (specSegmentName (str "A.AMA") 9999999)) := by
  rw [show (10 : Nat) ^ 7 = 9999998 + 1 + 1 from by norm_num]
  rw [List.range'_succ 1 (9999998 + 1) 1]
  rw [List.map_cons]
  refine buildSegResult_cons_err cpLatin1 _ _ _ _
    (65523 + (specSegmentName (str "A.AMA") 1).length) _
    (encsizeA_one _ (specSegmentNameA_all256 1 (by omega))) ?ha ?hb
  case ha =>
    rw [show (specSegmentName (str "A.AMA") 1).length = 7 from by rfl]
    norm_num [AMA_MAX_BYTES]
  case hb =>
    exact buildSegA_err 9999998 1 le_rfl (by omega)

theorem zipmapA : ∀ (ks : List Nat) (m : Nat), ks.length = m →
    (ks.map (specSegmentName (str "A.AMA"))).zip
      (List.replicate m [List.replicate 65507 'a']) =
    ks.map (fun i => (specSegmentName (str "A.AMA") i, [List.replicate 65507 'a'])) := by
  intro ks
  induction ks with
  | nil =>
    intro m h
    subst h
    rfl
  | cons i t ih =>
    intro m h
    cases m with
    | zero => exact absurd h (by simp)
    | succ m2 =>
      rw [List.replicate_succ ([List.replicate 65507 'a']) m2]
      rw [List.map_cons, List.zip_cons_cons, List.map_cons]
      rw [ih m2 (by simpa using h)]

theorem splitA_big :
    split_article (2 * 10 ^ 7 + 2) (str "A.AMA")
      (List.replicate (10 ^ 7 + 1) (List.replicate 65507 'a')) cpLatin1 =
      some (.error (.splitInfeasible (specSegmentName (str "A.AMA") 9999999))) := by
  have hB : ((List.replicate 65507 'a', List.replicate 65507 (97 : Nat) ++ [10]) :
      EncLine).2.length = 65508 := by
    rw [show ((List.replicate 65507 'a', List.replicate 65507 (97 : Nat) ++ [10]) :
      EncLine).2 = List.replicate 65507 (97 : Nat) ++ [10] from rfl]
    rw [List.length_append, List.length_replicate, List.length_singleton]
  have hloop : splitLoop (str "A.AMA") 27 (2 * 10 ^ 7 + 2)
      (List.replicate (10 ^ 7 + 1)
        (List.replicate 65507 'a', List.replicate 65507 (97 : Nat) ++ [10])) [] 0 [] =
      some (.ok (List.replicate (10 ^ 7 + 1)
        [(List.replicate 65507 'a', List.replicate 65507 (97 : Nat) ++ [10])])) := by
    have h := splitLoop_unit (str "A.AMA")
      (List.replicate 65507 'a', List.replicate 65507 (97 : Nat) ++ [10]) hB
      (10 ^ 7) [] (2 * 10 ^ 7 + 2) rfl
    rw [List.nil_append] at h
    exact h
  have hfuelne : (2 * 10 ^ 7 + 2 : Nat) ≠ 0 := by norm_num
  have hgen : genSegNames (str "A.AMA") (2 * 10 ^ 7 + 2)
      (List.replicate (10 ^ 7 + 1)
        [(List.replicate 65507 'a', List.replicate 65507 (97 : Nat) ++ [10])]).length =
      some (str "A.AMA" ::
        (List.range' 1 (10 ^ 7)).map (specSegmentName (str "A.AMA"))) := by
    rw [List.length_replicate]
    exact genSegNamesA (2 * 10 ^ 7 + 2) hfuelne (10 ^ 7)
  have hrun := split_article_run (2 * 10 ^ 7 + 2) (str "A.AMA")
    (List.replicate (10 ^ 7 + 1) (List.replicate 65507 'a')) cpLatin1
    ((10 ^ 7 + 1) * 65507 + 10 ^ 7 + 1) 27
    (List.replicate (10 ^ 7 + 1)
      (List.replicate 65507 'a', List.replicate 65507 (97 : Nat) ++ [10]))
    (List.replicate (10 ^ 7 + 1)
      [(List.replicate 65507 'a', List.replicate 65507 (97 : Nat) ++ [10])])
    (List.replicate (10 ^ 7 + 1)
      [(List.replicate 65507 'a', List.replicate 65507 (97 : Nat) ++ [10])])
    (str "A.AMA" :: (List.range' 1 (10 ^ 7)).map (specSegmentName (str "A.AMA")))
    (encsize_repA (10 ^ 7)) (by norm_num [AMA_MAX_BYTES])
    (encodeLinesGo_repA (10 ^ 7 + 1) 0 (str "A.AMA")) latin1_overhead hloop
    (filter_ne_nil_replicate (10 ^ 7 + 1) _ (List.cons_ne_nil _ _))
    (by
      intro h
      have h2 := congrArg List.length h
      rw [List.length_replicate, List.length_nil] at h2
      exact Nat.succ_ne_zero _ h2)
    hgen
  rw [hrun]
  rw [List.map_replicate]
  rw [show (([(List.replicate 65507 'a', List.replicate 65507 (97 : Nat) ++ [10])] :
      List EncLine).map Prod.fst) = [List.replicate 65507 'a'] from by
    rw [List.map_cons, List.map_nil]]
  rw [List.replicate_succ ([List.replicate 65507 'a']) (10 ^ 7)]
  rw [List.zip_cons_cons]
  rw [zipmapA (List.range' 1 (10 ^ 7)) (10 ^ 7) (List.length_range' 1 1 (10 ^ 7))]
  rw [buildSegA_full]

/-- Claim C3, counterexample: an article of 10,000,001 lines of 65,507 `a`s
splits into 10,000,001 one-line segments; the continuation name for segment
index 10^7 is `A10000000.AMA` — 13 characters, exceeding the 12-character
placeholder the overhead estimate reserved — so the trailer no longer fits
and `split_article` returns the SplitInfeasible error the claim calls
unreachable. -/
theorem C3_counterexample :
    split_article (2 * 10 ^ 7 + 2) (str "A.AMA")
      (List.replicate (10 ^ 7 + 1) (List.replicate 65507 'a')) cpLatin1 =
      some (.error (.splitInfeasible (specSegmentName (str "A.AMA") 9999999))) ∧
    12 < (specSegmentName (str "A.AMA") (10 ^ 7)).length :=
  ⟨splitA_big, by decide⟩

theorem encodeFrom_ok_len (cp : CodepageInfo) : ∀ (s : Str) (i : Nat) (bs : List Byte),
    encodeFrom cp i s = .ok bs → bs.length = s.length := by
  intro s
  induction s with
  | nil =>
    intro i bs h
    injection h with h1
    rw [← h1]
    rfl
  | cons c cs ih =>
    intro i bs h
    simp only [encodeFrom] at h
    rcases hc : cp.encodeChar c with _ | b
    · rw [hc] at h
      dsimp only at h
      exact Except.noConfusion h
    · rw [hc] at h
      dsimp only at h
      rcases hr : encodeFrom cp (i + 1) cs with e | bs2
      · rw [hr] at h
        dsimp only at h
        exact Except.noConfusion h
      · rw [hr] at h
        dsimp only at h
        injection h with h1
        rw [← h1, List.length_cons, List.length_cons, ih (i + 1) bs2 hr]

theorem encodeFrom_err_kind (cp : CodepageInfo) : ∀ (s : Str) (i : Nat) (e : MamblerError),
    encodeFrom cp i s = .error e → ∃ j, e = .unicodeEncodeErr cp.canonical j := by
  intro s
  induction s with
  | nil =>
    intro i e h
    exact Except.noConfusion h
  | cons c cs ih =>
    intro i e h
    simp only [encodeFrom] at h
    rcases hc : cp.encodeChar c with _ | b
    · rw [hc] at h
      dsimp only at h
      injection h with h1
      exact ⟨i, h1.symm⟩
    · rw [hc] at h
      dsimp only at h
      rcases hr : encodeFrom cp (i + 1) cs with e2 | bs2
      · rw [hr] at h
        dsimp only at h
        injection h with h1
        rw [← h1]
        exact ih (i + 1) e2 hr
      · rw [hr] at h
        dsimp only at h
        exact Except.noConfusion h

theorem latin1_encodeFrom_all256 : ∀ (s : Str) (i : Nat) (bs : List Byte),
    encodeFrom cpLatin1 i s = .ok bs → ∀ c ∈ s, c.toNat < 256 := by
  intro s
  induction s with
  | nil =>
    intro i bs _ c hc
    exact absurd hc (List.not_mem_nil c)
  | cons c0 cs ih =>
    intro i bs h c hc
    simp only [encodeFrom] at h
    by_cases h256 : c0.toNat < 256
    · rcases List.mem_cons.1 hc with h1 | h2
      · rw [h1]
        exact h256
      · rcases hcc : cpLatin1.encodeChar c0 with _ | b
        · rw [hcc] at h
          dsimp only at h
          exact Except.noConfusion h
        · rw [hcc] at h
          dsimp only at h
          rcases hr : encodeFrom cpLatin1 (i + 1) cs with e | bs2
          · rw [hr] at h
            dsimp only at h
            exact Except.noConfusion h
          · exact ih (i + 1) bs2 hr c h2
    · exfalso
      have hnone : cpLatin1.encodeChar c0 = none := by
        show (if c0.toNat < 256 then some c0.toNat else none) = none
        rw [if_neg h256]
      rw [hnone] at h
      dsimp only at h
      exact Except.noConfusion h

theorem encoded_size_err (cp : CodepageInfo) (lines : List Str) (e : MamblerError)
    (h : _encoded_size cp lines = .error e) :
    ∃ j, e = .unicodeEncodeErr cp.canonical j := by
  unfold _encoded_size at h
  rcases h2 : cp.encode (joinedContent lines) with e2 | bs
  · rw [h2] at h
    dsimp only at h
    injection h with h1
    rw [← h1]
    exact encodeFrom_err_kind cp (joinedContent lines) 0 e2 h2
  · rw [h2] at h
    dsimp only at h
    exact Except.noConfusion h

theorem encodeLinesGo_err_kind (cp : CodepageInfo) (fn : Str) :
    ∀ (lines : List Str) (i : Nat) (e : MamblerError),
    encodeLinesGo cp fn i lines = .error e →
    (∃ a b, e = .articleUnencodable a b) ∨ ∃ a, e = .lineTooLarge a := by
  intro lines
  induction lines with
  | nil =>
    intro i e h
    exact Except.noConfusion h
  | cons line rest ih =>
    intro i e h
    simp only [encodeLinesGo] at h
    rcases hl : _encode_line cp line with e2 | bs
    · rw [hl] at h
      dsimp only at h
      injection h with h1
      exact Or.inl ⟨fn, i + 1, h1.symm⟩
    · rw [hl] at h
      dsimp only at h
      by_cases hb : AMA_MAX_BYTES < bs.length
      · rw [if_pos hb] at h
        injection h with h1
        exact Or.inr ⟨fn, h1.symm⟩
      · rw [if_neg hb] at h
        rcases hr : encodeLinesGo cp fn (i + 1) rest with e2 | ls
        · rw [hr] at h
          dsimp only at h
          injection h with h1
          rw [← h1]
          exact ih (i + 1) e2 hr
        · rw [hr] at h
          dsimp only at h
          exact Except.noConfusion h

theorem continueOverhead_err (cp : CodepageInfo) (e : MamblerError)
    (h : continueOverhead cp = .error e) :
    ∃ j, e = .unicodeEncodeErr cp.canonical j := by
  unfold continueOverhead at h
  rcases h1 : _encode_line cp [] with e1 | b1
  · rw [h1] at h
    dsimp only at h
    injection h with h2
    rw [← h2]
    exact encodeFrom_err_kind cp _ 0 e1 h1
  · rw [h1] at h
    dsimp only at h
    rcases h2 : _encode_line cp (trailerLine placeholderTarget) with e2 | b2
    · rw [h2] at h
      dsimp only at h
      injection h with h3
      rw [← h3]
      exact encodeFrom_err_kind cp _ 0 e2 h2
    · rw [h2] at h
      dsimp only at h
      exact Except.noConfusion h

theorem splitLoop_err_kind (nm : Str) (ov : Nat) : ∀ (fuel : Nat)
    (rest curRev : List EncLine) (size : Nat) (segs : List (List EncLine))
    (e : MamblerError),
    splitLoop nm ov fuel rest curRev size segs = some (.error e) →
    ∃ a, e = .lineTooLarge a := by
  intro fuel
  induction fuel with
  | zero =>
    intro rest curRev size segs e h
    exact Option.noConfusion h
  | succ f ih =>
    intro rest curRev size segs e h
    cases rest with
    | nil =>
      simp only [splitLoop] at h
      injection h with h1
      exact Except.noConfusion h1
    | cons l t =>
      simp only [splitLoop] at h
      by_cases hfit : size + l.2.length ≤ AMA_MAX_BYTES
      · rw [if_pos hfit] at h
        exact ih t (l :: curRev) (size + l.2.length) segs e h
      · rw [if_neg hfit] at h
        by_cases hcur : curRev = []
        · rw [if_pos hcur] at h
          injection h with h1
          injection h1 with h2
          exact ⟨nm, h2.symm⟩
        · rw [if_neg hcur] at h
          rcases hp : popLoop ov curRev size (l :: t) with ⟨cur2, s2, rest2⟩
          rw [hp] at h
          dsimp only at h
          exact ih rest2 [] 0 (segs ++ [cur2.reverse]) e h

theorem encodeLinesGo_inv (cp : CodepageInfo) (fn : Str) : ∀ (lines : List Str) (i : Nat)
    (encLines : List EncLine), encodeLinesGo cp fn i lines = .ok encLines →
    ∀ l ∈ encLines, cp.encode (l.1 ++ [nl]) = .ok l.2 := by
  intro lines
  induction lines with
  | nil =>
    intro i encLines h l hl
    injection h with h1
    rw [← h1] at hl
    exact absurd hl (List.not_mem_nil l)
  | cons line rest ih =>
    intro i encLines h l hl
    simp only [encodeLinesGo] at h
    rcases he : _encode_line cp line with e | bs
    · rw [he] at h
      dsimp only at h
      exact Except.noConfusion h
    · rw [he] at h
      dsimp only at h
      by_cases hb : AMA_MAX_BYTES < bs.length
      · rw [if_pos hb] at h
        exact Except.noConfusion h
      · rw [if_neg hb] at h
        rcases hr : encodeLinesGo cp fn (i + 1) rest with e | ls
        · rw [hr] at h
          dsimp only at h
          exact Except.noConfusion h
        · rw [hr] at h
          dsimp only at h
          injection h with h1
          rw [← h1] at hl
          rcases List.mem_cons.1 hl with h2 | h2
          · rw [h2]
            exact he
          · exact ih (i + 1) ls hr l h2

theorem popLoop_inv (ov : Nat) : ∀ (curRev : List EncLine) (size : Nat)
    (rest cur2 rest2 : List EncLine) (s2 : Nat),
    size = (curRev.map (fun l => l.2.length)).sum →
    popLoop ov curRev size rest = (cur2, s2, rest2) →
    s2 = (cur2.map (fun l => l.2.length)).sum ∧
    (cur2 ≠ [] → ¬ AMA_MAX_BYTES < s2 + ov) ∧
    cur2.reverse ++ rest2 = curRev.reverse ++ rest := by
  intro curRev
  induction curRev with
  | nil =>
    intro size rest cur2 rest2 s2 hsize h
    simp only [popLoop] at h
    injection h with h1 h23
    injection h23 with h3 h4
    refine ⟨?_, ?_, ?_⟩
    · rw [← h1, ← h3]
      exact hsize
    · intro hne
      rw [← h1] at hne
      exact absurd rfl hne
    · rw [← h1, ← h4]
  | cons l t ih =>
    intro size rest cur2 rest2 s2 hsize h
    simp only [popLoop] at h
    by_cases hov : AMA_MAX_BYTES < size + ov
    · rw [if_pos hov] at h
      have hsize2 : size - l.2.length = (t.map (fun l => l.2.length)).sum := by
        rw [List.map_cons, List.sum_cons] at hsize
        omega
      obtain ⟨a, b, c⟩ := ih (size - l.2.length) (l :: rest) cur2 rest2 s2 hsize2 h
      refine ⟨a, b, ?_⟩
      rw [c, List.reverse_cons, List.append_assoc]
      rfl
    · rw [if_neg hov] at h
      injection h with h1 h23
      injection h23 with h3 h4
      refine ⟨?_, ?_, ?_⟩
      · rw [← h1, ← h3]
        exact hsize
      · intro _
        rw [← h3]
        exact hov
      · rw [← h1, ← h4]

theorem splitLoop_sizes (nm : Str) (ov : Nat) (Q : EncLine → Prop) : ∀ (fuel : Nat)
    (rest curRev : List EncLine) (size : Nat) (segs segs0 : List (List EncLine)),
    splitLoop nm ov fuel rest curRev size segs = some (.ok segs0) →
    size = (curRev.map (fun l => l.2.length)).sum →
    size ≤ AMA_MAX_BYTES →
    (∀ s ∈ segs, s = [] ∨ (s.map (fun l => l.2.length)).sum + ov ≤ AMA_MAX_BYTES) →
    (∀ l ∈ rest, Q l) → (∀ l ∈ curRev, Q l) →
    (∀ s ∈ segs, ∀ l ∈ s, Q l) →
    (∃ ff fd, segs0 = ff ++ fd ∧
      (∀ s ∈ ff, s = [] ∨ (s.map (fun l => l.2.length)).sum + ov ≤ AMA_MAX_BYTES) ∧
      (fd = [] ∨ ∃ d, fd = [d] ∧ (d.map (fun l => l.2.length)).sum ≤ AMA_MAX_BYTES)) ∧
    (∀ s ∈ segs0, ∀ l ∈ s, Q l) := by
  intro fuel
  induction fuel with
  | zero =>
    intro rest curRev size segs segs0 h _ _ _ _ _ _
    exact Option.noConfusion h
  | succ f ih =>
    intro rest curRev size segs segs0 h hsz hle hsegs hQr hQc hQs
    cases rest with
    | nil =>
      simp only [splitLoop] at h
      injection h with h1
      injection h1 with h2
      by_cases hc : curRev = []
      · rw [if_pos hc] at h2
        rw [← h2]
        exact ⟨⟨segs, [], (List.append_nil segs).symm, hsegs, Or.inl rfl⟩, hQs⟩
      · rw [if_neg hc] at h2
        rw [← h2]
        refine ⟨⟨segs, [curRev.reverse], rfl, hsegs,
          Or.inr ⟨curRev.reverse, rfl, ?_⟩⟩, ?_⟩
        · rw [List.map_reverse, List.sum_reverse, ← hsz]
          exact hle
        · intro s hs x hx
          rcases List.mem_append.1 hs with h3 | h4
          · exact hQs s h3 x hx
          · rw [List.mem_singleton] at h4
            rw [h4] at hx
            exact hQc x (List.mem_reverse.1 hx)
    | cons l t =>
      simp only [splitLoop] at h
      by_cases hfit : size + l.2.length ≤ AMA_MAX_BYTES
      · rw [if_pos hfit] at h
        exact ih t (l :: curRev) (size + l.2.length) segs segs0 h
          (by rw [List.map_cons, List.sum_cons]; omega)
          hfit hsegs (fun x hx => hQr x (by simp [hx]))
          (by
            intro x hx
            rcases List.mem_cons.1 hx with h1 | h2
            · rw [h1]
              exact hQr l (by simp)
            · exact hQc x h2)
          hQs
      · rw [if_neg hfit] at h
        by_cases hcur : curRev = []
        · rw [if_pos hcur] at h
          injection h with h1
          exact Except.noConfusion h1
        · rw [if_neg hcur] at h
          rcases hp : popLoop ov curRev size (l :: t) with ⟨cur2, s2, rest2⟩
          rw [hp] at h
          dsimp only at h
          obtain ⟨hs2, hbound, hjoin⟩ := popLoop_inv ov curRev size (l :: t) cur2 rest2 s2 hsz hp
          have hQrest2 : ∀ x ∈ rest2, Q x := by
            intro x hx
            have hx2 : x ∈ cur2.reverse ++ rest2 := List.mem_append.2 (Or.inr hx)
            rw [hjoin] at hx2
            rcases List.mem_append.1 hx2 with h1 | h2
            · exact hQc x (List.mem_reverse.1 h1)
            · rcases List.mem_cons.1 h2 with h3 | h4
              · rw [h3]
                exact hQr l (by simp)
              · exact hQr x (by simp [h4])
          have hQcur2 : ∀ x ∈ cur2, Q x := by
            intro x hx
            have hx2 : x ∈ cur2.reverse ++ rest2 :=
              List.mem_append.2 (Or.inl (List.mem_reverse.2 hx))
            rw [hjoin] at hx2
            rcases List.mem_append.1 hx2 with h1 | h2
            · exact hQc x (List.mem_reverse.1 h1)
            · rcases List.mem_cons.1 h2 with h3 | h4
              · rw [h3]
                exact hQr l (by simp)
              · exact hQr x (by simp [h4])
          exact ih rest2 [] 0 (segs ++ [cur2.reverse]) segs0 h rfl (Nat.zero_le _)
            (by
              intro s hs
              rcases List.mem_append.1 hs with h1 | h2
              · exact hsegs s h1
              · rw [List.mem_singleton] at h2
                by_cases hc2 : cur2 = []
                · left
                  rw [h2, hc2]
                  rfl
                · right
                  rw [h2, List.map_reverse, List.sum_reverse, ← hs2]
                  have := hbound hc2
                  omega)
            hQrest2 (by intro x hx; exact absurd hx (List.not_mem_nil x))
            (by
              intro s hs x hx
              rcases List.mem_append.1 hs with h1 | h2
              · exact hQs s h1 x hx
              · rw [List.mem_singleton] at h2
                rw [h2] at hx
                exact hQcur2 x (List.mem_reverse.1 hx))

theorem buildSeg_ok : ∀ (segsL : List (List EncLine)) (names : List Str),
    names.length = segsL.length →
    (∀ s ∈ segsL, s ≠ []) →
    (∀ s ∈ segsL.dropLast, (s.map (fun l => l.2.length)).sum + 27 ≤ AMA_MAX_BYTES) →
    (∀ s ∈ segsL, ∀ l ∈ s, (∀ c ∈ l.1, c.toNat < 256) ∧ l.2.length = l.1.length + 1) →
    (∀ nm ∈ names, nm.length ≤ 12 ∧ ∀ c ∈ nm, c.toNat < 256) →
    ∃ out, buildSegResult cpLatin1
      (names.zip (segsL.map (fun s => s.map Prod.fst))) = .ok out := by
  intro segsL
  induction segsL with
  | nil =>
    intro names _ _ _ _ _
    refine ⟨[], ?_⟩
    rw [List.map_nil, List.zip_nil_right]
    rfl
  | cons s t ih =>
    intro names hlen hne hdrop henc hnm
    cases names with
    | nil => exact absurd hlen (by simp)
    | cons nm ns =>
      cases t with
      | nil =>
        cases ns with
        | nil =>
          refine ⟨[(nm, s.map Prod.fst)], ?_⟩
          rw [List.map_cons, List.map_nil, List.zip_cons_cons, List.zip_nil_right]
          exact buildSegResult_single cpLatin1 nm (s.map Prod.fst)
        | cons nm2 ns2 => exact absurd hlen (by simp)
      | cons s2 t2 =>
        cases ns with
        | nil => exact absurd hlen (by simp)
        | cons nm2 ns2 =>
          have hs_mem : s ∈ (s :: s2 :: t2).dropLast := by
            rw [show (s :: s2 :: t2).dropLast = s :: (s2 :: t2).dropLast from rfl]
            simp
          obtain ⟨tail, htail⟩ := ih (nm2 :: ns2) (by simpa using hlen)
            (fun x hx => hne x (by simp [hx]))
            (by
              intro x hx
              apply hdrop
              rw [show (s :: s2 :: t2).dropLast = s :: (s2 :: t2).dropLast from rfl]
              exact List.mem_cons_of_mem s hx)
            (fun x hx l hl => henc x (by simp [hx]) l hl)
            (fun x hx => hnm x (by simp [hx]))
          rw [List.map_cons, List.zip_cons_cons] at htail
          have hsz := seg_encoded_size s (hne s (by simp))
            (fun l hl => henc s (by simp) l hl) nm2 (hnm nm2 (by simp)).2
          refine ⟨(nm, (s.map Prod.fst) ++ [[], trailerLine nm2]) :: tail, ?_⟩
          rw [List.map_cons, List.map_cons, List.zip_cons_cons, List.zip_cons_cons]
          exact buildSegResult_cons cpLatin1 nm (s.map Prod.fst) (nm2, s2.map Prod.fst)
            (ns2.zip (t2.map (fun s => s.map Prod.fst)))
            ((s.map (fun l => l.2.length)).sum + 15 + nm2.length) tail hsz
            (by
              have h1 := hdrop s hs_mem
              have h2 := (hnm nm2 (by simp)).1
              rw [show AMA_MAX_BYTES = 65535 from rfl] at h1 ⊢
              omega)
            htail

theorem filtered_dropLast_strong (ff fd : List (List EncLine))
    (hff : ∀ s ∈ ff, s = [] ∨ (s.map (fun l => l.2.length)).sum + 27 ≤ AMA_MAX_BYTES)
    (hfd : fd = [] ∨ ∃ d, fd = [d]) :
    ∀ s ∈ ((ff ++ fd).filter (fun s => s ≠ [])).dropLast,
      (s.map (fun l => l.2.length)).sum + 27 ≤ AMA_MAX_BYTES := by
  have hstep : ∀ s ∈ ff.filter (fun s => s ≠ []),
      (s.map (fun l => l.2.length)).sum + 27 ≤ AMA_MAX_BYTES := by
    intro s hs
    have h1 := List.mem_of_mem_filter hs
    have h2 := List.of_mem_filter hs
    rcases hff s h1 with h3 | h4
    · exfalso
      rw [h3] at h2
      simp at h2
    · exact h4
  rw [List.filter_append]
  rcases hfd with h1 | ⟨d, h2⟩
  · rw [h1, List.filter_nil, List.append_nil]
    intro s hs
    exact hstep s (List.dropLast_subset _ hs)
  · rw [h2]
    by_cases hd : d = []
    · rw [hd]
      rw [show List.filter (fun s => s ≠ []) [([] : List EncLine)] = [] from by
        rw [List.filter_cons]
        simp]
      rw [List.append_nil]
      intro s hs
      exact hstep s (List.dropLast_subset _ hs)
    · rw [show List.filter (fun s => s ≠ []) [d] = [d] from by
        rw [List.filter_cons]
        simp [hd]]
      rw [List.dropLast_concat]
      exact hstep

/-- Claim C3 (amended): under the latin-1 page, a SplitInfeasible error can
only arise when the continuation-name generator emits, for the very split
that fails, a name longer than the 12-character placeholder the overhead
estimate reserved (or one with characters outside the page).  Stated over the
failing run itself: a SplitInfeasible outcome exposes the run's encoded
lines, the planner's segments and the names generated for exactly those
segments, whose trailer pass is the failing one — and among those names one
exceeds 12 characters or carries a non-8-bit character.  Within 12-character
encodable names the planner's softer pre-pop (27 bytes = blank line +
2-byte link + 12-character placeholder + label + newlines) really does keep
every non-terminal segment with its actual trailer within AMA_MAX_BYTES, as
the claim asserts; but the 8-digit suffix of segment 10^7 breaks the bound
(`C3_counterexample`). -/
theorem C3_splitInfeasible_needs_oversize_name (fuel : Nat) (filename x : Str)
    (lines : List Str)
    (herr : split_article fuel filename lines cpLatin1 =
      some (.error (.splitInfeasible x))) :
    ∃ encLines segs0 names,
      encodeLinesGo cpLatin1 filename 0 lines = .ok encLines ∧
      splitLoop filename 27 fuel encLines [] 0 [] = some (.ok segs0) ∧
      genSegNames filename fuel ((segs0.filter (fun s => s ≠ [])).length) = some names ∧
      buildSegResult cpLatin1 (names.zip ((segs0.filter (fun s => s ≠ [])).map
        (fun s => s.map Prod.fst))) = .error (.splitInfeasible x) ∧
      ∃ nm ∈ names, 12 < nm.length ∨ ∃ c ∈ nm, 256 ≤ c.toNat := by
  unfold split_article at herr
  rcases hs : _encoded_size cpLatin1 lines with e | sz
  · rw [hs] at herr
    dsimp only at herr
    injection herr with h1
    injection h1 with h2
    obtain ⟨j, hj⟩ := encoded_size_err cpLatin1 lines e hs
    rw [hj] at h2
    exact MamblerError.noConfusion h2
  · rw [hs] at herr
    dsimp only at herr
    by_cases hle : sz ≤ AMA_MAX_BYTES
    · rw [if_pos hle] at herr
      injection herr with h1
      exact Except.noConfusion h1
    · rw [if_neg hle] at herr
      rcases hel : encodeLinesGo cpLatin1 filename 0 lines with e | encLines
      · rw [hel] at herr
        dsimp only at herr
        injection herr with h1
        injection h1 with h2
        rcases encodeLinesGo_err_kind cpLatin1 filename lines 0 e hel with ⟨a, b, hab⟩ | ⟨a, ha⟩
        · rw [hab] at h2
          exact MamblerError.noConfusion h2
        · rw [ha] at h2
          exact MamblerError.noConfusion h2
      · rw [hel] at herr
        dsimp only at herr
        rcases hov : continueOverhead cpLatin1 with e | ov
        · rw [hov] at herr
          dsimp only at herr
          injection herr with h1
          injection h1 with h2
          obtain ⟨j, hj⟩ := continueOverhead_err cpLatin1 e hov
          rw [hj] at h2
          exact MamblerError.noConfusion h2
        · rw [hov] at herr
          dsimp only at herr
          have hov27 : ov = 27 := by
            have h := latin1_overhead
            rw [hov] at h
            injection h
          subst hov27
          rcases hsl : splitLoop filename 27 fuel encLines [] 0 [] with _ | res
          · rw [hsl] at herr
            dsimp only at herr
            exact Option.noConfusion herr
          · rw [hsl] at herr
            rcases res with e | segs0
            · dsimp only at herr
              injection herr with h1
              injection h1 with h2
              obtain ⟨a, ha⟩ := splitLoop_err_kind filename 27 fuel encLines [] 0 [] e hsl
              rw [ha] at h2
              exact MamblerError.noConfusion h2
            · dsimp only at herr
              by_cases hemp : segs0.filter (fun s => s ≠ []) = []
              · rw [if_pos hemp] at herr
                injection herr with h1
                exact Except.noConfusion h1
              · rw [if_neg hemp] at herr
                rcases hgen : genSegNames filename fuel
                    (segs0.filter (fun s => s ≠ [])).length with _ | names
                · rw [hgen] at herr
                  dsimp only at herr
                  exact Option.noConfusion herr
                · rw [hgen] at herr
                  dsimp only at herr
                  injection herr with h1
                  refine ⟨encLines, segs0, names, rfl, hsl, hgen, h1, ?_⟩
                  by_contra hno
                  push_neg at hno
                  have hQ := encodeLinesGo_inv cpLatin1 filename lines 0 encLines hel
                  obtain ⟨⟨ff, fd, hdecomp, hff, hfd⟩, hQseg⟩ :=
                    splitLoop_sizes filename 27
                      (fun l => (∀ c ∈ l.1, c.toNat < 256) ∧ l.2.length = l.1.length + 1)
                      fuel encLines [] 0 [] segs0 hsl rfl (Nat.zero_le _)
                      (by intro s hs2; exact absurd hs2 (List.not_mem_nil s))
                      (by
                        intro l hl
                        have he := hQ l hl
                        refine ⟨?_, ?_⟩
                        · intro c hc
                          exact latin1_encodeFrom_all256 (l.1 ++ [nl]) 0 l.2 he c
                            (List.mem_append.2 (Or.inl hc))
                        · have hlen := encodeFrom_ok_len cpLatin1 (l.1 ++ [nl]) 0 l.2 he
                          rw [List.length_append, List.length_singleton] at hlen
                          exact hlen)
                      (by intro l hl; exact absurd hl (List.not_mem_nil l))
                      (by intro s hs2; exact absurd hs2 (List.not_mem_nil s))
                  have hlen2 : names.length = (segs0.filter (fun s => s ≠ [])).length := by
                    unfold genSegNames at hgen
                    exact genNamesGo_length _ _ _ _ _ _ _ hgen
                  have hne2 : ∀ s ∈ segs0.filter (fun s => s ≠ []), s ≠ [] := by
                    intro s hs2
                    have h3 := List.of_mem_filter hs2
                    simpa using h3
                  have hdrop2 : ∀ s ∈ (segs0.filter (fun s => s ≠ [])).dropLast,
                      (s.map (fun l => l.2.length)).sum + 27 ≤ AMA_MAX_BYTES := by
                    rw [hdecomp]
                    exact filtered_dropLast_strong ff fd hff
                      (hfd.imp id (fun h => ⟨h.choose, h.choose_spec.1⟩))
                  have henc2 : ∀ s ∈ segs0.filter (fun s => s ≠ []), ∀ l ∈ s,
                      (∀ c ∈ l.1, c.toNat < 256) ∧ l.2.length = l.1.length + 1 :=
                    fun s hs2 l hl => hQseg s (List.mem_of_mem_filter hs2) l hl
                  obtain ⟨out, hout⟩ := buildSeg_ok (segs0.filter (fun s => s ≠ [])) names
                    hlen2 hne2 hdrop2 henc2 hno
                  rw [hout] at h1
                  exact Except.noConfusion h1

theorem C3_splitInfeasible_needs_oversize_name_witness :
    ∃ encLines segs0 names,
      encodeLinesGo cpLatin1 (str "A.AMA") 0
        (List.replicate (10 ^ 7 + 1) (List.replicate 65507 'a')) = .ok encLines ∧
      splitLoop (str "A.AMA") 27 (2 * 10 ^ 7 + 2) encLines [] 0 [] = some (.ok segs0) ∧
      genSegNames (str "A.AMA") (2 * 10 ^ 7 + 2)
        ((segs0.filter (fun s => s ≠ [])).length) = some names ∧
      buildSegResult cpLatin1 (names.zip ((segs0.filter (fun s => s ≠ [])).map
        (fun s => s.map Prod.fst))) =
        .error (.splitInfeasible (specSegmentName (str "A.AMA") 9999999)) ∧
      ∃ nm ∈ names, 12 < nm.length ∨ ∃ c ∈ nm, 256 ≤ c.toNat :=
  C3_splitInfeasible_needs_oversize_name (2 * 10 ^ 7 + 2) (str "A.AMA")
    (specSegmentName (str "A.AMA") 9999999)
    (List.replicate (10 ^ 7 + 1) (List.replicate 65507 'a')) splitA_big

theorem rstripNl_ends_rep (X : Str) (m : Nat) (hm : m ≠ 0) :
    rstripNl (X ++ List.replicate m 'a') = X ++ List.replicate m 'a' := by
  obtain ⟨m2, rfl⟩ := Nat.exists_eq_succ_of_ne_zero hm
  rw [List.replicate_succ' m2 'a']
  rw [← List.append_assoc]
  rw [rstripNl_append_ne _ 'a' (by decide)]

theorem encsize_repline_trailer (m : Nat) (nm : Str) (hnm : ∀ c ∈ nm, c.toNat < 256) :
    _encoded_size cpLatin1 [List.replicate m 'a', [], trailerLine nm] =
      .ok (m + 16 + nm.length) := by
  have hjc : joinedContent [List.replicate m 'a', [], trailerLine nm] =
      (((List.replicate m 'a' ++ [nl]) ++ ([] ++ [nl])) ++ trailerLine nm) ++ [nl] := by
    unfold joinedContent
    rw [intercalate_cons_cons, intercalate_cons_cons, intercalate_one]
    rw [← List.append_assoc]
    rw [rstripNl_trailer]
  have h0 := latin1_encoded_size_eq _ _ hjc
    (all256_append (all256_append (all256_append
      (all256_append (all256_replicate m (by decide)) (by decide))
      (by decide)) (all256_trailer nm hnm)) (by decide))
  rw [h0]
  simp only [Except.ok.injEq]
  rw [List.length_append, List.length_append, List.length_append, List.length_append,
    List.length_append]
  rw [List.length_replicate, trailerLine_length]
  rw [show ([nl] : Str).length = 1 from rfl, show ([] : Str).length = 0 from rfl]
  omega

theorem encsize_tworep_trailer (m : Nat) (nm : Str) (hnm : ∀ c ∈ nm, c.toNat < 256) :
    _encoded_size cpLatin1
      [List.replicate m 'a', List.replicate m 'a', [], trailerLine nm] =
      .ok (2 * m + 17 + nm.length) := by
  have hjc : joinedContent
      [List.replicate m 'a', List.replicate m 'a', [], trailerLine nm] =
      ((((List.replicate m 'a' ++ [nl]) ++ (List.replicate m 'a' ++ [nl])) ++
        ([] ++ [nl])) ++ trailerLine nm) ++ [nl] := by
    unfold joinedContent
    rw [intercalate_cons_cons, intercalate_cons_cons, intercalate_cons_cons,
      intercalate_one]
    rw [← List.append_assoc]
    rw [← List.append_assoc]
    rw [rstripNl_trailer]
  have h0 := latin1_encoded_size_eq _ _ hjc
    (all256_append (all256_append (all256_append (all256_append
      (all256_append (all256_replicate m (by decide)) (by decide))
      (all256_append (all256_replicate m (by decide)) (by decide)))
      (by decide)) (all256_trailer nm hnm)) (by decide))
  rw [h0]
  simp only [Except.ok.injEq]
  rw [List.length_append, List.length_append, List.length_append, List.length_append,
    List.length_append, List.length_append]
  rw [List.length_replicate, trailerLine_length]
  rw [show ([nl] : Str).length = 1 from rfl, show ([] : Str).length = 0 from rfl]
  omega

theorem encsize_two32755 :
    _encoded_size cpLatin1 [List.replicate 32755 'a', List.replicate 32755 'a'] =
      .ok 65512 := by
  have hall : ∀ c ∈ ((List.replicate 32755 'a' ++ [nl]) ++ List.replicate 32755 'a')
      ++ [nl], c.toNat < 256 :=
    all256_append (all256_append (all256_append (all256_replicate _ (by decide))
      (by decide)) (all256_replicate _ (by decide))) (by decide)
  have h0 := latin1_encoded_size_eq
    [List.replicate 32755 'a', List.replicate 32755 'a']
    (((List.replicate 32755 'a' ++ [nl]) ++ List.replicate 32755 'a') ++ [nl])
    (joinedContent_two_a 32755 32755 (by norm_num)) hall
  rw [h0]
  simp only [Except.ok.injEq]
  rw [List.length_append, List.length_append, List.length_append]
  rw [List.length_replicate]
  norm_num

theorem encsize_four32755 :
    _encoded_size cpLatin1 [List.replicate 32755 'a', List.replicate 32755 'a',
      List.replicate 32755 'a', List.replicate 32755 'a'] = .ok 131024 := by
  have hC : List.intercalate [nl] [List.replicate 32755 'a', List.replicate 32755 'a',
      List.replicate 32755 'a', List.replicate 32755 'a'] =
      (List.replicate 32755 'a' ++ [nl]) ++ ((List.replicate 32755 'a' ++ [nl]) ++
        ((List.replicate 32755 'a' ++ [nl]) ++ List.replicate 32755 'a')) := by
    rw [intercalate_cons_cons, intercalate_cons_cons, intercalate_cons_cons,
      intercalate_one]
  have hjc : joinedContent [List.replicate 32755 'a', List.replicate 32755 'a',
      List.replicate 32755 'a', List.replicate 32755 'a'] =
      ((((List.replicate 32755 'a' ++ [nl]) ++ (List.replicate 32755 'a' ++ [nl])) ++
        (List.replicate 32755 'a' ++ [nl])) ++ List.replicate 32755 'a') ++ [nl] := by
    unfold joinedContent
    rw [hC]
    rw [show (List.replicate 32755 'a' ++ [nl]) ++ ((List.replicate 32755 'a' ++ [nl]) ++
        ((List.replicate 32755 'a' ++ [nl]) ++ List.replicate 32755 'a')) =
        (((List.replicate 32755 'a' ++ [nl]) ++ (List.replicate 32755 'a' ++ [nl])) ++
          (List.replicate 32755 'a' ++ [nl])) ++ List.replicate 32755 'a' from by
      rw [← List.append_assoc, ← List.append_assoc]]
    rw [rstripNl_ends_rep _ 32755 (by norm_num)]
  have h0 := latin1_encoded_size_eq _ _ hjc
    (all256_append (all256_append (all256_append (all256_append
      (all256_append (all256_replicate 32755 (by decide)) (by decide))
      (all256_append (all256_replicate 32755 (by decide)) (by decide)))
      (all256_append (all256_replicate 32755 (by decide)) (by decide)))
      (all256_replicate 32755 (by decide))) (by decide))
  rw [h0]
  simp only [Except.ok.injEq]
  rw [List.length_append, List.length_append, List.length_append, List.length_append,
    List.length_append]
  rw [List.length_replicate]
  norm_num

theorem halen32756 : (List.replicate 32755 (97 : Nat) ++ [10]).length = 32756 := by
  rw [List.length_append, List.length_replicate, List.length_singleton]

theorem hl2e32755 : ((List.replicate 32755 'a', List.replicate 32755 (97 : Nat) ++ [10]) :
    EncLine).2.length = 32756 := halen32756

theorem hpop4a : popLoop 27
    [(List.replicate 32755 'a', List.replicate 32755 (97 : Nat) ++ [10]),
     (List.replicate 32755 'a', List.replicate 32755 (97 : Nat) ++ [10])] 65512
    [(List.replicate 32755 'a', List.replicate 32755 (97 : Nat) ++ [10]),
     (List.replicate 32755 'a', List.replicate 32755 (97 : Nat) ++ [10])] =
    ([(List.replicate 32755 'a', List.replicate 32755 (97 : Nat) ++ [10])], 32756,
     [(List.replicate 32755 'a', List.replicate 32755 (97 : Nat) ++ [10]),
      (List.replicate 32755 'a', List.replicate 32755 (97 : Nat) ++ [10]),
      (List.replicate 32755 'a', List.replicate 32755 (97 : Nat) ++ [10])]) := by
  rw [popLoop_cons]
  rw [if_pos (by norm_num [AMA_MAX_BYTES])]
  rw [hl2e32755]
  rw [show (65512 : Nat) - 32756 = 32756 from by norm_num]
  rw [popLoop_cons]
  rw [if_neg (by norm_num [AMA_MAX_BYTES])]

theorem hpop4b : popLoop 27
    [(List.replicate 32755 'a', List.replicate 32755 (97 : Nat) ++ [10]),
     (List.replicate 32755 'a', List.replicate 32755 (97 : Nat) ++ [10])] 65512
    [(List.replicate 32755 'a', List.replicate 32755 (97 : Nat) ++ [10])] =
    ([(List.replicate 32755 'a', List.replicate 32755 (97 : Nat) ++ [10])], 32756,
     [(List.replicate 32755 'a', List.replicate 32755 (97 : Nat) ++ [10]),
      (List.replicate 32755 'a', List.replicate 32755 (97 : Nat) ++ [10])]) := by
  rw [popLoop_cons]
  rw [if_pos (by norm_num [AMA_MAX_BYTES])]
  rw [hl2e32755]
  rw [show (65512 : Nat) - 32756 = 32756 from by norm_num]
  rw [popLoop_cons]
  rw [if_neg (by norm_num [AMA_MAX_BYTES])]

theorem hloop4 : splitLoop (str "A.AMA") 27 20
    [(List.replicate 32755 'a', List.replicate 32755 (97 : Nat) ++ [10]),
     (List.replicate 32755 'a', List.replicate 32755 (97 : Nat) ++ [10]),
     (List.replicate 32755 'a', List.replicate 32755 (97 : Nat) ++ [10]),
     (List.replicate 32755 'a', List.replicate 32755 (97 : Nat) ++ [10])] [] 0 [] =
    some (.ok
      [[(List.replicate 32755 'a', List.replicate 32755 (97 : Nat) ++ [10])],
       [(List.replicate 32755 'a', List.replicate 32755 (97 : Nat) ++ [10])],
       [(List.replicate 32755 'a', List.replicate 32755 (97 : Nat) ++ [10]),
        (List.replicate 32755 'a', List.replicate 32755 (97 : Nat) ++ [10])]]) := by
  rw [splitLoop_step_add (str "A.AMA") 27 20 19 _ _ _ 0 32756 32756 _ (by norm_num)
    hl2e32755 (by norm_num [AMA_MAX_BYTES]) (by norm_num)]
  rw [splitLoop_step_add (str "A.AMA") 27 19 18 _ _ _ 32756 32756 65512 _ (by norm_num)
    hl2e32755 (by norm_num [AMA_MAX_BYTES]) (by norm_num)]
  rw [splitLoop_step_flush (str "A.AMA") 27 18 17 _ _ _ _ _ 65512 32756 32756 _ _
    (by norm_num) hl2e32755 (by norm_num [AMA_MAX_BYTES]) (List.cons_ne_nil _ _)
    hpop4a (by
      rw [show ([(List.replicate 32755 'a', List.replicate 32755 (97 : Nat) ++ [10])] :
        List EncLine).reverse =
        [(List.replicate 32755 'a', List.replicate 32755 (97 : Nat) ++ [10])] from rfl])]
  rw [splitLoop_step_add (str "A.AMA") 27 17 16 _ _ _ 0 32756 32756 _ (by norm_num)
    hl2e32755 (by norm_num [AMA_MAX_BYTES]) (by norm_num)]
  rw [splitLoop_step_add (str "A.AMA") 27 16 15 _ _ _ 32756 32756 65512 _ (by norm_num)
    hl2e32755 (by norm_num [AMA_MAX_BYTES]) (by norm_num)]
  rw [splitLoop_step_flush (str "A.AMA") 27 15 14 _ _ _ _ _ 65512 32756 32756 _ _
    (by norm_num) hl2e32755 (by norm_num [AMA_MAX_BYTES]) (List.cons_ne_nil _ _)
    hpop4b (by
      rw [show ([(List.replicate 32755 'a', List.replicate 32755 (97 : Nat) ++ [10])] :
        List EncLine).reverse =
        [(List.replicate 32755 'a', List.replicate 32755 (97 : Nat) ++ [10])] from rfl])]
  rw [splitLoop_step_add (str "A.AMA") 27 14 13 _ _ _ 0 32756 32756 _ (by norm_num)
    hl2e32755 (by norm_num [AMA_MAX_BYTES]) (by norm_num)]
  rw [splitLoop_step_add (str "A.AMA") 27 13 12 _ _ _ 32756 32756 65512 _ (by norm_num)
    hl2e32755 (by norm_num [AMA_MAX_BYTES]) (by norm_num)]
  rw [splitLoop_done (str "A.AMA") 27 12 11 _ _ _ (by norm_num)]
  rw [if_neg (List.cons_ne_nil _ _)]
  rfl

theorem hels4 : encodeLinesGo cpLatin1 (str "A.AMA") 0
    [List.replicate 32755 'a', List.replicate 32755 'a',
     List.replicate 32755 'a', List.replicate 32755 'a'] =
    .ok [(List.replicate 32755 'a', List.replicate 32755 (97 : Nat) ++ [10]),
         (List.replicate 32755 'a', List.replicate 32755 (97 : Nat) ++ [10]),
         (List.replicate 32755 'a', List.replicate 32755 (97 : Nat) ++ [10]),
         (List.replicate 32755 'a', List.replicate 32755 (97 : Nat) ++ [10])] := by
  apply encodeLinesGo_cons _ _ _ _ _ _ _ (replicate_a_encodeLine 32755)
    (by rw [halen32756]; norm_num [AMA_MAX_BYTES])
  apply encodeLinesGo_cons _ _ _ _ _ _ _ (replicate_a_encodeLine 32755)
    (by rw [halen32756]; norm_num [AMA_MAX_BYTES])
  apply encodeLinesGo_cons _ _ _ _ _ _ _ (replicate_a_encodeLine 32755)
    (by rw [halen32756]; norm_num [AMA_MAX_BYTES])
  apply encodeLinesGo_cons _ _ _ _ _ _ _ (replicate_a_encodeLine 32755)
    (by rw [halen32756]; norm_num [AMA_MAX_BYTES])
  rfl

theorem hbuild4 : buildSegResult cpLatin1
    [(str "A.AMA", [List.replicate 32755 'a']),
     (str "A01.AMA", [List.replicate 32755 'a']),
     (str "A02.AMA", [List.replicate 32755 'a', List.replicate 32755 'a'])] =
    .ok [(str "A.AMA", [List.replicate 32755 'a', [], trailerLine (str "A01.AMA")]),
         (str "A01.AMA", [List.replicate 32755 'a', [], trailerLine (str "A02.AMA")]),
         (str "A02.AMA", [List.replicate 32755 'a', List.replicate 32755 'a'])] := by
  have h1 := encsize_repline_trailer 32755 (str "A01.AMA") (by decide)
  have h2 := encsize_repline_trailer 32755 (str "A02.AMA") (by decide)
  exact buildSegResult_cons cpLatin1 (str "A.AMA") [List.replicate 32755 'a']
    (str "A01.AMA", [List.replicate 32755 'a'])
    [(str "A02.AMA", [List.replicate 32755 'a', List.replicate 32755 'a'])]
    (32755 + 16 + (str "A01.AMA").length) _ h1
    (by rw [show (str "A01.AMA").length = 7 from rfl]; norm_num [AMA_MAX_BYTES])
    (buildSegResult_cons cpLatin1 (str "A01.AMA") [List.replicate 32755 'a']
      (str "A02.AMA", [List.replicate 32755 'a', List.replicate 32755 'a']) []
      (32755 + 16 + (str "A02.AMA").length) _ h2
      (by rw [show (str "A02.AMA").length = 7 from rfl]; norm_num [AMA_MAX_BYTES])
      (buildSegResult_single cpLatin1 _ _))

theorem splitA4 : split_article 20 (str "A.AMA")
    [List.replicate 32755 'a', List.replicate 32755 'a',
     List.replicate 32755 'a', List.replicate 32755 'a'] cpLatin1 =
    some (.ok
      [(str "A.AMA", [List.replicate 32755 'a', [], trailerLine (str "A01.AMA")]),
       (str "A01.AMA", [List.replicate 32755 'a', [], trailerLine (str "A02.AMA")]),
       (str "A02.AMA", [List.replicate 32755 'a', List.replicate 32755 'a'])]) := by
  have hrun := split_article_run 20 (str "A.AMA")
    [List.replicate 32755 'a', List.replicate 32755 'a',
     List.replicate 32755 'a', List.replicate 32755 'a'] cpLatin1 131024 27
    [(List.replicate 32755 'a', List.replicate 32755 (97 : Nat) ++ [10]),
     (List.replicate 32755 'a', List.replicate 32755 (97 : Nat) ++ [10]),
     (List.replicate 32755 'a', List.replicate 32755 (97 : Nat) ++ [10]),
     (List.replicate 32755 'a', List.replicate 32755 (97 : Nat) ++ [10])]
    [[(List.replicate 32755 'a', List.replicate 32755 (97 : Nat) ++ [10])],
     [(List.replicate 32755 'a', List.replicate 32755 (97 : Nat) ++ [10])],
     [(List.replicate 32755 'a', List.replicate 32755 (97 : Nat) ++ [10]),
      (List.replicate 32755 'a', List.replicate 32755 (97 : Nat) ++ [10])]]
    [[(List.replicate 32755 'a', List.replicate 32755 (97 : Nat) ++ [10])],
     [(List.replicate 32755 'a', List.replicate 32755 (97 : Nat) ++ [10])],
     [(List.replicate 32755 'a', List.replicate 32755 (97 : Nat) ++ [10]),
      (List.replicate 32755 'a', List.replicate 32755 (97 : Nat) ++ [10])]]
    [str "A.AMA", str "A01.AMA", str "A02.AMA"]
    encsize_four32755 (by norm_num [AMA_MAX_BYTES]) hels4 latin1_overhead hloop4 rfl
    (List.cons_ne_nil _ _) (by rfl)
  rw [hrun]
  rw [show ([str "A.AMA", str "A01.AMA", str "A02.AMA"].zip
      (([[(List.replicate 32755 'a', List.replicate 32755 (97 : Nat) ++ [10])],
         [(List.replicate 32755 'a', List.replicate 32755 (97 : Nat) ++ [10])],
         [(List.replicate 32755 'a', List.replicate 32755 (97 : Nat) ++ [10]),
          (List.replicate 32755 'a', List.replicate 32755 (97 : Nat) ++ [10])]] :
        List (List EncLine)).map (fun s => s.map Prod.fst))) =
      [(str "A.AMA", [List.replicate 32755 'a']),
       (str "A01.AMA", [List.replicate 32755 'a']),
       (str "A02.AMA", [List.replicate 32755 'a', List.replicate 32755 'a'])] from rfl]
  rw [hbuild4]

/-- Claim C4, counterexample: four lines of 32,755 `a`s (32,756 encoded bytes
each).  The greedy splitter emits three segments — the pop-back discipline
reserves 27 bytes for a 12-character placeholder name although the actual
names (`A01.AMA`, `A02.AMA`) need only 22 — while the two-segment partition
`[l1 l2] [l3 l4]` is valid (65,534 ≤ 65,535 with the actual trailer), so the
returned segment count is not minimal. -/
theorem C4_counterexample :
    split_article 20 (str "A.AMA")
      [List.replicate 32755 'a', List.replicate 32755 'a',
       List.replicate 32755 'a', List.replicate 32755 'a'] cpLatin1 =
      some (.ok
        [(str "A.AMA", [List.replicate 32755 'a', [], trailerLine (str "A01.AMA")]),
         (str "A01.AMA", [List.replicate 32755 'a', [], trailerLine (str "A02.AMA")]),
         (str "A02.AMA", [List.replicate 32755 'a', List.replicate 32755 'a'])]) ∧
    specValidPartition cpLatin1 (str "A.AMA")
      [List.replicate 32755 'a', List.replicate 32755 'a',
       List.replicate 32755 'a', List.replicate 32755 'a']
      [[List.replicate 32755 'a', List.replicate 32755 'a'],
       [List.replicate 32755 'a', List.replicate 32755 'a']] ∧
    ([[List.replicate 32755 'a', List.replicate 32755 'a'],
      [List.replicate 32755 'a', List.replicate 32755 'a']] : List (List Str)).length <
    ([(str "A.AMA", [List.replicate 32755 'a', [], trailerLine (str "A01.AMA")]),
      (str "A01.AMA", [List.replicate 32755 'a', [], trailerLine (str "A02.AMA")]),
      (str "A02.AMA", [List.replicate 32755 'a', List.replicate 32755 'a'])] :
      List (Str × List Str)).length := by
  refine ⟨splitA4, ⟨?_, ?_, ?_, ?_⟩, ?_⟩
  · rfl
  · exact List.cons_ne_nil _ _
  · intro i hi
    have hi0 : i = 0 := by
      rw [show ([[List.replicate 32755 'a', List.replicate 32755 'a'],
        [List.replicate 32755 'a', List.replicate 32755 'a']] :
        List (List Str)).length = 2 from rfl] at hi
      omega
    subst hi0
    refine ⟨2 * 32755 + 17 + (str "A01.AMA").length, ?_, ?_⟩
    · rw [show ([[List.replicate 32755 'a', List.replicate 32755 'a'],
        [List.replicate 32755 'a', List.replicate 32755 'a']] :
          List (List Str)).getD 0 [] =
        [List.replicate 32755 'a', List.replicate 32755 'a'] from rfl]
      rw [show specSegmentName (str "A.AMA") (0 + 1) = str "A01.AMA" from rfl]
      rw [show ([List.replicate 32755 'a', List.replicate 32755 'a'] : List Str) ++
        [[], trailerLine (str "A01.AMA")] =
        [List.replicate 32755 'a', List.replicate 32755 'a', [],
         trailerLine (str "A01.AMA")] from rfl]
      exact encsize_tworep_trailer 32755 (str "A01.AMA") (by decide)
    · rw [show (str "A01.AMA").length = 7 from rfl]
      norm_num [AMA_MAX_BYTES]
  · intro last hlast
    rw [show ([[List.replicate 32755 'a', List.replicate 32755 'a'],
      [List.replicate 32755 'a', List.replicate 32755 'a']] :
      List (List Str)).getLast? =
      some [List.replicate 32755 'a', List.replicate 32755 'a'] from rfl] at hlast
    injection hlast with h1
    rw [← h1]
    exact ⟨65512, encsize_two32755, by norm_num [AMA_MAX_BYTES]⟩
  · show (2 : Nat) < 3
    norm_num

theorem popLoop_join (ov : Nat) : ∀ (curRev : List EncLine) (size : Nat)
    (rest cur2 rest2 : List EncLine) (s2 : Nat),
    popLoop ov curRev size rest = (cur2, s2, rest2) →
    cur2.reverse ++ rest2 = curRev.reverse ++ rest := by
  intro curRev
  induction curRev with
  | nil =>
    intro size rest cur2 rest2 s2 h
    simp only [popLoop] at h
    injection h with h1 h23
    injection h23 with h3 h4
    rw [← h1, ← h4]
  | cons l t ih =>
    intro size rest cur2 rest2 s2 h
    simp only [popLoop] at h
    by_cases hov : AMA_MAX_BYTES < size + ov
    · rw [if_pos hov] at h
      have hj := ih (size - l.2.length) (l :: rest) cur2 rest2 s2 h
      rw [hj, List.reverse_cons, List.append_assoc]
      rfl
    · rw [if_neg hov] at h
      injection h with h1 h23
      injection h23 with h3 h4
      rw [← h1, ← h4]

theorem splitLoop_join (nm : Str) (ov : Nat) : ∀ (fuel : Nat)
    (rest curRev : List EncLine) (size : Nat) (segs segs0 : List (List EncLine)),
    splitLoop nm ov fuel rest curRev size segs = some (.ok segs0) →
    segs0.flatten = segs.flatten ++ curRev.reverse ++ rest := by
  intro fuel
  induction fuel with
  | zero =>
    intro rest curRev size segs segs0 h
    exact Option.noConfusion h
  | succ f ih =>
    intro rest curRev size segs segs0 h
    cases rest with
    | nil =>
      simp only [splitLoop] at h
      injection h with h1
      injection h1 with h2
      by_cases hc : curRev = []
      · rw [if_pos hc] at h2
        rw [← h2, hc]
        rw [List.reverse_nil, List.append_nil, List.append_nil]
      · rw [if_neg hc] at h2
        rw [← h2]
        rw [List.flatten_append]
        rw [show List.flatten [curRev.reverse] = curRev.reverse from by
          rw [List.flatten_cons, List.flatten_nil, List.append_nil]]
        rw [List.append_nil]
    | cons l t =>
      simp only [splitLoop] at h
      by_cases hfit : size + l.2.length ≤ AMA_MAX_BYTES
      · rw [if_pos hfit] at h
        rw [ih t (l :: curRev) (size + l.2.length) segs segs0 h]
        rw [List.reverse_cons]
        rw [← List.append_assoc]
        rw [List.append_assoc]
        rw [List.singleton_append]
      · rw [if_neg hfit] at h
        by_cases hcur : curRev = []
        · rw [if_pos hcur] at h
          injection h with h1
          exact Except.noConfusion h1
        · rw [if_neg hcur] at h
          rcases hp : popLoop ov curRev size (l :: t) with ⟨cur2, s2, rest2⟩
          rw [hp] at h
          dsimp only at h
          rw [ih rest2 [] 0 (segs ++ [cur2.reverse]) segs0 h]
          rw [List.flatten_append]
          rw [show List.flatten [cur2.reverse] = cur2.reverse from by
            rw [List.flatten_cons, List.flatten_nil, List.append_nil]]
          rw [List.reverse_nil, List.append_nil]
          rw [List.append_assoc]
          rw [popLoop_join ov curRev size (l :: t) cur2 rest2 s2 hp]
          rw [← List.append_assoc]

theorem flatten_filter_ne_nil : ∀ (L : List (List EncLine)),
    (L.filter (fun s => s ≠ [])).flatten = L.flatten := by
  intro L
  induction L with
  | nil => rfl
  | cons a t ih =>
    rw [List.filter_cons]
    by_cases ha : a = []
    · rw [if_neg (by simp [ha])]
      rw [List.flatten_cons, ha, List.nil_append]
      exact ih
    · rw [if_pos (by simpa using ha)]
      rw [List.flatten_cons, List.flatten_cons, ih]

theorem encodeLinesGo_fst (cp : CodepageInfo) (fn : Str) : ∀ (lines : List Str) (i : Nat)
    (encLines : List EncLine), encodeLinesGo cp fn i lines = .ok encLines →
    encLines.map Prod.fst = lines := by
  intro lines
  induction lines with
  | nil =>
    intro i encLines h
    injection h with h1
    rw [← h1]
    rfl
  | cons line rest ih =>
    intro i encLines h
    simp only [encodeLinesGo] at h
    rcases he : _encode_line cp line with e | bs
    · rw [he] at h
      dsimp only at h
      exact Except.noConfusion h
    · rw [he] at h
      dsimp only at h
      by_cases hb : AMA_MAX_BYTES < bs.length
      · rw [if_pos hb] at h
        exact Except.noConfusion h
      · rw [if_neg hb] at h
        rcases hr : encodeLinesGo cp fn (i + 1) rest with e | ls
        · rw [hr] at h
          dsimp only at h
          exact Except.noConfusion h
        · rw [hr] at h
          dsimp only at h
          injection h with h1
          rw [← h1, List.map_cons, ih (i + 1) ls hr]

theorem flatten_map_map : ∀ (L : List (List EncLine)),
    (L.map (fun s => s.map Prod.fst)).flatten = L.flatten.map Prod.fst := by
  intro L
  induction L with
  | nil => rfl
  | cons a t ih =>
    rw [List.map_cons, List.flatten_cons, List.flatten_cons, List.map_append, ih]

theorem strLe_total : ∀ (a b : Str), strLe a b = true ∨ strLe b a = true
  | [], _ => Or.inl rfl
  | _ :: _, [] => Or.inr rfl
  | x :: xs, y :: ys => by
    simp only [strLe]
    by_cases hxy : x = y
    · rw [if_pos hxy, if_pos hxy.symm]
      exact strLe_total xs ys
    · rw [if_neg hxy, if_neg (fun h => hxy h.symm)]
      rcases Nat.lt_trichotomy x.toNat y.toNat with h | h | h
      · exact Or.inl (by simpa using h)
      · exact absurd (by rw [← Char.ofNat_toNat x, ← Char.ofNat_toNat y, h]) hxy
      · exact Or.inr (by simpa using h)

theorem strLe_trans : ∀ (a b c : Str), strLe a b = true → strLe b c = true → strLe a c = true
  | [], _, _, _, _ => rfl
  | _ :: _, [], _, h, _ => by simp [strLe] at h
  | _ :: _, _ :: _, [], _, h => by simp [strLe] at h
  | x :: xs, y :: ys, z :: zs, h1, h2 => by
    simp only [strLe] at h1 h2 ⊢
    by_cases hxy : x = y
    · subst hxy
      rw [if_pos rfl] at h1
      by_cases hyz : x = z
      · rw [if_pos hyz] at h2 ⊢
        exact strLe_trans xs ys zs h1 h2
      · rw [if_neg hyz] at h2 ⊢
        exact h2
    · rw [if_neg hxy] at h1
      by_cases hyz : y = z
      · subst hyz
        rw [if_neg hxy]
        exact h1
      · rw [if_neg hyz] at h2
        by_cases hxz : x = z
        · exfalso
          subst hxz
          simp only [decide_eq_true_eq] at h1 h2
          omega
        · rw [if_neg hxz]
          simp only [decide_eq_true_eq] at h1 h2 ⊢
          omega

theorem strLe_antisymm : ∀ (a b : Str), strLe a b = true → strLe b a = true → a = b
  | [], [], _, _ => rfl
  | [], _ :: _, _, h => by simp [strLe] at h
  | _ :: _, [], h, _ => by simp [strLe] at h
  | x :: xs, y :: ys, h1, h2 => by
    simp only [strLe] at h1 h2
    by_cases hxy : x = y
    · subst hxy
      rw [if_pos rfl] at h1 h2
      rw [strLe_antisymm xs ys h1 h2]
    · exfalso
      rw [if_neg hxy] at h1
      rw [if_neg (fun h => hxy h.symm)] at h2
      simp only [decide_eq_true_eq] at h1 h2
      omega

theorem natSortAsc_perm_eq {l1 l2 : List Nat} (h : l1.Perm l2) :
    natSortAsc l1 = natSortAsc l2 := by
  letI : IsTotal Nat (fun a b => a ≤ b) := ⟨fun a b => Nat.le_total a b⟩
  letI : IsTrans Nat (fun a b => a ≤ b) := ⟨fun a b c h1 h2 => Nat.le_trans h1 h2⟩
  letI : IsAntisymm Nat (fun a b => a ≤ b) := ⟨fun a b h1 h2 => Nat.le_antisymm h1 h2⟩
  unfold natSortAsc
  exact List.eq_of_perm_of_sorted
    ((List.perm_insertionSort _ l1).trans (h.trans (List.perm_insertionSort _ l2).symm))
    (List.sorted_insertionSort _ l1)
    (List.sorted_insertionSort _ l2)

theorem sorted_key_nodup_eq : ∀ (l1 l2 : List (Str × (List Byte × List Nat))),
    l1.Perm l2 →
    l1.Sorted (fun a b => strLe a.1 b.1 = true) →
    l2.Sorted (fun a b => strLe a.1 b.1 = true) →
    (l1.map Prod.fst).Nodup → l1 = l2
  | [], l2, h, _, _, _ => (h.symm.eq_nil).symm ▸ rfl
  | a :: t1, [], h, _, _, _ => absurd h.eq_nil (List.cons_ne_nil a t1)
  | a :: t1, a' :: t2, h, hs1, hs2, hnd => by
    have heq : a = a' := by
      by_contra hne
      have ha : a ∈ a' :: t2 := h.mem_iff.mp (List.mem_cons_self a t1)
      have ha' : a' ∈ a :: t1 := h.mem_iff.mpr (List.mem_cons_self a' t2)
      have hat2 : a ∈ t2 := by
        rcases List.mem_cons.mp ha with h1 | h1
        · exact absurd h1 hne
        · exact h1
      have ha't1 : a' ∈ t1 := by
        rcases List.mem_cons.mp ha' with h1 | h1
        · exact absurd h1.symm hne
        · exact h1
      have hle1 : strLe a.1 a'.1 = true := (List.sorted_cons.mp hs1).1 a' ha't1
      have hle2 : strLe a'.1 a.1 = true := (List.sorted_cons.mp hs2).1 a hat2
      have hk : a.1 = a'.1 := strLe_antisymm _ _ hle1 hle2
      have hnd1 : a.1 ∉ t1.map Prod.fst := by
        rw [List.map_cons] at hnd
        exact (List.nodup_cons.mp hnd).1
      exact hnd1 (hk ▸ List.mem_map_of_mem Prod.fst ha't1)
    subst heq
    have htail : t1 = t2 :=
      sorted_key_nodup_eq t1 t2 h.cons_inv (List.sorted_cons.mp hs1).2
        (List.sorted_cons.mp hs2).2
        (by rw [List.map_cons] at hnd; exact (List.nodup_cons.mp hnd).2)
    rw [htail]

theorem sortEntries_sorted (es : List (Str × (List Byte × List Nat))) :
    (sortEntries es).Sorted (fun a b => strLe a.1 b.1 = true) := by
  letI : IsTotal (Str × (List Byte × List Nat)) (fun a b => strLe a.1 b.1 = true) :=
    ⟨fun a b => strLe_total a.1 b.1⟩
  letI : IsTrans (Str × (List Byte × List Nat)) (fun a b => strLe a.1 b.1 = true) :=
    ⟨fun a b c => strLe_trans a.1 b.1 c.1⟩
  exact List.sorted_insertionSort _ es

theorem sortEntries_perm_eq (es1 es2 : List (Str × (List Byte × List Nat)))
    (h : es1.Perm es2) (hnd : (es1.map Prod.fst).Nodup) :
    sortEntries es1 = sortEntries es2 := by
  apply sorted_key_nodup_eq
  · exact (List.perm_insertionSort _ es1).trans (h.trans (List.perm_insertionSort _ es2).symm)
  · exact sortEntries_sorted es1
  · exact sortEntries_sorted es2
  · exact (((List.perm_insertionSort _ es1).map Prod.fst).nodup_iff).mpr hnd

theorem lookup_none_of_not_mem {κ β : Type} [BEq κ] [LawfulBEq κ] (m : List (κ × β)) (k : κ)
    (h : k ∉ m.map Prod.fst) : m.lookup k = none := by
  induction m with
  | nil => rfl
  | cons p t ih =>
    rcases p with ⟨k', v⟩
    rw [List.map_cons] at h
    simp only [List.mem_cons] at h
    push_neg at h
    simp only [List.lookup]
    rcases hbk : (k == k') with _ | _
    · exact ih h.2
    · exact absurd (eq_of_beq hbk) h.1

theorem lookup_some_mem {κ β : Type} [BEq κ] [LawfulBEq κ] (m : List (κ × β)) (k : κ) (v : β)
    (h : m.lookup k = some v) : (k, v) ∈ m := by
  induction m with
  | nil => exact Option.noConfusion h
  | cons p t ih =>
    rcases p with ⟨k', v'⟩
    simp only [List.lookup] at h
    rcases hbk : (k == k') with _ | _
    · rw [hbk] at h
      exact List.mem_cons_of_mem _ (ih h)
    · rw [hbk] at h
      injection h with h1
      rw [← eq_of_beq hbk, ← h1]
      exact List.mem_cons_self _ _

theorem lookup_cons_self {κ β : Type} [BEq κ] [LawfulBEq κ] (m : List (κ × β)) (k : κ) (v : β) :
    ((k, v) :: m).lookup k = some v := by
  simp only [List.lookup]
  rw [beq_self_eq_true k]

theorem lookup_map_update (bm : BucketMap) (bucket : Nat) (w : Str)
    (v : List Byte × List Nat) :
    (bm.map (fun p => if p.1 = bucket then (p.1, assocSet p.2 w v) else p)).lookup bucket =
      (bm.lookup bucket).map (fun es => assocSet es w v) := by
  induction bm with
  | nil => rfl
  | cons p t ih =>
    rcases p with ⟨k, es⟩
    rw [List.map_cons]
    by_cases hk : k = bucket
    · rw [show (if ((k, es) : Nat × List (Str × (List Byte × List Nat))).1 = bucket
          then (((k, es) : Nat × List (Str × (List Byte × List Nat))).1,
            assocSet ((k, es) : Nat × List (Str × (List Byte × List Nat))).2 w v)
          else (k, es)) = (k, assocSet es w v) from by rw [if_pos hk]]
      subst hk
      simp only [List.lookup]
      rw [beq_self_eq_true k]
      rfl
    · rw [show (if ((k, es) : Nat × List (Str × (List Byte × List Nat))).1 = bucket
          then (((k, es) : Nat × List (Str × (List Byte × List Nat))).1,
            assocSet ((k, es) : Nat × List (Str × (List Byte × List Nat))).2 w v)
          else (k, es)) = (k, es) from by rw [if_neg hk]]
      simp only [List.lookup]
      rw [show (bucket == k) = false from beq_eq_false_iff_ne.mpr (fun h => hk h.symm)]
      exact ih

theorem lookup_map_update_other (bm : BucketMap) (bucket : Nat) (w : Str)
    (v : List Byte × List Nat) (b : Nat) (hb : b ≠ bucket) :
    (bm.map (fun p => if p.1 = bucket then (p.1, assocSet p.2 w v) else p)).lookup b =
      bm.lookup b := by
  induction bm with
  | nil => rfl
  | cons p t ih =>
    rcases p with ⟨k, es⟩
    rw [List.map_cons]
    by_cases hk : k = bucket
    · rw [show (if ((k, es) : Nat × List (Str × (List Byte × List Nat))).1 = bucket
          then (((k, es) : Nat × List (Str × (List Byte × List Nat))).1,
            assocSet ((k, es) : Nat × List (Str × (List Byte × List Nat))).2 w v)
          else (k, es)) = (k, assocSet es w v) from by rw [if_pos hk]]
      simp only [List.lookup]
      rw [show (b == k) = false from beq_eq_false_iff_ne.mpr (fun h => hb (h.trans hk))]
      exact ih
    · rw [show (if ((k, es) : Nat × List (Str × (List Byte × List Nat))).1 = bucket
          then (((k, es) : Nat × List (Str × (List Byte × List Nat))).1,
            assocSet ((k, es) : Nat × List (Str × (List Byte × List Nat))).2 w v)
          else (k, es)) = (k, es) from by rw [if_neg hk]]
      simp only [List.lookup]
      rcases hbk : (b == k) with _ | _
      · exact ih
      · rfl

theorem lookup_append_single {β : Type} (bm : List (Nat × β)) (bucket : Nat) (x : β)
    (b : Nat) (hb : b ≠ bucket) :
    (bm ++ [(bucket, x)]).lookup b = bm.lookup b := by
  induction bm with
  | nil =>
    show List.lookup b [(bucket, x)] = none
    simp only [List.lookup]
    rw [show (b == bucket) = false from beq_eq_false_iff_ne.mpr hb]
  | cons p t ih =>
    rcases p with ⟨k, es⟩
    rw [List.cons_append]
    simp only [List.lookup]
    rcases hbk : (b == k) with _ | _
    · exact ih
    · rfl

theorem lookup_append_self {β : Type} (bm : List (Nat × β)) (bucket : Nat) (x : β)
    (h : bm.lookup bucket = none) :
    (bm ++ [(bucket, x)]).lookup bucket = some x := by
  induction bm with
  | nil =>
    show List.lookup bucket [(bucket, x)] = some x
    simp only [List.lookup]
    rw [beq_self_eq_true bucket]
  | cons p t ih =>
    rcases p with ⟨k, es⟩
    rw [List.cons_append]
    simp only [List.lookup] at h ⊢
    rcases hbk : (bucket == k) with _ | _
    · rw [hbk] at h
      exact ih h
    · rw [hbk] at h
      exact Option.noConfusion h

theorem assocSet_append (es : List (Str × (List Byte × List Nat))) (w : Str)
    (v : List Byte × List Nat) (hw : w ∉ es.map Prod.fst) :
    assocSet es w v = es ++ [(w, v)] := by
  unfold assocSet
  rw [lookup_none_of_not_mem es w hw]
  rw [if_neg (by simp)]

theorem mem_keys_assocSet (m : List (Str × (List Byte × List Nat))) (k : Str)
    (v : List Byte × List Nat) (w : Str)
    (hw : w ∈ (assocSet m k v).map Prod.fst) : w = k ∨ w ∈ m.map Prod.fst := by
  unfold assocSet at hw
  by_cases hm : (List.lookup k m).isSome = true
  · rw [if_pos hm] at hw
    rcases List.mem_map.mp hw with ⟨q, hq, hqw⟩
    rcases List.mem_map.mp hq with ⟨p, hp, hpq⟩
    by_cases hpk : (p.1 == k) = true
    · rw [if_pos hpk] at hpq
      rw [← hpq] at hqw
      exact Or.inl hqw.symm
    · rw [if_neg hpk] at hpq
      rw [← hpq] at hqw
      rw [← hqw]
      exact Or.inr (List.mem_map_of_mem Prod.fst hp)
  · rw [if_neg hm] at hw
    rw [List.map_append] at hw
    rcases List.mem_append.mp hw with h1 | h1
    · exact Or.inr h1
    · left
      simpa using h1

theorem bucketInsert_lookup_self (bm : BucketMap) (bucket : Nat) (w : Str)
    (v : List Byte × List Nat)
    (hw : w ∉ ((bm.lookup bucket).getD []).map Prod.fst) :
    (bucketInsert bm bucket w v).lookup bucket =
      some (((bm.lookup bucket).getD []) ++ [(w, v)]) := by
  unfold bucketInsert
  rcases hlk : bm.lookup bucket with _ | es
  · rw [if_neg (by simp)]
    rw [lookup_append_self bm bucket [(w, v)] hlk]
    rfl
  · rw [if_pos (show (some es).isSome = true from rfl)]
    rw [lookup_map_update bm bucket w v, hlk]
    rw [Option.map_some']
    rw [hlk] at hw
    rw [assocSet_append es w v (by simpa using hw)]
    rfl

theorem bucketInsert_lookup_other (bm : BucketMap) (bucket : Nat) (w : Str)
    (v : List Byte × List Nat) (b : Nat) (hb : b ≠ bucket) :
    (bucketInsert bm bucket w v).lookup b = bm.lookup b := by
  unfold bucketInsert
  by_cases hm : (bm.lookup bucket).isSome = true
  · rw [if_pos hm]
    exact lookup_map_update_other bm bucket w v b hb
  · rw [if_neg hm]
    exact lookup_append_single bm bucket [(w, v)] b hb

theorem bucketInsert_mem_keys (bm : BucketMap) (bucket : Nat) (w : Str)
    (v : List Byte × List Nat) (p : Nat × List (Str × (List Byte × List Nat)))
    (hp : p ∈ bucketInsert bm bucket w v) (w' : Str) (hw' : w' ∈ p.2.map Prod.fst) :
    w' = w ∨ ∃ q ∈ bm, w' ∈ q.2.map Prod.fst := by
  unfold bucketInsert at hp
  by_cases hm : (bm.lookup bucket).isSome = true
  · rw [if_pos hm] at hp
    rcases List.mem_map.mp hp with ⟨q, hq, hqe⟩
    by_cases hqb : q.1 = bucket
    · rw [if_pos hqb] at hqe
      rw [← hqe] at hw'
      rcases mem_keys_assocSet q.2 w v w' hw' with h1 | h1
      · exact Or.inl h1
      · exact Or.inr ⟨q, hq, h1⟩
    · rw [if_neg hqb] at hqe
      rw [← hqe] at hw'
      exact Or.inr ⟨q, hq, hw'⟩
  · rw [if_neg hm] at hp
    rcases List.mem_append.mp hp with h1 | h1
    · exact Or.inr ⟨p, h1, hw'⟩
    · have hpe : p = (bucket, [(w, v)]) := by simpa using h1
      rw [hpe] at hw'
      left
      simpa using hw'

theorem bucketEntries_nil (cp : CodepageInfo) (fo : List (Str × Nat)) (b : Nat) :
    bucketEntries cp fo [] b = [] := rfl

theorem bucketEntries_cons (cp : CodepageInfo) (fo : List (Str × Nat))
    (e : Str × List Str) (t : List (Str × List Str)) (b : Nat) :
    bucketEntries cp fo (e :: t) b =
      match bucketEntryFn cp fo b e with
      | none => bucketEntries cp fo t b
      | some v => v :: bucketEntries cp fo t b := by
  unfold bucketEntries
  rw [List.filterMap_cons]
  rcases bucketEntryFn cp fo b e with _ | v <;> rfl

theorem buildBuckets_lookup (cp : CodepageInfo) (fo : List (Str × Nat)) :
    ∀ (wi : List (Str × List Str)) (bm : BucketMap),
    (wi.map Prod.fst).Nodup →
    (∀ w ∈ wi.map Prod.fst, ∀ p ∈ bm, w ∉ p.2.map Prod.fst) →
    ∀ b, (buildBuckets cp fo wi bm).lookup b =
      match bm.lookup b with
      | some es => some (es ++ bucketEntries cp fo wi b)
      | none => if bucketEntries cp fo wi b = [] then none
                else some (bucketEntries cp fo wi b)
  | [], bm, _, _, b => by
    rcases hbm : bm.lookup b with _ | es
    · rw [show buildBuckets cp fo [] bm = bm from rfl, hbm]
      dsimp only
      rw [if_pos (show bucketEntries cp fo [] b = [] from rfl)]
    · rw [show buildBuckets cp fo [] bm = bm from rfl, hbm]
      dsimp only
      rw [show bucketEntries cp fo [] b = [] from rfl, List.append_nil]
  | (word, fns) :: t, bm, hnd, habs, b => by
    rw [List.map_cons] at hnd habs
    have hndh := (List.nodup_cons.mp hnd).1
    have hndt := (List.nodup_cons.mp hnd).2
    simp only [buildBuckets]
    rcases he : cp.encode word with err | ew
    · dsimp only
      have hfn : bucketEntryFn cp fo b (word, fns) = none := by
        unfold bucketEntryFn
        dsimp only
        rw [he]
      have hbe : bucketEntries cp fo ((word, fns) :: t) b = bucketEntries cp fo t b := by
        rw [bucketEntries_cons, hfn]
      rw [hbe]
      exact buildBuckets_lookup cp fo t bm hndt
        (fun w hw => habs w (List.mem_cons_of_mem _ hw)) b
    · dsimp only
      by_cases hlen : 2 ≤ ew.length ∧ ew.length ≤ 17
      · rw [if_pos hlen]
        by_cases hids : natSortAsc
            (List.dedup (fns.filterMap (fun n => fo.lookup (strUpper n)))) = []
        · rw [if_pos hids]
          have hfn : bucketEntryFn cp fo b (word, fns) = none := by
            unfold bucketEntryFn
            dsimp only
            rw [he]
            dsimp only
            rw [if_pos hlen]
            rw [if_pos hids]
          have hbe : bucketEntries cp fo ((word, fns) :: t) b = bucketEntries cp fo t b := by
            rw [bucketEntries_cons, hfn]
          rw [hbe]
          exact buildBuckets_lookup cp fo t bm hndt
            (fun w hw => habs w (List.mem_cons_of_mem _ hw)) b
        · rw [if_neg hids]
          have habs2 : ∀ w ∈ t.map Prod.fst,
              ∀ p ∈ bucketInsert bm (compute_word_hash ew) word
                (ew, natSortAsc (List.dedup (fns.filterMap (fun n => fo.lookup (strUpper n))))),
              w ∉ p.2.map Prod.fst := by
            intro w hw p hp hwk
            rcases bucketInsert_mem_keys bm (compute_word_hash ew) word _ p hp w hwk with
              h1 | ⟨q, hq, hqk⟩
            · exact hndh (h1 ▸ hw)
            · exact habs w (List.mem_cons_of_mem _ hw) q hq hqk
          rw [buildBuckets_lookup cp fo t _ hndt habs2 b]
          by_cases hb : b = compute_word_hash ew
          · subst hb
            have hfn : bucketEntryFn cp fo (compute_word_hash ew) (word, fns) =
                some (word, (ew, natSortAsc
                  (List.dedup (fns.filterMap (fun n => fo.lookup (strUpper n)))))) := by
              unfold bucketEntryFn
              dsimp only
              rw [he]
              dsimp only
              rw [if_pos hlen]
              rw [if_neg hids]
              rw [if_pos rfl]
            have hbe : bucketEntries cp fo ((word, fns) :: t) (compute_word_hash ew) =
                (word, (ew, natSortAsc
                  (List.dedup (fns.filterMap (fun n => fo.lookup (strUpper n)))))) ::
                  bucketEntries cp fo t (compute_word_hash ew) := by
              rw [bucketEntries_cons, hfn]
            rw [hbe]
            rcases hbm : bm.lookup (compute_word_hash ew) with _ | es
            · have hself := bucketInsert_lookup_self bm (compute_word_hash ew) word
                (ew, natSortAsc (List.dedup (fns.filterMap (fun n => fo.lookup (strUpper n)))))
                (by rw [hbm]; simp)
              rw [hbm] at hself
              rw [hself]
              dsimp only
              rw [if_neg (List.cons_ne_nil _ _)]
              rfl
            · have hwabs : word ∉ ((bm.lookup (compute_word_hash ew)).getD []).map Prod.fst := by
                rw [hbm]
                exact habs word (List.mem_cons_self _ _) (compute_word_hash ew, es)
                  (lookup_some_mem bm (compute_word_hash ew) es hbm)
              have hself := bucketInsert_lookup_self bm (compute_word_hash ew) word
                (ew, natSortAsc (List.dedup (fns.filterMap (fun n => fo.lookup (strUpper n)))))
                hwabs
              rw [hbm] at hself
              rw [hself]
              dsimp only
              rw [show ((some es : Option (List (Str × (List Byte × List Nat)))).getD []) = es
                from rfl]
              rw [List.append_assoc]
              rw [List.singleton_append]
          · have hfn : bucketEntryFn cp fo b (word, fns) = none := by
              unfold bucketEntryFn
              dsimp only
              rw [he]
              dsimp only
              rw [if_pos hlen]
              rw [if_neg hids]
              rw [if_neg (fun h => hb h.symm)]
            have hbe : bucketEntries cp fo ((word, fns) :: t) b = bucketEntries cp fo t b := by
              rw [bucketEntries_cons, hfn]
            rw [hbe]
            rw [bucketInsert_lookup_other bm (compute_word_hash ew) word _ b hb]
      · rw [if_neg hlen]
        have hfn : bucketEntryFn cp fo b (word, fns) = none := by
          unfold bucketEntryFn
          dsimp only
          rw [he]
          dsimp only
          rw [if_neg hlen]
        have hbe : bucketEntries cp fo ((word, fns) :: t) b = bucketEntries cp fo t b := by
          rw [bucketEntries_cons, hfn]
        rw [hbe]
        exact buildBuckets_lookup cp fo t bm hndt
          (fun w hw => habs w (List.mem_cons_of_mem _ hw)) b

theorem bucketEntryFn_some_key (cp : CodepageInfo) (fo : List (Str × Nat)) (b : Nat)
    (e : Str × List Str) (v : Str × (List Byte × List Nat))
    (h : bucketEntryFn cp fo b e = some v) : v.1 = e.1 := by
  unfold bucketEntryFn at h
  rcases he : cp.encode e.1 with err | ew
  · rw [he] at h
    exact Option.noConfusion h
  · rw [he] at h
    dsimp only at h
    by_cases hlen : 2 ≤ ew.length ∧ ew.length ≤ 17
    · rw [if_pos hlen] at h
      by_cases hids : natSortAsc
          (List.dedup (e.2.filterMap (fun n => fo.lookup (strUpper n)))) = []
      · rw [if_pos hids] at h
        exact Option.noConfusion h
      · rw [if_neg hids] at h
        by_cases hb : compute_word_hash ew = b
        · rw [if_pos hb] at h
          injection h with h1
          rw [← h1]
        · rw [if_neg hb] at h
          exact Option.noConfusion h
    · rw [if_neg hlen] at h
      exact Option.noConfusion h

theorem bucketEntries_keys_sublist (cp : CodepageInfo) (fo : List (Str × Nat)) :
    ∀ (wi : List (Str × List Str)) (b : Nat),
    ((bucketEntries cp fo wi b).map Prod.fst).Sublist (wi.map Prod.fst)
  | [], b => by
    rw [bucketEntries_nil]
    exact List.nil_sublist _
  | e :: t, b => by
    rw [bucketEntries_cons]
    rcases hfn : bucketEntryFn cp fo b e with _ | v
    · dsimp only
      rw [List.map_cons]
      exact (bucketEntries_keys_sublist cp fo t b).cons e.1
    · dsimp only
      rw [List.map_cons, List.map_cons]
      rw [bucketEntryFn_some_key cp fo b e v hfn]
      exact (bucketEntries_keys_sublist cp fo t b).cons₂ e.1

theorem forall2_keys_eq : ∀ {l1 l2 : List (Str × List Str)},
    List.Forall₂ entryEquiv l1 l2 → l1.map Prod.fst = l2.map Prod.fst := by
  intro l1 l2 h
  induction h with
  | nil => rfl
  | cons h1 h2 ih =>
    obtain ⟨hk, hp⟩ := h1
    rw [List.map_cons, List.map_cons, hk, ih]

theorem bucketEntryFn_congr (cp : CodepageInfo) (fo : List (Str × Nat)) (b : Nat)
    (e1 e2 : Str × List Str) (hk : e1.1 = e2.1) (hp : e1.2.Perm e2.2) :
    bucketEntryFn cp fo b e1 = bucketEntryFn cp fo b e2 := by
  rcases e1 with ⟨w1, f1⟩
  rcases e2 with ⟨w2, f2⟩
  dsimp only at hk hp
  subst hk
  unfold bucketEntryFn
  dsimp only
  have hids : natSortAsc (List.dedup (f1.filterMap (fun n => fo.lookup (strUpper n)))) =
      natSortAsc (List.dedup (f2.filterMap (fun n => fo.lookup (strUpper n)))) :=
    natSortAsc_perm_eq ((hp.filterMap _).dedup)
  simp only [hids]

theorem bucketEntries_forall2 (cp : CodepageInfo) (fo : List (Str × Nat))
    {l1 l2 : List (Str × List Str)} (hf : List.Forall₂ entryEquiv l1 l2) (b : Nat) :
    bucketEntries cp fo l1 b = bucketEntries cp fo l2 b := by
  induction hf with
  | nil => rfl
  | cons h1 h2 ih =>
    obtain ⟨hk, hp⟩ := h1
    rw [bucketEntries_cons, bucketEntries_cons, bucketEntryFn_congr cp fo b _ _ hk hp]
    simp only [ih]

theorem emitBucketsGo_congr (bm1 bm2 : BucketMap)
    (h : ∀ b, ((bm1.lookup b = none ∧ bm2.lookup b = none) ∨
      ∃ es1 es2, bm1.lookup b = some es1 ∧ bm2.lookup b = some es2 ∧
        sortEntries es1 = sortEntries es2)) :
    ∀ (bs : List Nat) (lows : List Byte) (offs : List Nat),
    emitBucketsGo bm1 bs lows offs = emitBucketsGo bm2 bs lows offs
  | [], _, _ => rfl
  | b :: rest, lows, offs => by
    simp only [emitBucketsGo]
    rcases h b with ⟨h1, h2⟩ | ⟨es1, es2, h1, h2, hse⟩
    · rw [h1, h2]
      dsimp only
      exact emitBucketsGo_congr bm1 bm2 h rest _ _
    · rw [h1, h2]
      dsimp only
      rw [hse]
      rcases hs : sortEntries es2 with _ | ⟨e0, es⟩
      · exact emitBucketsGo_congr bm1 bm2 h rest _ _
      · dsimp only
        rcases emitEntries b e0.2.1.length (e0 :: es) with err | body
        · rfl
        · exact emitBucketsGo_congr bm1 bm2 h rest _ _

theorem build_dict_index_equiv (wi1 wi2 : List (Str × List Str)) (fo : List (Str × Nat))
    (cp : CodepageInfo) (hnd : (wi1.map Prod.fst).Nodup) (he : wordIndexEquiv wi1 wi2) :
    build_dict_index wi1 fo cp = build_dict_index wi2 fo cp := by
  obtain ⟨wi, hf, hp⟩ := he
  have hkeys : wi1.map Prod.fst = wi.map Prod.fst := forall2_keys_eq hf
  have hndw : (wi.map Prod.fst).Nodup := hkeys ▸ hnd
  have hnd2 : (wi2.map Prod.fst).Nodup := ((hp.map Prod.fst).nodup_iff).mp hndw
  have hbe1 : ∀ b, bucketEntries cp fo wi1 b = bucketEntries cp fo wi b :=
    fun b => bucketEntries_forall2 cp fo hf b
  have hbe2 : ∀ b, (bucketEntries cp fo wi b).Perm (bucketEntries cp fo wi2 b) :=
    fun b => hp.filterMap _
  have h1' : ∀ b, (buildBuckets cp fo wi1 []).lookup b =
      if bucketEntries cp fo wi1 b = [] then none else some (bucketEntries cp fo wi1 b) :=
    fun b => buildBuckets_lookup cp fo wi1 [] hnd
      (fun _ _ p hp' => absurd hp' (List.not_mem_nil p)) b
  have h2' : ∀ b, (buildBuckets cp fo wi2 []).lookup b =
      if bucketEntries cp fo wi2 b = [] then none else some (bucketEntries cp fo wi2 b) :=
    fun b => buildBuckets_lookup cp fo wi2 [] hnd2
      (fun _ _ p hp' => absurd hp' (List.not_mem_nil p)) b
  have hequiv : ∀ b, (((buildBuckets cp fo wi1 []).lookup b = none ∧
        (buildBuckets cp fo wi2 []).lookup b = none) ∨
      ∃ es1 es2, (buildBuckets cp fo wi1 []).lookup b = some es1 ∧
        (buildBuckets cp fo wi2 []).lookup b = some es2 ∧
        sortEntries es1 = sortEntries es2) := by
    intro b
    by_cases hb : bucketEntries cp fo wi1 b = []
    · left
      have hbnil : bucketEntries cp fo wi2 b = [] := by
        have hpn := hbe2 b
        rw [← hbe1 b, hb] at hpn
        exact (hpn.symm).eq_nil
      constructor
      · rw [h1' b, if_pos hb]
      · rw [h2' b, if_pos hbnil]
    · right
      have hbnil2 : bucketEntries cp fo wi2 b ≠ [] := by
        intro hcontra
        apply hb
        have hpn := hbe2 b
        rw [← hbe1 b, hcontra] at hpn
        exact hpn.eq_nil
      refine ⟨bucketEntries cp fo wi1 b, bucketEntries cp fo wi2 b, ?_, ?_, ?_⟩
      · rw [h1' b, if_neg hb]
      · rw [h2' b, if_neg hbnil2]
      · have hndk : ((bucketEntries cp fo wi b).map Prod.fst).Nodup :=
          hndw.sublist (bucketEntries_keys_sublist cp fo wi b)
        rw [hbe1 b]
        exact sortEntries_perm_eq _ _ (hbe2 b) hndk
  by_cases hbm1 : buildBuckets cp fo wi1 [] = []
  · have hbm2 : buildBuckets cp fo wi2 [] = [] := by
      by_contra hne
      rcases hq : buildBuckets cp fo wi2 [] with _ | ⟨q, t⟩
      · exact hne hq
      · rcases q with ⟨qb, qes⟩
        have hlq : (buildBuckets cp fo wi2 []).lookup qb = some qes := by
          rw [hq]
          exact lookup_cons_self t qb qes
        rcases hequiv qb with ⟨_, hb'⟩ | ⟨es1, es2, ha, _, _⟩
        · rw [hlq] at hb'
          exact Option.noConfusion hb'
        · rw [hbm1] at ha
          exact Option.noConfusion ha
    simp only [build_dict_index]
    rw [if_pos hbm1, if_pos hbm2]
  · have hbm2 : buildBuckets cp fo wi2 [] ≠ [] := by
      intro h2nil
      apply hbm1
      rcases hq : buildBuckets cp fo wi1 [] with _ | ⟨q, t⟩
      · rfl
      · exfalso
        rcases q with ⟨qb, qes⟩
        have hlq : (buildBuckets cp fo wi1 []).lookup qb = some qes := by
          rw [hq]
          exact lookup_cons_self t qb qes
        rcases hequiv qb with ⟨ha, _⟩ | ⟨es1, es2, _, hb', _⟩
        · rw [hlq] at ha
          exact Option.noConfusion ha
        · rw [h2nil] at hb'
          exact Option.noConfusion hb'
    simp only [build_dict_index]
    rw [if_neg hbm1, if_neg hbm2]
    rw [emitBucketsGo_congr _ _ hequiv (List.range 256) [] []]

/-- Claim C9: `build_amb` is deterministic.  All stages of the embedded
pipeline are functions of their inputs; the one place where two Python runs
over the same inputs can present the data differently is `set` iteration
order (hash-randomized), which reaches the archive only through the word
index.  Proved: the post-render archive bytes are invariant under any
reordering of the word-index entries and of each word's filename set
(`wordIndexEquiv`) — the `sorted` calls on file ids and on each bucket's
words, and the fixed `range(256)` bucket walk, erase the order, so the
produced archives are byte-identical. -/
theorem C9_build_amb_deterministic (base_files : List (Str × List Byte))
    (wi1 wi2 : List (Str × List Str)) (cp : CodepageInfo)
    (hnd : (wi1.map Prod.fst).Nodup) (he : wordIndexEquiv wi1 wi2) :
    build_amb_post base_files wi1 cp = build_amb_post base_files wi2 cp := by
  simp only [build_amb_post]
  rw [build_dict_index_equiv wi1 wi2 (compute_file_offsets base_files false) cp hnd he]
  simp only [build_dict_index_equiv wi1 wi2 (compute_file_offsets base_files true) cp hnd he]

theorem C9_build_amb_deterministic_witness :
    build_amb_post [(str "INDEX.AMA", [1, 2, 3])]
      [(str "hi", [str "A.AMA", str "B.AMA"]), (str "yo", [str "A.AMA"])] cpLatin1 =
    build_amb_post [(str "INDEX.AMA", [1, 2, 3])]
      [(str "yo", [str "A.AMA"]), (str "hi", [str "B.AMA", str "A.AMA"])] cpLatin1 :=
  C9_build_amb_deterministic [(str "INDEX.AMA", [1, 2, 3])]
    [(str "hi", [str "A.AMA", str "B.AMA"]), (str "yo", [str "A.AMA"])]
    [(str "yo", [str "A.AMA"]), (str "hi", [str "B.AMA", str "A.AMA"])] cpLatin1
    (by decide)
    ⟨[(str "hi", [str "B.AMA", str "A.AMA"]), (str "yo", [str "A.AMA"])],
     List.Forall₂.cons ⟨rfl, by decide⟩ (List.Forall₂.cons ⟨rfl, by decide⟩ List.Forall₂.nil),
     by decide⟩

theorem rstripNl_sublist (s : Str) : (rstripNl s).Sublist s := by
  have h : ((s.reverse.dropWhile (fun c => c = nl)).reverse).Sublist s.reverse.reverse :=
    (List.dropWhile_sublist _).reverse
  rw [List.reverse_reverse] at h
  exact h

/-- For a nonempty segment of encoded latin-1 lines, the segment's lines
(without any trailer) encode, to at most the sum of the per-line encoded
sizes the splitter tracked (the serializer's trailing-newline strip can only
shrink the joined content). -/
theorem latin1_seg_size_le (s : List EncLine) (hne : s ≠ [])
    (henc : ∀ l ∈ s, (∀ c ∈ l.1, c.toNat < 256) ∧ l.2.length = l.1.length + 1) :
    ∃ sz, _encoded_size cpLatin1 (s.map Prod.fst) = .ok sz ∧
      sz ≤ (s.map (fun l => l.2.length)).sum := by
  have hmapne : s.map Prod.fst ≠ [] := by simpa using hne
  have hinterall : ∀ c ∈ List.intercalate [nl] (s.map Prod.fst), c.toNat < 256 := by
    apply all256_intercalate
    intro li hli
    rcases List.mem_map.1 hli with ⟨l, hlmem, hfst⟩
    rw [← hfst]
    exact (henc l hlmem).1
  have hall : ∀ c ∈ joinedContent (s.map Prod.fst), c.toNat < 256 := by
    unfold joinedContent
    apply all256_append
    · intro c hc
      exact hinterall c ((rstripNl_sublist _).subset hc)
    · intro c hc
      rw [List.mem_singleton] at hc
      rw [hc]
      decide
  refine ⟨(joinedContent (s.map Prod.fst)).length, latin1_encoded_size_eq _ _ rfl hall, ?_⟩
  unfold joinedContent
  rw [List.length_append]
  rw [show ([nl] : Str).length = 1 from rfl]
  have h1 : (rstripNl (List.intercalate [nl] (s.map Prod.fst))).length ≤
      (List.intercalate [nl] (s.map Prod.fst)).length := (rstripNl_sublist _).length_le
  have h2 := intercalate_length (s.map Prod.fst) hmapne
  have h3 : ((s.map Prod.fst).map List.length).sum = (s.map (fun l => l.1.length)).sum := by
    rw [List.map_map]
    rfl
  have h4 : (s.map (fun l => l.2.length)).sum =
      (s.map (fun l => l.1.length)).sum + s.length := by
    have hcong : s.map (fun l => l.2.length) = s.map (fun l => l.1.length + 1) :=
      List.map_congr_left (fun l hlm => (henc l hlm).2)
    rw [hcong, sum_map_add_one]
  rw [h3] at h2
  rw [List.length_map] at h2
  omega

/-- Every non-terminal entry of a successful `buildSegResult` passed the
trailer-inclusive size check the code performs. -/
theorem buildSegResult_sizes (cp : CodepageInfo) : ∀ (prs out : List (Str × List Str)),
    buildSegResult cp prs = .ok out →
    ∀ i, i + 1 < out.length →
    ∃ sz, _encoded_size cp (out.getD i ([], [])).2 = .ok sz ∧ sz ≤ AMA_MAX_BYTES
  | [], out, h, i, hi => by
    injection h with h1
    rw [← h1] at hi
    exact absurd hi (by simp)
  | [(nm, seg)], out, h, i, hi => by
    injection h with h1
    rw [← h1] at hi
    rw [List.length_singleton] at hi
    exact absurd hi (by omega)
  | (nm, seg) :: next :: rest, out, h, i, hi => by
    simp only [buildSegResult] at h
    rcases hsz : _encoded_size cp (seg ++ [[], trailerLine next.1]) with e | sz
    · rw [hsz] at h
      exact Except.noConfusion h
    · rw [hsz] at h
      dsimp only at h
      by_cases hle : AMA_MAX_BYTES < sz
      · rw [if_pos hle] at h
        exact Except.noConfusion h
      · rw [if_neg hle] at h
        rcases ht : buildSegResult cp (next :: rest) with e | tail
        · rw [ht] at h
          exact Except.noConfusion h
        · rw [ht] at h
          dsimp only at h
          injection h with h1
          rw [← h1] at hi ⊢
          cases i with
          | zero =>
            refine ⟨sz, ?_, by omega⟩
            rw [show (((nm, seg ++ [[], trailerLine next.1]) :: tail).getD 0 ([], [])).2
              = seg ++ [[], trailerLine next.1] from rfl]
            exact hsz
          | succ j =>
            have hj : j + 1 < tail.length := by
              rw [List.length_cons] at hi
              omega
            have hih := buildSegResult_sizes cp (next :: rest) tail ht j hj
            rw [show ((nm, seg ++ [[], trailerLine next.1]) :: tail).getD (j + 1) ([], [])
              = tail.getD j ([], []) from rfl]
            exact hih

theorem buildSegResult_length (cp : CodepageInfo) : ∀ (prs out : List (Str × List Str)),
    buildSegResult cp prs = .ok out → out.length = prs.length
  | [], out, h => by
    injection h with h1
    rw [← h1]
  | [(nm, seg)], out, h => by
    injection h with h1
    rw [← h1]
  | (nm, seg) :: next :: rest, out, h => by
    simp only [buildSegResult] at h
    rcases hsz : _encoded_size cp (seg ++ [[], trailerLine next.1]) with e | sz
    · rw [hsz] at h
      exact Except.noConfusion h
    · rw [hsz] at h
      dsimp only at h
      by_cases hle : AMA_MAX_BYTES < sz
      · rw [if_pos hle] at h
        exact Except.noConfusion h
      · rw [if_neg hle] at h
        rcases ht : buildSegResult cp (next :: rest) with e | tail
        · rw [ht] at h
          exact Except.noConfusion h
        · rw [ht] at h
          dsimp only at h
          injection h with h1
          rw [← h1]
          rw [List.length_cons, List.length_cons,
            buildSegResult_length cp (next :: rest) tail ht, List.length_cons]

/-- `buildSegResult` leaves the terminal segment untouched: the last output
entry is the last input pair. -/
theorem buildSegResult_getLast (cp : CodepageInfo) : ∀ (prs out : List (Str × List Str)),
    buildSegResult cp prs = .ok out → out.getLast? = prs.getLast?
  | [], out, h => by
    injection h with h1
    rw [← h1]
  | [(nm, seg)], out, h => by
    injection h with h1
    rw [← h1]
  | (nm, seg) :: next :: rest, out, h => by
    simp only [buildSegResult] at h
    rcases hsz : _encoded_size cp (seg ++ [[], trailerLine next.1]) with e | sz
    · rw [hsz] at h
      exact Except.noConfusion h
    · rw [hsz] at h
      dsimp only at h
      by_cases hle : AMA_MAX_BYTES < sz
      · rw [if_pos hle] at h
        exact Except.noConfusion h
      · rw [if_neg hle] at h
        rcases ht : buildSegResult cp (next :: rest) with e | tail
        · rw [ht] at h
          exact Except.noConfusion h
        · rw [ht] at h
          dsimp only at h
          injection h with h1
          have hih := buildSegResult_getLast cp (next :: rest) tail ht
          have hlen := buildSegResult_length cp (next :: rest) tail ht
          rw [← h1]
          cases tail with
          | nil =>
            exfalso
            rw [List.length_nil, List.length_cons] at hlen
            omega
          | cons t0 ts =>
            rw [List.getLast?_cons_cons, List.getLast?_cons_cons]
            exact hih

/-- Claim C4 (amended): under the latin-1 page, the splitter's planned
segments are an ordered partition of the article's lines — concatenating the
(nonempty) planned segments reproduces the input lines exactly — and every
segment fits: each non-terminal output entry (blank line and actual
`%l<next>:Continue%t` trailer included) encodes to at most AMA_MAX_BYTES,
and the terminal entry encodes to at most AMA_MAX_BYTES without a trailer.
But the segment count is not minimal: the greedy pop-back reserves the
worst-case 27-byte overhead of a 12-character placeholder even when the
actual continuation names are shorter, so a coarser valid partition can
exist (`C4_counterexample`). -/
theorem C4_split_is_partition (fuel : Nat) (filename : Str) (lines : List Str)
    (encLines : List EncLine) (segs0 : List (List EncLine)) (names : List Str)
    (out : List (Str × List Str))
    (h3 : encodeLinesGo cpLatin1 filename 0 lines = .ok encLines)
    (h5 : splitLoop filename 27 fuel encLines [] 0 [] = some (.ok segs0))
    (hnames : genSegNames filename fuel ((segs0.filter (fun s => s ≠ [])).length) =
      some names)
    (hbuild : buildSegResult cpLatin1
      (names.zip ((segs0.filter (fun s => s ≠ [])).map (fun s => s.map Prod.fst))) =
      .ok out) :
    ((segs0.filter (fun s => s ≠ [])).map (fun s => s.map Prod.fst)).flatten = lines ∧
    (∀ i, i + 1 < out.length →
      ∃ sz, _encoded_size cpLatin1 (out.getD i ([], [])).2 = .ok sz ∧
        sz ≤ AMA_MAX_BYTES) ∧
    ∀ last, out.getLast? = some last →
      ∃ sz, _encoded_size cpLatin1 last.2 = .ok sz ∧ sz ≤ AMA_MAX_BYTES := by
  refine ⟨?_, buildSegResult_sizes cpLatin1 _ out hbuild, ?_⟩
  · rw [flatten_map_map]
    rw [flatten_filter_ne_nil]
    rw [splitLoop_join filename 27 fuel encLines [] 0 [] segs0 h5]
    rw [show (([] : List (List EncLine)).flatten ++ ([] : List EncLine).reverse ++ encLines)
        = encLines from by
      rw [List.flatten_nil, List.reverse_nil, List.append_nil, List.nil_append]]
    exact encodeLinesGo_fst cpLatin1 filename lines 0 encLines h3
  · intro last hlast
    have hplast : (names.zip ((segs0.filter (fun s => s ≠ [])).map
        (fun s => s.map Prod.fst))).getLast? = some last := by
      rw [← buildSegResult_getLast cpLatin1 _ out hbuild]
      exact hlast
    have hmem := List.mem_of_getLast?_eq_some hplast
    obtain ⟨lnm, lseg⟩ := last
    have hmem2 : lseg ∈ (segs0.filter (fun s => s ≠ [])).map (fun s => s.map Prod.fst) :=
      (List.of_mem_zip hmem).2
    rcases List.mem_map.1 hmem2 with ⟨s, hsmem, hseq⟩
    have hQ := encodeLinesGo_inv cpLatin1 filename lines 0 encLines h3
    obtain ⟨⟨ff, fd, hdecomp, hff, hfd⟩, hQseg⟩ :=
      splitLoop_sizes filename 27
        (fun l => (∀ c ∈ l.1, c.toNat < 256) ∧ l.2.length = l.1.length + 1)
        fuel encLines [] 0 [] segs0 h5 rfl (Nat.zero_le _)
        (by intro s2 hs2; exact absurd hs2 (List.not_mem_nil s2))
        (by
          intro l hl
          have he := hQ l hl
          refine ⟨?_, ?_⟩
          · intro c hc
            exact latin1_encodeFrom_all256 (l.1 ++ [nl]) 0 l.2 he c
              (List.mem_append.2 (Or.inl hc))
          · have hlen := encodeFrom_ok_len cpLatin1 (l.1 ++ [nl]) 0 l.2 he
            rw [List.length_append, List.length_singleton] at hlen
            exact hlen)
        (by intro l hl; exact absurd hl (List.not_mem_nil l))
        (by intro s2 hs2; exact absurd hs2 (List.not_mem_nil s2))
    have hs0 : s ∈ segs0 := List.mem_of_mem_filter hsmem
    have hsne : s ≠ [] := by simpa using List.of_mem_filter hsmem
    have hs0ffd : s ∈ ff ++ fd := by
      rw [← hdecomp]
      exact hs0
    have hsum : (s.map (fun l => l.2.length)).sum ≤ AMA_MAX_BYTES := by
      rcases List.mem_append.1 hs0ffd with h1 | h2
      · rcases hff s h1 with h3 | h4
        · exact absurd h3 hsne
        · omega
      · rcases hfd with h3 | ⟨d, h4, h5d⟩
        · rw [h3] at h2
          exact absurd h2 (List.not_mem_nil s)
        · rw [h4, List.mem_singleton] at h2
          rw [h2]
          exact h5d
    obtain ⟨sz, hok, hle2⟩ := latin1_seg_size_le s hsne
      (fun l hl => hQseg s hs0 l hl)
    refine ⟨sz, ?_, by omega⟩
    show _encoded_size cpLatin1 lseg = .ok sz
    rw [← hseq]
    exact hok

theorem C4_split_is_partition_witness :
    ((([[(str "hi", [104, 105, 10])]] : List (List EncLine)).filter
        (fun s => s ≠ [])).map (fun s => s.map Prod.fst)).flatten = [str "hi"] ∧
    (∀ i, i + 1 < ([(str "A.AMA", [str "hi"])] : List (Str × List Str)).length →
      ∃ sz, _encoded_size cpLatin1
          ((([(str "A.AMA", [str "hi"])] : List (Str × List Str)).getD i ([], [])).2) =
          .ok sz ∧ sz ≤ AMA_MAX_BYTES) ∧
    ∀ last, ([(str "A.AMA", [str "hi"])] : List (Str × List Str)).getLast? = some last →
      ∃ sz, _encoded_size cpLatin1 last.2 = .ok sz ∧ sz ≤ AMA_MAX_BYTES :=
  C4_split_is_partition 5 (str "A.AMA") [str "hi"] [(str "hi", [104, 105, 10])]
    [[(str "hi", [104, 105, 10])]] [str "A.AMA"] [(str "A.AMA", [str "hi"])]
    (by rfl) (by rfl) (by rfl) (by rfl)

end Mambler
